import Mathlib

/-!
# big-mask: the value extractor, the mask resolution engine and the streaming
substitution engine

A shallow embedding of `masking.go`.  Go strings are byte sequences, so a
string is a list of bytes; `len`, indexing, slicing, `strings.Index` and
`strings.Contains` all work on bytes.  Go maps are association lists with
distinct keys, listed in the order in which `range` happens to enumerate
them; a lookup of a missing key gives the zero value.  The global counter of
`initMaskValues` is explicit state.
-/

namespace BigMask

/-! ## Strings -/

/-- A Go string: a sequence of bytes. -/
abbrev GoString := List UInt8

/-- The Go conversion `string(r)` of an integer code point: its UTF-8
encoding, and the encoding of U+FFFD for a value that is no code point. -/
def runeToString (r : Int) : GoString :=
  let n := r.toNat
  if r < 0 ∨ 0x10FFFF < r ∨ (0xD800 ≤ r ∧ r ≤ 0xDFFF) then [0xEF, 0xBF, 0xBD]
  else if n < 0x80 then [UInt8.ofNat n]
  else if n < 0x800 then [UInt8.ofNat (0xC0 + n / 64), UInt8.ofNat (0x80 + n % 64)]
  else if n < 0x10000 then
    [UInt8.ofNat (0xE0 + n / 4096), UInt8.ofNat (0x80 + n / 64 % 64),
      UInt8.ofNat (0x80 + n % 64)]
  else
    [UInt8.ofNat (0xF0 + n / 262144), UInt8.ofNat (0x80 + n / 4096 % 64),
      UInt8.ofNat (0x80 + n / 64 % 64), UInt8.ofNat (0x80 + n % 64)]

/-- The bytes of a string literal of the source (UTF-8). -/
def str (s : String) : GoString :=
  s.toList.flatMap (fun c => runeToString c.toNat)

/-- The decimal digit for a value below ten. -/
def digitByte (d : Nat) : UInt8 := UInt8.ofNat (48 + d)

/-- The decimal digits of `n` in front of `acc`; `fuel` bounds the number of digits. -/
def decimalDigits : Nat → Nat → GoString → GoString
  | 0, _, acc => acc
  | fuel + 1, n, acc =>
    if n < 10 then digitByte n :: acc
    else decimalDigits fuel (n / 10) (digitByte (n % 10) :: acc)

/-- The decimal representation of a natural number, without leading zeros. -/
def natToDecimal (n : Nat) : GoString := decimalDigits (n + 1) n []

/-- Go `strconv.Itoa`. -/
def Itoa (i : Int) : GoString :=
  if i < 0 then 45 :: natToDecimal (-i).toNat else natToDecimal i.toNat

/-- A byte that is a decimal digit (`ch -= '0'; ch > 9` fails). -/
def isDigit (ch : UInt8) : Bool := decide (48 ≤ ch.toNat ∧ ch.toNat ≤ 57)

/-- The value accumulated by `n = n*10 + int(ch)` over the digits. -/
def decimalValue (ds : GoString) : Nat :=
  ds.foldl (fun n ch => n * 10 + (ch.toNat - 48)) 0

/-- Go `strconv.Atoi` for a 64-bit `int`: an optional sign, then one or more
decimal digits, and a value in the range of `int`. -/
def Atoi (s : GoString) : Option Int :=
  match s with
  | [] => none
  | c :: cs =>
    let ds := if c = 45 ∨ c = 43 then cs else c :: cs
    if ds = [] then none
    else if ds.all isDigit then
      let v : Int := if c = 45 then -(decimalValue ds : Int) else (decimalValue ds : Int)
      if -(2 : Int) ^ 63 ≤ v ∧ v < (2 : Int) ^ 63 then some v else none
    else none

/-- Source `isInt`. -/
def isInt (val : GoString) : Bool := (Atoi val).isSome

/-- Go `strings.Index`: the byte index of the first occurrence of `substr`
in `s`, or `-1`. -/
def Index : GoString → GoString → Int
  | [], substr => if substr = [] then 0 else -1
  | c :: cs, substr =>
    if substr.isPrefixOf (c :: cs) then 0
    else
      let r := Index cs substr
      if r < 0 then -1 else r + 1

/-- Go `strings.Contains`. -/
def Contains (s substr : GoString) : Bool := decide (0 ≤ Index s substr)

/-- Go `strings.Join(parts, "")`. -/
def Join (parts : List GoString) : GoString := parts.flatten

/-! ## Maps -/

/-- A Go map with string keys, as the list of its entries. -/
abbrev GoMap (β : Type) := List (GoString × β)

/-- The lookup `m[k]` in a map whose values are slices or strings: the zero value
(empty) when the key is missing. -/
def mapGet {α : Type} (m : GoMap (List α)) (k : GoString) : List α :=
  match m with
  | [] => []
  | (k', v) :: rest => if k' = k then v else mapGet rest k

/-- The assignment `m[k] = v`. -/
def mapSet {β : Type} (m : GoMap β) (k : GoString) (v : β) : GoMap β :=
  match m with
  | [] => [(k, v)]
  | (k', v') :: rest => if k' = k then (k, v) :: rest else (k', v') :: mapSet rest k v

/-- The keys of a map, in enumeration order. -/
def mapKeys {β : Type} (m : GoMap β) : List GoString := m.map Prod.fst

/-! ## Sorting -/

/-- Insertion of `x` in front of a sorted list that held the elements after it. -/
def insertStable {α : Type} (less : α → α → Bool) (x : α) : List α → List α
  | [] => [x]
  | y :: ys => if less y x then y :: insertStable less x ys else x :: y :: ys

/-- Go `sort.SliceStable`: the stable sort for the order `less`. -/
def SliceStable {α : Type} (less : α → α → Bool) (l : List α) : List α :=
  l.foldr (insertStable less) []

/-! ## The mask generator -/

/-- Source `maskIntDelimiter`. -/
def maskIntDelimiter : Int := 77

/-- Source `smallestMaskingAmount`. -/
def smallestMaskingAmount : Int := 2

/-- Source `generateUnique4CharString`; `/` and `%` of Go truncate. -/
def generateUnique4CharString (seed : Int) : GoString :=
  let A : Int := 65
  let numCharsInAlphabet : Int := 52
  let val1 := seed.tmod numCharsInAlphabet + A
  let leftover := seed.tdiv numCharsInAlphabet
  let val2 := leftover.tmod numCharsInAlphabet + A
  let leftover := val2.tdiv numCharsInAlphabet
  let char1 := runeToString val1
  let char2 := runeToString val2
  let char3 :=
    if leftover = 1 then str "_"
    else if leftover = 2 then str "~"
    else if leftover = 3 then str "-"
    else if leftover = 4 then str "&"
    else if leftover = 5 then str "~"
    else if leftover = 6 then str "]"
    else if leftover = 7 then str "#"
    else if leftover = 8 then str "\x7d"
    else if leftover = 9 then str ","
    else str "-"
  char3 ++ char1 ++ char2 ++ char3

/-- Source `generateNewValue`. -/
def generateNewValue (seed : GoString) (counter : Int) (desiredLength : Int) : GoString :=
  if desiredLength > smallestMaskingAmount then
    Join [seed, Itoa counter, str "M"]
  else
    generateUnique4CharString counter

/-! ## The mask resolution engine -/

/-- Source `maskstring`. -/
structure maskstring where
  value : GoString
  masked : Bool
deriving DecidableEq, Repr

/-- The state of the loop of `initMaskValues`. -/
structure ResolveState where
  maskValuesInterim : GoMap (List maskstring)
  maskValuesResolved : GoMap GoString
  counter : Int

/-- The loop over the fragments of the current key (source lines 149-160):
every fragment that is not masked and not empty gets a generated value and one
counter value; the result is the fragment list after the loop and the counter. -/
def maskFragments (seedmap : GoMap GoString) :
    List maskstring → Int → List maskstring × Int
  | [], counter => ([], counter)
  | mstring :: rest, counter =>
    match mstring.masked, mstring.value with
    | false, b :: _ =>
      let seedchar := runeToString (b.toNat : Int)
      let seed := mapGet seedmap seedchar
      let newValue := generateNewValue seed counter (mstring.value.length : Int)
      let r := maskFragments seedmap rest (counter + 1)
      (⟨newValue, true⟩ :: r.1, r.2)
    | _, _ =>
      let r := maskFragments seedmap rest counter
      (mstring :: r.1, r.2)

/-- The inner loop over the fragments of a later key (source lines 168-187). -/
def splitFragments (keyVal resolvedMask : GoString) : List maskstring → List maskstring
  | [] => []
  | mstring :: rest =>
    if Contains mstring.value keyVal then
      let valueToSplit := mstring.value
      let start := Index valueToSplit keyVal
      let stop := start + (keyVal.length : Int)
      let firstPart : maskstring := ⟨valueToSplit.take start.toNat, false⟩
      let middlePart : maskstring := ⟨resolvedMask, true⟩
      let endPart : maskstring := ⟨valueToSplit.drop stop.toNat, false⟩
      firstPart :: middlePart :: endPart :: splitFragments keyVal resolvedMask rest
    else
      mstring :: splitFragments keyVal resolvedMask rest

/-- The loop over the later keys (source lines 166-189). -/
def cascade (keyVal : GoString) (maskValuesResolved : GoMap GoString) :
    List GoString → GoMap (List maskstring) → GoMap (List maskstring)
  | [], interim => interim
  | afterKeyVal :: rest, interim =>
    cascade keyVal maskValuesResolved rest
      (mapSet interim afterKeyVal
        (splitFragments keyVal (mapGet maskValuesResolved keyVal) (mapGet interim afterKeyVal)))

/-- The fragment list of the current key after source lines 141-161, and the
counter after them: an integer literal becomes one masked fragment, any other key
has its pending fragments masked. -/
def ownFragments (seedmap : GoMap GoString) (keyVal : GoString) (st : ResolveState) :
    List maskstring × Int :=
  if isInt keyVal then
    let newString := Itoa maskIntDelimiter ++ Itoa st.counter ++ Itoa maskIntDelimiter
    ([⟨newString, true⟩], st.counter + 1)
  else
    maskFragments seedmap (mapGet st.maskValuesInterim keyVal) st.counter

/-- The mask of the current key: `strings.Join(stringsToJoin, "")` (source line 163). -/
def ownMask (seedmap : GoMap GoString) (keyVal : GoString) (st : ResolveState) : GoString :=
  Join ((ownFragments seedmap keyVal st).1.map maskstring.value)

/-- One iteration of the outer loop (source lines 137-191) for `keyVal`, with
`later` the keys after it in `sortedKeys`. -/
def resolveStep (seedmap : GoMap GoString) (keyVal : GoString) (later : List GoString)
    (st : ResolveState) : ResolveState :=
  let own := ownFragments seedmap keyVal st
  let interim := mapSet st.maskValuesInterim keyVal own.1
  let resolved := mapSet st.maskValuesResolved keyVal (ownMask seedmap keyVal st)
  ⟨cascade keyVal resolved later interim, resolved, own.2 + 1⟩

/-- The outer loop of `initMaskValues` over `sortedKeys`. -/
def resolveLoop (seedmap : GoMap GoString) : List GoString → ResolveState → ResolveState
  | [], st => st
  | keyVal :: later, st => resolveLoop seedmap later (resolveStep seedmap keyVal later st)

/-- The first iterations of the outer loop, for the keys `pre`, when `suffix` are
the keys that follow them in `sortedKeys`. -/
def resolvePrefix (seedmap : GoMap GoString) :
    List GoString → List GoString → ResolveState → ResolveState
  | [], _, st => st
  | keyVal :: pre, suffix, st =>
    resolvePrefix seedmap pre suffix (resolveStep seedmap keyVal (pre ++ suffix) st)

/-- The keys of the map in ascending order of length (source lines 127-133). -/
def sortedKeys (maskValuesInterim : GoMap (List maskstring)) : List GoString :=
  SliceStable (fun a b => decide (a.length < b.length)) (mapKeys maskValuesInterim)

/-- The state in which `initMaskValues` ends. -/
def initMaskValuesState (maskValuesInterim : GoMap (List maskstring))
    (seedmap : GoMap GoString) : ResolveState :=
  resolveLoop seedmap (sortedKeys maskValuesInterim) ⟨maskValuesInterim, [], 1000⟩

/-- Source `initMaskValues`: the map it returns. -/
def initMaskValues (maskValuesInterim : GoMap (List maskstring))
    (seedmap : GoMap GoString) : GoMap GoString :=
  (initMaskValuesState maskValuesInterim seedmap).maskValuesResolved

/-- The state of the loop of `initMaskValues` on the map `maskValuesInterim` when its
iteration for the key `keyVal` starts: the iterations for the keys that stand before
`keyVal` in `sortedKeys` are done. -/
def stateBefore (seedmap : GoMap GoString) (maskValuesInterim : GoMap (List maskstring))
    (keyVal : GoString) : ResolveState :=
  let keys := sortedKeys maskValuesInterim
  resolvePrefix seedmap (keys.takeWhile (fun k => decide (k ≠ keyVal)))
    (keys.dropWhile (fun k => decide (k ≠ keyVal))) ⟨maskValuesInterim, [], 1000⟩

/-- The fragment list `frags` has a run of consecutive fragments, every one of them
masked or empty, whose values joined give `mask`. -/
def spellsMask (frags : List maskstring) (mask : GoString) : Prop :=
  ∃ X G Y, frags = X ++ G ++ Y ∧ (∀ g ∈ G, g.masked = true ∨ g.value = []) ∧
    Join (G.map maskstring.value) = mask

/-- The loop of `initMaskValues` has its iteration for the key `K` after the one for `A`
and before the one for `B`: `K` stands between them in `sortedKeys`. -/
@[reducible]
def processedBetween (maskValuesInterim : GoMap (List maskstring)) (A K B : GoString) : Prop :=
  (sortedKeys maskValuesInterim).indexOf A < (sortedKeys maskValuesInterim).indexOf K ∧
    (sortedKeys maskValuesInterim).indexOf K < (sortedKeys maskValuesInterim).indexOf B

/-- The token map as the extraction loop builds it: every token is mapped to the
single unmasked fragment equal to itself. -/
def tokenMap (tokens : List GoString) : GoMap (List maskstring) :=
  tokens.map (fun t => (t, [⟨t, false⟩]))


/-! ## The streaming substitution engine -/

/-- Source `zip`; `none` where the source indexes `a2` out of range. -/
def zip : List GoString → List GoString → Option (List GoString)
  | [], _ => some []
  | _ :: _, [] => none
  | e :: a1, x :: a2 => (zip a1 a2).map (fun r => e :: x :: r)

/-- Go `strings.NewReplacer`: the pairs (old, new) in argument order; `none`
(a panic) for an odd number of arguments. -/
def NewReplacer : List GoString → Option (List (GoString × GoString))
  | [] => some []
  | [_] => none
  | old :: new :: rest => (NewReplacer rest).map (fun r => (old, new) :: r)

/-- The lookup of a replacer at the start of `s`: old strings are compared in
argument order, and the first one that is a prefix of `s` wins (the empty old
string is passed over when `ignoreRoot`); the result is its new string and the
length of the old one. -/
def replacerLookup : List (GoString × GoString) → GoString → Bool → Option (GoString × Nat)
  | [], _, _ => none
  | (old, new) :: rest, s, ignoreRoot =>
    if old.isPrefixOf s && !(ignoreRoot && decide (old = [])) then some (new, old.length)
    else replacerLookup rest s ignoreRoot

/-- What a replacer writes: a byte of the input copied from position `pos`, or the
new string for an old string of length `keylen` matched at position `pos`. -/
inductive Piece where
  | copied (pos : Nat) (b : UInt8)
  | replaced (pos : Nat) (keylen : Nat) (val : GoString)
deriving DecidableEq, Repr

/-- The bytes a piece contributes to the output. -/
def Piece.bytes : Piece → GoString
  | Piece.copied _ b => [b]
  | Piece.replaced _ _ val => val

/-- The scan of Go `(*strings.Replacer).Replace` over the rest of the input from
position `pos`: replacements are made in the order in which they appear in the
input, without overlapping matches; `skip` counts the bytes of the last match still
to be passed over, and an empty match is not taken twice at one position. -/
def replacePieces (oldnew : List (GoString × GoString)) :
    GoString → Nat → Nat → Bool → List Piece
  | [], pos, _, prevMatchEmpty =>
    match replacerLookup oldnew [] prevMatchEmpty with
    | some (val, _) => [Piece.replaced pos 0 val]
    | none => []
  | _ :: cs, pos, skip + 1, _ => replacePieces oldnew cs (pos + 1) skip false
  | c :: cs, pos, 0, prevMatchEmpty =>
    match replacerLookup oldnew (c :: cs) prevMatchEmpty with
    | some (val, keylen + 1) =>
      Piece.replaced pos (keylen + 1) val :: replacePieces oldnew cs (pos + 1) keylen false
    | some (val, 0) =>
      Piece.replaced pos 0 val ::
        (match replacerLookup oldnew (c :: cs) true with
         | some (val', keylen + 1) =>
           Piece.replaced pos (keylen + 1) val' ::
             replacePieces oldnew cs (pos + 1) keylen false
         | _ => Piece.copied pos c :: replacePieces oldnew cs (pos + 1) 0 false)
    | none => Piece.copied pos c :: replacePieces oldnew cs (pos + 1) 0 false

/-- The output for a list of pieces. -/
def renderPieces (pieces : List Piece) : GoString := (pieces.map Piece.bytes).flatten

/-- Go `(*strings.Replacer).Replace`. -/
def Replace (oldnew : List (GoString × GoString)) (s : GoString) : GoString :=
  renderPieces (replacePieces oldnew s 0 0 false)

/-- The opening tag of the Description field. -/
def openTag : GoString := str "<Description>"

/-- The closing tag of the Description field. -/
def closeTag : GoString := str "</Description>"

/-- The replacement text of `descriptionRegex.ReplaceAllString`. -/
def maskedDescription : GoString := str "<Description>MASKED_DESCRIPTION</Description>"

/-- The greedy `(.*)</Description>` at the start of `s`: the length of the longest
text without a line feed that is followed by the closing tag. -/
def lastClose : GoString → Option Nat
  | [] => if closeTag.isPrefixOf [] then some 0 else none
  | c :: cs =>
    match (if c = 10 then none else lastClose cs) with
    | some q => some (q + 1)
    | none => if closeTag.isPrefixOf (c :: cs) then some 0 else none

/-- The scan of `ReplaceAllString` for `<Description>(.*)</Description>`: the
leftmost match is replaced and the search goes on after it; `skip` counts the
bytes of the last match still to be passed over. -/
def descriptionReplaceFrom : GoString → Nat → GoString
  | [], _ => []
  | _ :: cs, skip + 1 => descriptionReplaceFrom cs skip
  | c :: cs, 0 =>
    if openTag.isPrefixOf (c :: cs) then
      match lastClose ((c :: cs).drop openTag.length) with
      | some q =>
        maskedDescription ++
          descriptionReplaceFrom cs (openTag.length + q + closeTag.length - 1)
      | none => c :: descriptionReplaceFrom cs 0
    else c :: descriptionReplaceFrom cs 0

/-- The call `descriptionRegex.ReplaceAllString(linetext, ...)` of source line 234. -/
def descriptionReplace (linetext : GoString) : GoString := descriptionReplaceFrom linetext 0

/-- Whether the line has a Description field: `descriptionRegex` matches somewhere. -/
def descriptionMatch : GoString → Bool
  | [] => false
  | c :: cs =>
    (openTag.isPrefixOf (c :: cs) && (lastClose ((c :: cs).drop openTag.length)).isSome)
      || descriptionMatch cs

/-- The arguments of `strings.NewReplacer` in `maskDataset` (source lines 208-225):
the keys sorted longest first, each followed by its mask. -/
def replacerArgs (maskedValues : GoMap GoString) : Option (List GoString) :=
  let fromTokens :=
    SliceStable (fun a b => decide (a.length > b.length)) (mapKeys maskedValues)
  let toTokens := fromTokens.map (fun key => mapGet maskedValues key)
  zip fromTokens toTokens

/-- The replacer of `maskDataset` (source line 227). -/
def datasetReplacer (maskedValues : GoMap GoString) : Option (List (GoString × GoString)) :=
  (replacerArgs maskedValues).bind NewReplacer

/-- What the replacer writes for one line after the Description field is blanked
(source lines 234-235). -/
def linePieces (maskedValues : GoMap GoString) (linetext : GoString) : Option (List Piece) :=
  (datasetReplacer maskedValues).map
    (fun replacer => replacePieces replacer (descriptionReplace linetext) 0 0 false)

/-- The per-line processing of `maskDataset` (source lines 234-235). -/
def maskLine (maskedValues : GoMap GoString) (linetext : GoString) : Option GoString :=
  (datasetReplacer maskedValues).map
    (fun replacer => Replace replacer (descriptionReplace linetext))

/-- The entry with the longest key among the entries whose key is a prefix of `s`. -/
def longestMatch : GoMap GoString → GoString → Option (GoString × GoString)
  | [], _ => none
  | (k, v) :: rest, s =>
    match longestMatch rest s with
    | some (k', v') =>
      if k.isPrefixOf s && decide (k'.length < k.length) then some (k, v) else some (k', v')
    | none => if k.isPrefixOf s then some (k, v) else none

/-- The reference scan of the specification: left to right, at a position where
some key matches the mask of the longest matching key is substituted and the scan
resumes after the key, otherwise one byte is copied. -/
def referenceScan (m : GoMap GoString) : GoString → Nat → GoString
  | [], _ => []
  | _ :: cs, skip + 1 => referenceScan m cs skip
  | c :: cs, 0 =>
    match longestMatch m (c :: cs) with
    | some (k, v) => v ++ referenceScan m cs (k.length - 1)
    | none => c :: referenceScan m cs 0

/-- The 5000 tokens "a10000", ..., "a14999" followed by the token "b15000". -/
def manyTokens : List GoString :=
  (List.range 5000).map (fun i => 97 :: natToDecimal (10000 + i)) ++
    [98 :: natToDecimal 15000]

/-! ## The value extractor -/

/-- The bytes that `specialCharactersRegex` matches: the characters
less-than, greater-than, ampersand, apostrophe and double quote. -/
def isSpecial (b : UInt8) : Bool := b = 60 || b = 62 || b = 38 || b = 39 || b = 34

/-- The call `descriptionRegex.Split(old, -1)` of source line 105, for the pattern
`specialCharactersRegex`: the pieces between the special bytes, empty pieces
included. -/
def Split : GoString → List GoString
  | [] => [[]]
  | c :: cs =>
    if isSpecial c then [] :: Split cs
    else
      match Split cs with
      | [] => [[c]]
      | piece :: pieces => (c :: piece) :: pieces

/-- The body of the loop over the cells (source lines 103-115). -/
def importCell (maskValuesInterim : GoMap (List maskstring)) (old : GoString) :
    GoMap (List maskstring) :=
  if (old.length : Int) ≥ smallestMaskingAmount ∨ ¬ (mapGet maskValuesInterim old).length > 0 then
    let splitold := Split old
    if splitold.length = 1 then
      mapSet maskValuesInterim old [⟨old, false⟩]
    else
      splitold.foldl
        (fun m val =>
          if (val.length : Int) > smallestMaskingAmount then mapSet m val [⟨val, false⟩] else m)
        maskValuesInterim
  else maskValuesInterim

/-- The extraction loop of `importMappedValuesFromFile` (source lines 96-119) over the
rows of the sheet, each row the values of its cells. -/
def importMappedValues (valuesRows : List (List GoString)) : GoMap (List maskstring) :=
  valuesRows.foldl (fun m row => row.foldl importCell m) []

/-! ## The read/write loop -/

/-- Source `getFileLength`: the number of line feeds in the file. -/
def getFileLength (content : GoString) : Int := (content.count 10 : Int)

/-- The buffer size of `bufio.NewReader`. -/
def defaultBufSize : Nat := 4096

/-- What a call of `reader.ReadLine()` returns, and the part of the file that is
still unread after it. -/
structure ReadLineResult where
  line : GoString
  isPrefix : Bool
  eof : Bool
  unread : GoString
deriving DecidableEq, Repr

/-- Go `(*bufio.Reader).ReadLine` on the unread part of the file: the bytes up to
the first line feed among the next `defaultBufSize` bytes, without the line end
("\n" or "\r\n"); a full buffer without a line feed is returned as a prefix (a
carriage return at its end is left unread); the unterminated rest of the file is
returned as a line; at the end of the file the line is empty and the error is
`io.EOF`. -/
def ReadLine (unread : GoString) : ReadLineResult :=
  let window := unread.take defaultBufSize
  let head := window.takeWhile (fun b => b != 10)
  if head.length < window.length then
    let line := if head.getLast? = some 13 then head.dropLast else head
    ⟨line, false, false, unread.drop (head.length + 1)⟩
  else if window.length = defaultBufSize then
    if window.getLast? = some 13 then
      ⟨window.dropLast, true, false, unread.drop (defaultBufSize - 1)⟩
    else ⟨window, true, false, unread.drop defaultBufSize⟩
  else if window = [] then ⟨[], false, true, []⟩
  else ⟨window, false, false, []⟩

/-- How the read/write loop of `maskDataset` ends. -/
inductive LoopOutcome where
  | returned (written : GoString) (counter : Int)
  | divideByZero
  | unfinished
deriving DecidableEq, Repr

/-- The read/write loop of `maskDataset` (source lines 231-257): `written` is what
has been passed to `writer.WriteString`; `counter % onePercent` panics when
`onePercent` is zero; `fuel` bounds the number of iterations. -/
def readWriteLoop (replacer : List (GoString × GoString)) (onePercent : Int) :
    Nat → GoString → GoString → Int → LoopOutcome
  | 0, _, _, _ => LoopOutcome.unfinished
  | fuel + 1, unread, written, counter =>
    let r := ReadLine unread
    let linetext := r.line
    let newline := Replace replacer (descriptionReplace linetext)
    let written := written ++ (newline ++ str "\n")
    if r.eof then LoopOutcome.returned written counter
    else
      let counter := counter + 1
      if onePercent = 0 then LoopOutcome.divideByZero
      else readWriteLoop replacer onePercent fuel r.unread written counter

/-- Source `maskDataset` on a dataset file with the given content: what is written
to the output file and the counter returned (`none` when `zip` fails). Every
iteration but the last reads at least one byte, so the fuel is enough. -/
def maskDataset (content : GoString) (maskedValues : GoMap GoString) : Option LoopOutcome :=
  let fileLength := getFileLength content
  let onePercent := fileLength.tdiv 100
  (datasetReplacer maskedValues).map
    (fun replacer => readWriteLoop replacer onePercent (content.length + 1) content [] 0)

/-- The unread input begins with the whole line `line`, and `rest` follows it: the
line has no line feed and is followed by its line end, "\n" or "\r\n", with which it
fits into the buffer of the reader, or it is what is left of an input that does not
end in a line feed and is shorter than the buffer. -/
def NextLine (unread line rest : GoString) : Prop :=
  (10 : UInt8) ∉ line ∧
    ((unread = line ++ str "\n" ++ rest ∧ line.getLast? ≠ some 13 ∧
        line.length + 1 ≤ defaultBufSize) ∨
      (unread = line ++ str "\r\n" ++ rest ∧ line.length + 2 ≤ defaultBufSize) ∨
      (unread = line ∧ rest = [] ∧ line ≠ [] ∧ line.length < defaultBufSize))

/-- The mask generated for a pending piece `X` at the counter value `c`: nothing for
the empty piece, otherwise `generateNewValue` with the seed looked up for the first
byte of `X` (source lines 150-154). -/
def pieceMask (seedmap : GoMap GoString) (X : GoString) (c : Int) : GoString :=
  match X with
  | [] => []
  | b :: _ => generateNewValue (mapGet seedmap (runeToString (b.toNat : Int))) c (X.length : Int)

/-- The token maps the extraction loop passes through: distinct keys, each mapped to
the single pending fragment equal to itself. -/
def ExtractorForm (m : GoMap (List maskstring)) : Prop :=
  (mapKeys m).Nodup ∧ ∀ k ∈ mapKeys m, mapGet m k = [⟨k, false⟩]

/-- What one raw value `old` adds to the keys: itself when it has no special byte,
otherwise its pieces longer than 2 bytes. -/
def cellTokens (old k : GoString) : Prop :=
  ((∀ b ∈ old, isSpecial b = false) ∧ k = old) ∨
    ((∃ b ∈ old, isSpecial b = true) ∧ k ∈ Split old ∧ 2 < k.length)

/-! ## Lemmas: maps -/

theorem mapGet_mapSet_same {α : Type} (m : GoMap (List α)) (k : GoString) (v : List α) :
    mapGet (mapSet m k v) k = v := by
  induction m with
  | nil => simp [mapSet, mapGet]
  | cons e rest ih =>
    obtain ⟨k', v'⟩ := e
    by_cases h : k' = k
    · simp [mapSet, mapGet, h]
    · simp [mapSet, mapGet, h, ih]

theorem mapGet_mapSet_ne {α : Type} (m : GoMap (List α)) (k k' : GoString) (v : List α)
    (h : k' ≠ k) : mapGet (mapSet m k v) k' = mapGet m k' := by
  induction m with
  | nil => simp [mapSet, mapGet, Ne.symm h]
  | cons e rest ih =>
    obtain ⟨k0, v0⟩ := e
    by_cases h0 : k0 = k
    · subst h0
      simp [mapSet, mapGet, Ne.symm h]
    · by_cases h1 : k0 = k'
      · subst h1
        simp [mapSet, mapGet, h0]
      · simp [mapSet, mapGet, h0, h1, ih]

theorem mem_mapKeys_mapSet {β : Type} (m : GoMap β) (k k' : GoString) (v : β) :
    k' ∈ mapKeys (mapSet m k v) ↔ k' ∈ mapKeys m ∨ k' = k := by
  induction m with
  | nil => simp [mapSet, mapKeys]
  | cons e rest ih =>
    obtain ⟨k0, v0⟩ := e
    by_cases h0 : k0 = k
    · subst h0
      simp only [mapSet, mapKeys, if_true, List.map_cons, List.mem_cons]
      tauto
    · have ih' : k' ∈ List.map Prod.fst (mapSet rest k v) ↔
          k' ∈ List.map Prod.fst rest ∨ k' = k := ih
      simp only [mapSet, mapKeys, h0, if_false, List.map_cons, List.mem_cons, ih']
      tauto

theorem nodup_mapKeys_mapSet {β : Type} (m : GoMap β) (k : GoString) (v : β)
    (h : (mapKeys m).Nodup) : (mapKeys (mapSet m k v)).Nodup := by
  induction m with
  | nil => simp [mapSet, mapKeys]
  | cons e rest ih =>
    obtain ⟨k0, v0⟩ := e
    have hk : k0 ∉ mapKeys rest ∧ (mapKeys rest).Nodup := by
      simpa [mapKeys] using h
    by_cases h0 : k0 = k
    · subst h0
      simpa [mapSet, mapKeys] using h
    · have h1 : k0 ∉ mapKeys (mapSet rest k v) := by
        rw [mem_mapKeys_mapSet]
        tauto
      have h2 := ih hk.2
      simp only [mapSet, h0, if_false]
      exact List.nodup_cons.mpr ⟨h1, h2⟩

theorem mapGet_tokenMap (tokens : List GoString) (t : GoString) (h : t ∈ tokens) :
    mapGet (tokenMap tokens) t = [⟨t, false⟩] := by
  induction tokens with
  | nil => simp at h
  | cons a rest ih =>
    by_cases ha : a = t
    · simp [tokenMap, mapGet, ha]
    · have : t ∈ rest := by
        rcases List.mem_cons.mp h with h1 | h1
        · exact absurd h1.symm ha
        · exact h1
      simpa [tokenMap, mapGet, ha] using ih this

theorem mapKeys_tokenMap (tokens : List GoString) : mapKeys (tokenMap tokens) = tokens := by
  induction tokens with
  | nil => rfl
  | cons a rest ih => simpa [tokenMap, mapKeys] using ih

/-! ## Lemmas: sorting -/

theorem insertStable_perm {α : Type} (less : α → α → Bool) (x : α) (l : List α) :
    (insertStable less x l).Perm (x :: l) := by
  induction l with
  | nil => simp [insertStable]
  | cons y ys ih =>
    by_cases h : less y x = true
    · simp only [insertStable, h, if_true]
      exact (List.Perm.cons y ih).trans (List.Perm.swap x y ys)
    · simp [insertStable, h]

theorem SliceStable_perm {α : Type} (less : α → α → Bool) (l : List α) :
    (SliceStable less l).Perm l := by
  induction l with
  | nil => simp [SliceStable]
  | cons x xs ih =>
    have h : SliceStable less (x :: xs) = insertStable less x (SliceStable less xs) := rfl
    rw [h]
    exact (insertStable_perm less x _).trans (List.Perm.cons x ih)

theorem insertStable_pairwise {α : Type} (less : α → α → Bool) (R : α → α → Prop)
    (hasym : ∀ a b, less a b = true → R a b)
    (htot : ∀ a b, less a b ≠ true → R b a)
    (htrans : ∀ a b c, R a b → R b c → R a c)
    (x : α) (l : List α) (hl : l.Pairwise R) : (insertStable less x l).Pairwise R := by
  induction l with
  | nil => simp [insertStable]
  | cons y ys ih =>
    have hy := List.pairwise_cons.mp hl
    by_cases h : less y x = true
    · simp only [insertStable, h, if_true]
      refine List.pairwise_cons.mpr ⟨?_, ih hy.2⟩
      intro z hz
      rcases List.mem_cons.mp ((insertStable_perm less x ys).subset hz) with hzx | hzy
      · subst hzx
        exact hasym _ _ h
      · exact hy.1 z hzy
    · simp only [insertStable, h]
      refine List.pairwise_cons.mpr ⟨?_, hl⟩
      intro z hz
      rcases List.mem_cons.mp hz with hzy | hzy
      · subst hzy
        exact htot _ _ h
      · exact htrans _ _ _ (htot _ _ h) (hy.1 z hzy)

theorem SliceStable_pairwise {α : Type} (less : α → α → Bool) (R : α → α → Prop)
    (hasym : ∀ a b, less a b = true → R a b)
    (htot : ∀ a b, less a b ≠ true → R b a)
    (htrans : ∀ a b c, R a b → R b c → R a c)
    (l : List α) : (SliceStable less l).Pairwise R := by
  induction l with
  | nil => simp [SliceStable]
  | cons x xs ih =>
    have h : SliceStable less (x :: xs) = insertStable less x (SliceStable less xs) := rfl
    rw [h]
    exact insertStable_pairwise less R hasym htot htrans x _ ih

theorem sortedKeys_perm (m : GoMap (List maskstring)) : (sortedKeys m).Perm (mapKeys m) :=
  SliceStable_perm _ _

theorem sortedKeys_pairwise (m : GoMap (List maskstring)) :
    (sortedKeys m).Pairwise (fun a b => a.length ≤ b.length) := by
  apply SliceStable_pairwise
  · intro a b h
    have : a.length < b.length := by simpa using h
    omega
  · intro a b h
    have : ¬ a.length < b.length := by simpa using h
    omega
  · intro a b c h1 h2
    omega

/-! ## Lemmas: substrings -/

theorem Index_nonneg_iff (s substr : GoString) : 0 ≤ Index s substr ↔ substr <:+: s := by
  induction s with
  | nil =>
    by_cases h : substr = []
    · simp [Index, h]
    · simp [Index, h]
  | cons c cs ih =>
    by_cases hp : substr.isPrefixOf (c :: cs) = true
    · have hp' : substr <+: c :: cs := List.isPrefixOf_iff_prefix.mp hp
      simp [Index, hp, hp'.isInfix]
    · have hp' : ¬ substr <+: c :: cs := fun h => hp (List.isPrefixOf_iff_prefix.mpr h)
      rw [List.infix_cons_iff]
      by_cases hr : Index cs substr < 0
      · have h1 : ¬ substr <:+: cs := fun h => by
          have := ih.mpr h
          omega
        simp [Index, hp, hr, hp', h1]
      · have h1 : substr <:+: cs := ih.mp (by omega)
        have h2 : 0 ≤ Index cs substr + 1 := by omega
        simp [Index, hp, hr, h1, h2]

theorem Contains_iff (s substr : GoString) : Contains s substr = true ↔ substr <:+: s := by
  simp [Contains, Index_nonneg_iff]

theorem splitFragments_of_not_infix (keyVal resolvedMask : GoString) (frags : List maskstring)
    (h : ∀ f ∈ frags, ¬ keyVal <:+: f.value) :
    splitFragments keyVal resolvedMask frags = frags := by
  induction frags with
  | nil => rfl
  | cons f rest ih =>
    have hf : Contains f.value keyVal ≠ true := by
      rw [Ne, Contains_iff]
      exact h f (List.mem_cons_self _ _)
    simp only [splitFragments, hf, if_false, Bool.false_eq_true]
    rw [ih (fun g hg => h g (List.mem_cons_of_mem _ hg))]

theorem mem_splitFragments_of_mem (keyVal resolvedMask mask : GoString)
    (frags : List maskstring) (hm : (⟨mask, true⟩ : maskstring) ∈ frags)
    (h : ¬ keyVal <:+: mask) :
    (⟨mask, true⟩ : maskstring) ∈ splitFragments keyVal resolvedMask frags := by
  induction frags with
  | nil => simp at hm
  | cons f rest ih =>
    rcases List.mem_cons.mp hm with hf | hf
    · subst hf
      have hc : Contains mask keyVal ≠ true := by
        rw [Ne, Contains_iff]
        exact h
      simp [splitFragments, hc]
    · have := ih hf
      by_cases hc : Contains f.value keyVal = true
      · simp [splitFragments, hc, this]
      · simp [splitFragments, hc, this]

theorem mem_splitFragments_single (keyVal resolvedMask u : GoString) (h : keyVal <:+: u) :
    (⟨resolvedMask, true⟩ : maskstring) ∈
      splitFragments keyVal resolvedMask [⟨u, false⟩] := by
  have hc : Contains u keyVal = true := (Contains_iff _ _).mpr h
  simp [splitFragments, hc]

/-! ## Lemmas: the cascade and one step of the loop -/

theorem mapGet_cascade_of_not_mem (keyVal : GoString) (resolved : GoMap GoString)
    (later : List GoString) (interim : GoMap (List maskstring)) (u : GoString)
    (hu : u ∉ later) : mapGet (cascade keyVal resolved later interim) u = mapGet interim u := by
  induction later generalizing interim with
  | nil => rfl
  | cons a rest ih =>
    have h1 : u ≠ a := fun h => hu (h ▸ List.mem_cons_self _ _)
    have h2 : u ∉ rest := fun h => hu (List.mem_cons_of_mem _ h)
    simp only [cascade]
    rw [ih _ h2, mapGet_mapSet_ne _ _ _ _ h1]

theorem mapGet_cascade_of_mem (keyVal : GoString) (resolved : GoMap GoString)
    (later : List GoString) (interim : GoMap (List maskstring)) (u : GoString)
    (hu : u ∈ later) (hnd : later.Nodup) :
    mapGet (cascade keyVal resolved later interim) u =
      splitFragments keyVal (mapGet resolved keyVal) (mapGet interim u) := by
  induction later generalizing interim with
  | nil => simp at hu
  | cons a rest ih =>
    have hnd' := List.nodup_cons.mp hnd
    simp only [cascade]
    rcases List.mem_cons.mp hu with h | h
    · subst h
      rw [mapGet_cascade_of_not_mem _ _ _ _ _ hnd'.1, mapGet_mapSet_same]
    · have hne : u ≠ a := fun e => hnd'.1 (e ▸ h)
      rw [ih _ h hnd'.2, mapGet_mapSet_ne _ _ _ _ hne]

theorem resolveStep_resolved (seedmap : GoMap GoString) (keyVal : GoString)
    (later : List GoString) (st : ResolveState) :
    (resolveStep seedmap keyVal later st).maskValuesResolved =
      mapSet st.maskValuesResolved keyVal (ownMask seedmap keyVal st) := rfl

theorem resolveStep_counter (seedmap : GoMap GoString) (keyVal : GoString)
    (later : List GoString) (st : ResolveState) :
    (resolveStep seedmap keyVal later st).counter = (ownFragments seedmap keyVal st).2 + 1 := rfl

theorem resolveStep_interim_later (seedmap : GoMap GoString) (keyVal : GoString)
    (later : List GoString) (st : ResolveState) (u : GoString)
    (hu : u ∈ later) (hk : keyVal ∉ later) (hnd : later.Nodup) :
    mapGet (resolveStep seedmap keyVal later st).maskValuesInterim u =
      splitFragments keyVal (ownMask seedmap keyVal st) (mapGet st.maskValuesInterim u) := by
  have hne : u ≠ keyVal := fun e => hk (e ▸ hu)
  show mapGet (cascade keyVal _ later _) u = _
  rw [mapGet_cascade_of_mem _ _ _ _ _ hu hnd, mapGet_mapSet_same, mapGet_mapSet_ne _ _ _ _ hne]

theorem maskFragments_counter_le (seedmap : GoMap GoString) (frags : List maskstring)
    (c : Int) : c ≤ (maskFragments seedmap frags c).2 := by
  induction frags generalizing c with
  | nil => simp [maskFragments]
  | cons f rest ih =>
    obtain ⟨v, m⟩ := f
    cases m with
    | true => simpa [maskFragments] using ih c
    | false =>
      cases v with
      | nil => simpa [maskFragments] using ih c
      | cons b bs =>
        have := ih (c + 1)
        simp only [maskFragments]
        omega

theorem ownFragments_counter_le (seedmap : GoMap GoString) (keyVal : GoString)
    (st : ResolveState) : st.counter ≤ (ownFragments seedmap keyVal st).2 := by
  unfold ownFragments
  split
  · simp
  · exact maskFragments_counter_le _ _ _

theorem resolveStep_counter_lt (seedmap : GoMap GoString) (keyVal : GoString)
    (later : List GoString) (st : ResolveState) :
    st.counter < (resolveStep seedmap keyVal later st).counter := by
  rw [resolveStep_counter]
  have := ownFragments_counter_le seedmap keyVal st
  omega

/-! ## Lemmas: the outer loop -/

theorem resolveLoop_append (seedmap : GoMap GoString) (pre suffix : List GoString)
    (st : ResolveState) :
    resolveLoop seedmap (pre ++ suffix) st =
      resolveLoop seedmap suffix (resolvePrefix seedmap pre suffix st) := by
  induction pre generalizing st with
  | nil => rfl
  | cons k pre ih =>
    show resolveLoop seedmap (pre ++ suffix) _ = _
    rw [ih]
    rfl

theorem resolveLoop_eq_resolvePrefix (seedmap : GoMap GoString) (ks : List GoString)
    (st : ResolveState) : resolveLoop seedmap ks st = resolvePrefix seedmap ks [] st := by
  have h := resolveLoop_append seedmap ks [] st
  rw [List.append_nil] at h
  rw [h]
  rfl

theorem resolvePrefix_append (seedmap : GoMap GoString) (xs ys suffix : List GoString)
    (st : ResolveState) :
    resolvePrefix seedmap (xs ++ ys) suffix st =
      resolvePrefix seedmap ys suffix (resolvePrefix seedmap xs (ys ++ suffix) st) := by
  induction xs generalizing st with
  | nil => rfl
  | cons k xs ih =>
    show resolvePrefix seedmap (xs ++ ys) suffix
      (resolveStep seedmap k ((xs ++ ys) ++ suffix) st) = _
    rw [ih, List.append_assoc]
    rfl

theorem resolvePrefix_counter_le (seedmap : GoMap GoString) (pre suffix : List GoString)
    (st : ResolveState) : st.counter ≤ (resolvePrefix seedmap pre suffix st).counter := by
  induction pre generalizing st with
  | nil => exact le_refl _
  | cons k pre ih =>
    have h1 := resolveStep_counter_lt seedmap k (pre ++ suffix) st
    have h2 := ih (resolveStep seedmap k (pre ++ suffix) st)
    show st.counter ≤ (resolvePrefix seedmap pre suffix _).counter
    omega

theorem resolvePrefix_resolved_of_not_mem (seedmap : GoMap GoString)
    (pre suffix : List GoString) (st : ResolveState) (u : GoString) (hu : u ∉ pre) :
    mapGet (resolvePrefix seedmap pre suffix st).maskValuesResolved u =
      mapGet st.maskValuesResolved u := by
  induction pre generalizing st with
  | nil => rfl
  | cons k pre ih =>
    have h1 : u ≠ k := fun h => hu (h ▸ List.mem_cons_self _ _)
    have h2 : u ∉ pre := fun h => hu (List.mem_cons_of_mem _ h)
    show mapGet (resolvePrefix seedmap pre suffix _).maskValuesResolved u = _
    rw [ih _ h2, resolveStep_resolved, mapGet_mapSet_ne _ _ _ _ h1]

theorem resolveLoop_resolved_of_not_mem (seedmap : GoMap GoString)
    (ks : List GoString) (st : ResolveState) (u : GoString) (hu : u ∉ ks) :
    mapGet (resolveLoop seedmap ks st).maskValuesResolved u =
      mapGet st.maskValuesResolved u := by
  rw [resolveLoop_eq_resolvePrefix]
  exact resolvePrefix_resolved_of_not_mem seedmap ks [] st u hu

/-- The mask a key has when the loop ends is the one its own iteration computed. -/
theorem resolveLoop_resolved_at (seedmap : GoMap GoString) (pre post : List GoString)
    (T : GoString) (st : ResolveState) (hT : T ∉ post) :
    mapGet (resolveLoop seedmap (pre ++ T :: post) st).maskValuesResolved T =
      ownMask seedmap T (resolvePrefix seedmap pre (T :: post) st) := by
  rw [resolveLoop_append]
  show mapGet (resolveLoop seedmap post _).maskValuesResolved T = _
  rw [resolveLoop_resolved_of_not_mem _ _ _ _ hT, resolveStep_resolved, mapGet_mapSet_same]

/-- A property of the fragment list of a later key that every split preserves
holds after the iterations for the keys before it. -/
theorem resolvePrefix_interim_invariant (seedmap : GoMap GoString)
    (P : List maskstring → Prop) (pre suffix : List GoString) (st : ResolveState)
    (u : GoString) (hu : u ∈ suffix) (hnd : (pre ++ suffix).Nodup)
    (hP : ∀ k ∈ pre, ∀ mask frags, P frags → P (splitFragments k mask frags))
    (h0 : P (mapGet st.maskValuesInterim u)) :
    P (mapGet (resolvePrefix seedmap pre suffix st).maskValuesInterim u) := by
  induction pre generalizing st with
  | nil => exact h0
  | cons k pre ih =>
    have hnd' : k ∉ pre ++ suffix ∧ (pre ++ suffix).Nodup := by
      simpa using List.nodup_cons.mp hnd
    apply ih _ hnd'.2 (fun k' hk' => hP k' (List.mem_cons_of_mem _ hk'))
    rw [resolveStep_interim_later seedmap k (pre ++ suffix) st u
      (List.mem_append_right _ hu) hnd'.1 hnd'.2]
    exact hP k (List.mem_cons_self _ _) _ _ h0

theorem mem_mapKeys_resolvePrefix (seedmap : GoMap GoString) (pre suffix : List GoString)
    (st : ResolveState) (k : GoString) :
    k ∈ mapKeys (resolvePrefix seedmap pre suffix st).maskValuesResolved ↔
      k ∈ mapKeys st.maskValuesResolved ∨ k ∈ pre := by
  induction pre generalizing st with
  | nil => simp [resolvePrefix]
  | cons a pre ih =>
    show k ∈ mapKeys (resolvePrefix seedmap pre suffix _).maskValuesResolved ↔ _
    rw [ih, resolveStep_resolved, mem_mapKeys_mapSet, List.mem_cons]
    tauto

theorem nodup_mapKeys_resolvePrefix (seedmap : GoMap GoString) (pre suffix : List GoString)
    (st : ResolveState) (h : (mapKeys st.maskValuesResolved).Nodup) :
    (mapKeys (resolvePrefix seedmap pre suffix st).maskValuesResolved).Nodup := by
  induction pre generalizing st with
  | nil => exact h
  | cons a pre ih =>
    apply ih
    rw [resolveStep_resolved]
    exact nodup_mapKeys_mapSet _ _ _ h

/-! ## Lemmas: the mask of the current key -/

theorem maskFragments_keeps_masked (seedmap : GoMap GoString) (frags : List maskstring)
    (c : Int) (mask : GoString) (h : (⟨mask, true⟩ : maskstring) ∈ frags) :
    (⟨mask, true⟩ : maskstring) ∈ (maskFragments seedmap frags c).1 := by
  induction frags generalizing c with
  | nil => simp at h
  | cons f rest ih =>
    obtain ⟨v, m⟩ := f
    rcases List.mem_cons.mp h with hf | hf
    · have hv : v = mask := by
        have := congrArg maskstring.value hf
        exact this.symm
      have hm : m = true := by
        have := congrArg maskstring.masked hf
        exact this.symm
      subst hv
      subst hm
      simp [maskFragments]
    · cases m with
      | true =>
        simp only [maskFragments]
        exact List.mem_cons_of_mem _ (ih c hf)
      | false =>
        cases v with
        | nil =>
          simp only [maskFragments]
          exact List.mem_cons_of_mem _ (ih c hf)
        | cons b bs =>
          simp only [maskFragments]
          exact List.mem_cons_of_mem _ (ih (c + 1) hf)

/-- A key that is no integer literal and has a fragment holding the mask of an
earlier key gets a mask that contains that mask. -/
theorem ownMask_contains (seedmap : GoMap GoString) (keyVal mask : GoString)
    (st : ResolveState) (hint : isInt keyVal = false)
    (h : (⟨mask, true⟩ : maskstring) ∈ mapGet st.maskValuesInterim keyVal) :
    mask <:+: ownMask seedmap keyVal st := by
  unfold ownMask Join
  apply List.infix_of_mem_flatten
  have h1 : (⟨mask, true⟩ : maskstring) ∈ (ownFragments seedmap keyVal st).1 := by
    unfold ownFragments
    rw [hint]
    exact maskFragments_keeps_masked _ _ _ _ h
  exact List.mem_map.mpr ⟨_, h1, rfl⟩

theorem ownMask_of_isInt (seedmap : GoMap GoString) (keyVal : GoString)
    (st : ResolveState) (hint : isInt keyVal = true) :
    ownMask seedmap keyVal st =
      Itoa maskIntDelimiter ++ Itoa st.counter ++ Itoa maskIntDelimiter := by
  simp [ownMask, ownFragments, hint, Join]

/-- A key that is no integer literal, is longer than the threshold and still has
its own text as its only fragment gets the generic mask for the current counter. -/
theorem ownMask_of_single (seedmap : GoMap GoString) (b : UInt8) (rest : GoString)
    (st : ResolveState) (hint : isInt (b :: rest) = false) (hlen : 2 < (b :: rest).length)
    (h : mapGet st.maskValuesInterim (b :: rest) = [⟨b :: rest, false⟩]) :
    ownMask seedmap (b :: rest) st =
      mapGet seedmap (runeToString (b.toNat : Int)) ++ Itoa st.counter ++ str "M" := by
  have hl : ((b :: rest).length : Int) > smallestMaskingAmount := by
    have : (2 : Int) < ((b :: rest).length : Int) := by exact_mod_cast hlen
    simpa [smallestMaskingAmount] using this
  simp only [ownMask, ownFragments, hint, h, maskFragments, generateNewValue, hl, Join]
  simp

/-! ## Lemmas: the position of a key in `sortedKeys` -/

theorem sortedKeys_tokenMap_perm (tokens : List GoString) :
    (sortedKeys (tokenMap tokens)).Perm tokens := by
  have h := sortedKeys_perm (tokenMap tokens)
  rwa [mapKeys_tokenMap] at h

/-- Two keys of different length: the shorter one comes first in `sortedKeys`. -/
theorem sortedKeys_split_two (m : GoMap (List maskstring)) (A B : GoString)
    (hA : A ∈ mapKeys m) (hB : B ∈ mapKeys m) (hlen : A.length < B.length) :
    ∃ pre mid post, sortedKeys m = pre ++ A :: (mid ++ B :: post) ∧
      ∀ k ∈ pre, k.length ≤ A.length := by
  have hperm := sortedKeys_perm m
  have hpw := sortedKeys_pairwise m
  obtain ⟨pre, rest, hsplit⟩ := List.append_of_mem (hperm.mem_iff.mpr hA)
  rw [hsplit] at hpw
  have hpw' := List.pairwise_append.mp hpw
  have hBmem : B ∈ pre ++ A :: rest := hsplit ▸ hperm.mem_iff.mpr hB
  have hBrest : B ∈ rest := by
    rcases List.mem_append.mp hBmem with h | h
    · have := hpw'.2.2 B h A (List.mem_cons_self _ _)
      omega
    · rcases List.mem_cons.mp h with h | h
      · subst h
        omega
      · exact h
  obtain ⟨mid, post, hrest⟩ := List.append_of_mem hBrest
  refine ⟨pre, mid, post, by rw [hsplit, hrest], ?_⟩
  intro k hk
  exact hpw'.2.2 k hk A (List.mem_cons_self _ _)

/-! ## Lemmas: the state in which the iteration for a key starts -/

theorem takeWhile_ne_split (pre rest : List GoString) (A : GoString) (hA : A ∉ pre) :
    (pre ++ A :: rest).takeWhile (fun k => decide (k ≠ A)) = pre ∧
      (pre ++ A :: rest).dropWhile (fun k => decide (k ≠ A)) = A :: rest := by
  have hpre : ∀ a ∈ pre, decide (a ≠ A) = true := by
    intro a ha
    exact decide_eq_true (fun e => hA (e ▸ ha))
  constructor
  · rw [List.takeWhile_append_of_pos hpre, List.takeWhile_cons_of_neg (by simp)]
    simp
  · rw [List.dropWhile_append_of_pos hpre, List.dropWhile_cons_of_neg (by simp)]

theorem stateBefore_of_split (seedmap : GoMap GoString) (m : GoMap (List maskstring))
    (pre rest : List GoString) (A : GoString) (hsplit : sortedKeys m = pre ++ A :: rest)
    (hA : A ∉ pre) :
    stateBefore seedmap m A = resolvePrefix seedmap pre (A :: rest) ⟨m, [], 1000⟩ := by
  obtain ⟨h1, h2⟩ := takeWhile_ne_split pre rest A hA
  unfold stateBefore
  simp only [hsplit, h1, h2]

theorem indexOf_cons_eq (a : GoString) (l : List GoString) : (a :: l).indexOf a = 0 := by
  simp [List.indexOf_cons]

theorem indexOf_cons_of_ne (a b : GoString) (l : List GoString) (h : b ≠ a) :
    (b :: l).indexOf a = l.indexOf a + 1 := by
  rw [List.indexOf_cons, beq_false_of_ne h]
  rfl

theorem indexOf_append_right (a : GoString) (l1 l2 : List GoString) (h : a ∉ l1) :
    (l1 ++ l2).indexOf a = l1.length + l2.indexOf a := by
  induction l1 with
  | nil => simp
  | cons b l ih =>
    have hb : b ≠ a := fun e => h (e ▸ List.mem_cons_self _ _)
    rw [List.cons_append, indexOf_cons_of_ne a b _ hb, ih (fun hm => h (List.mem_cons_of_mem _ hm))]
    simp only [List.length_cons]
    omega

theorem indexOf_append_left (a : GoString) (l1 l2 : List GoString) (h : a ∈ l1) :
    (l1 ++ l2).indexOf a = l1.indexOf a := by
  induction l1 with
  | nil => simp at h
  | cons b l ih =>
    by_cases hb : b = a
    · subst hb
      rw [List.cons_append, indexOf_cons_eq, indexOf_cons_eq]
    · have hm : a ∈ l := by
        rcases List.mem_cons.mp h with e | e
        · exact absurd e.symm hb
        · exact e
      rw [List.cons_append, indexOf_cons_of_ne a b _ hb, indexOf_cons_of_ne a b _ hb, ih hm]

theorem indexOf_lt_of_mem (a : GoString) (l : List GoString) (h : a ∈ l) :
    l.indexOf a < l.length := by
  induction l with
  | nil => simp at h
  | cons b l ih =>
    by_cases hb : b = a
    · subst hb
      rw [indexOf_cons_eq]
      simp
    · have hm : a ∈ l := by
        rcases List.mem_cons.mp h with e | e
        · exact absurd e.symm hb
        · exact e
      rw [indexOf_cons_of_ne a b _ hb]
      simp only [List.length_cons]
      have := ih hm
      omega

/-- The keys that stand between `A` and `B` in `sortedKeys` are processed between
them. -/
theorem processedBetween_of_split (m : GoMap (List maskstring))
    (pre mid post : List GoString) (A B K : GoString)
    (hsplit : sortedKeys m = pre ++ A :: (mid ++ B :: post))
    (hnd : (pre ++ A :: (mid ++ B :: post)).Nodup) (hK : K ∈ mid) :
    processedBetween m A K B := by
  have h1 := List.nodup_append.mp hnd
  have h2 := List.nodup_cons.mp h1.2.1
  have h3 := List.nodup_append.mp h2.2
  have hApre : A ∉ pre := fun h => h1.2.2 h (List.mem_cons_self _ _)
  have hKpre : K ∉ pre := fun h =>
    h1.2.2 h (List.mem_cons_of_mem _ (List.mem_append_left _ hK))
  have hBpre : B ∉ pre := fun h =>
    h1.2.2 h (List.mem_cons_of_mem _ (List.mem_append_right _ (List.mem_cons_self _ _)))
  have hKA : A ≠ K := fun e => h2.1 (e ▸ List.mem_append_left _ hK)
  have hBA : A ≠ B := fun e => h2.1 (e ▸ List.mem_append_right _ (List.mem_cons_self _ _))
  have hBmid : B ∉ mid := fun h => h3.2.2 h (List.mem_cons_self _ _)
  have iA : (pre ++ A :: (mid ++ B :: post)).indexOf A = pre.length := by
    rw [indexOf_append_right A pre _ hApre, indexOf_cons_eq]
    rfl
  have iK : (pre ++ A :: (mid ++ B :: post)).indexOf K = pre.length + (mid.indexOf K + 1) := by
    rw [indexOf_append_right K pre _ hKpre, indexOf_cons_of_ne K A _ hKA,
      indexOf_append_left K mid _ hK]
  have iB : (pre ++ A :: (mid ++ B :: post)).indexOf B = pre.length + (mid.length + 1) := by
    rw [indexOf_append_right B pre _ hBpre, indexOf_cons_of_ne B A _ hBA,
      indexOf_append_right B mid _ hBmid, indexOf_cons_eq]
  have hlt : mid.indexOf K < mid.length := indexOf_lt_of_mem K mid hK
  show (sortedKeys m).indexOf A < (sortedKeys m).indexOf K ∧
    (sortedKeys m).indexOf K < (sortedKeys m).indexOf B
  rw [hsplit, iA, iK, iB]
  omega

/-- The key that is split off enters the fragment list as a masked fragment as soon as
one fragment contains it. -/
theorem mem_splitFragments_of_contained (keyVal resolvedMask : GoString)
    (frags : List maskstring) (h : ∃ f ∈ frags, keyVal <:+: f.value) :
    (⟨resolvedMask, true⟩ : maskstring) ∈ splitFragments keyVal resolvedMask frags := by
  induction frags with
  | nil =>
    obtain ⟨f, hf, _⟩ := h
    simp at hf
  | cons g rest ih =>
    by_cases hc : Contains g.value keyVal = true
    · simp [splitFragments, hc]
    · have hrest : ∃ f ∈ rest, keyVal <:+: f.value := by
        obtain ⟨f, hf, hinf⟩ := h
        rcases List.mem_cons.mp hf with e | e
        · exact absurd ((Contains_iff _ _).mpr (e ▸ hinf)) hc
        · exact ⟨f, e, hinf⟩
      simp only [splitFragments, hc, if_false, Bool.false_eq_true]
      exact List.mem_cons_of_mem _ (ih hrest)

/-- The empty token gets the empty mask. -/
theorem mask_of_empty_token (tokens : List GoString) (seedmap : GoMap GoString)
    (hnd : tokens.Nodup) (h : [] ∈ tokens) :
    mapGet (initMaskValues (tokenMap tokens) seedmap) [] = [] := by
  have hperm := sortedKeys_tokenMap_perm tokens
  have hpw := sortedKeys_pairwise (tokenMap tokens)
  obtain ⟨pre, post, hsplit⟩ := List.append_of_mem (hperm.mem_iff.mpr h)
  have hnd' : (pre ++ [] :: post).Nodup := hsplit ▸ hperm.nodup_iff.mpr hnd
  have h1 := List.nodup_append.mp hnd'
  have h2 := List.nodup_cons.mp h1.2.1
  rw [hsplit] at hpw
  have hpre : pre = [] := by
    cases pre with
    | nil => rfl
    | cons k ks =>
      have hk : k.length ≤ ([] : GoString).length :=
        (List.pairwise_append.mp hpw).2.2 k (List.mem_cons_self _ _) [] (List.mem_cons_self _ _)
      have hk0 : k = [] := List.length_eq_zero.mp (Nat.le_zero.mp hk)
      exact absurd (List.mem_cons_self _ _) (fun hm => h1.2.2 (hk0 ▸ hm) (List.mem_cons_self _ _))
  subst hpre
  show mapGet (resolveLoop seedmap (sortedKeys (tokenMap tokens))
    ⟨tokenMap tokens, [], 1000⟩).maskValuesResolved [] = _
  rw [hsplit]
  have := resolveLoop_resolved_at seedmap [] post [] ⟨tokenMap tokens, [], 1000⟩ h2.1
  rw [List.nil_append] at this ⊢
  rw [this]
  have hint : isInt ([] : GoString) = false := by decide
  show Join ((ownFragments seedmap [] ⟨tokenMap tokens, [], 1000⟩).1.map maskstring.value) = []
  unfold ownFragments
  rw [hint]
  simp only [Bool.false_eq_true, if_false]
  rw [mapGet_tokenMap tokens [] h]
  rfl

theorem splitFragments_append (keyVal resolvedMask : GoString) (X Y : List maskstring) :
    splitFragments keyVal resolvedMask (X ++ Y) =
      splitFragments keyVal resolvedMask X ++ splitFragments keyVal resolvedMask Y := by
  induction X with
  | nil => rfl
  | cons f rest ih =>
    by_cases hc : Contains f.value keyVal = true
    · simp only [List.cons_append, splitFragments, hc, if_true, List.append_eq, ih]
    · simp only [List.cons_append, splitFragments, hc, if_false, List.append_eq, ih,
        Bool.false_eq_true]

theorem maskFragments_append (seedmap : GoMap GoString) (X Y : List maskstring) (c : Int) :
    (maskFragments seedmap (X ++ Y) c).1 =
      (maskFragments seedmap X c).1 ++
        (maskFragments seedmap Y (maskFragments seedmap X c).2).1 := by
  induction X generalizing c with
  | nil => rfl
  | cons f rest ih =>
    obtain ⟨v, m⟩ := f
    cases m with
    | true => simp only [List.cons_append, maskFragments, List.append_eq, ih]
    | false =>
      cases v with
      | nil => simp only [List.cons_append, maskFragments, List.append_eq, ih]
      | cons b bs => simp only [List.cons_append, maskFragments, List.append_eq, ih]

/-- Fragments that are masked or empty are left as they are. -/
theorem maskFragments_of_resolved (seedmap : GoMap GoString) (G : List maskstring) (c : Int)
    (h : ∀ g ∈ G, g.masked = true ∨ g.value = []) : (maskFragments seedmap G c).1 = G := by
  induction G generalizing c with
  | nil => rfl
  | cons f rest ih =>
    have hrest := fun g hg => h g (List.mem_cons_of_mem _ hg)
    obtain ⟨v, m⟩ := f
    cases m with
    | true => simp only [maskFragments, ih c hrest]
    | false =>
      cases v with
      | nil => simp only [maskFragments, ih c hrest]
      | cons b bs =>
        rcases h ⟨b :: bs, false⟩ (List.mem_cons_self _ _) with h1 | h1
        · simp at h1
        · simp at h1

/-- A run of masked or empty fragments stays in the fragment list when the key that is
split off is in none of them. -/
theorem spellsMask_splitFragments (keyVal resolvedMask mask : GoString)
    (frags : List maskstring) (h : spellsMask frags mask) (hk : ¬ keyVal <:+: mask) :
    spellsMask (splitFragments keyVal resolvedMask frags) mask := by
  obtain ⟨X, G, Y, hfr, hG, hjoin⟩ := h
  refine ⟨splitFragments keyVal resolvedMask X, G, splitFragments keyVal resolvedMask Y,
    ?_, hG, hjoin⟩
  rw [hfr, splitFragments_append, splitFragments_append]
  congr 2
  apply splitFragments_of_not_infix
  intro g hg hinf
  apply hk
  rw [← hjoin]
  exact hinf.trans (List.infix_of_mem_flatten (List.mem_map.mpr ⟨g, hg, rfl⟩))

/-- The mask of a key that is not an integer literal contains what a run of masked or
empty fragments in its list spells. -/
theorem ownMask_contains_run (seedmap : GoMap GoString) (keyVal mask : GoString)
    (st : ResolveState) (hint : isInt keyVal = false)
    (h : spellsMask (mapGet st.maskValuesInterim keyVal) mask) :
    mask <:+: ownMask seedmap keyVal st := by
  obtain ⟨X, G, Y, hfr, hG, hjoin⟩ := h
  unfold ownMask ownFragments
  rw [hint]
  simp only [Bool.false_eq_true, if_false]
  rw [hfr, maskFragments_append, maskFragments_append, maskFragments_of_resolved _ G _ hG,
    List.map_append, List.map_append, ← hjoin]
  unfold Join
  rw [List.flatten_append, List.flatten_append]
  exact ⟨_, _, rfl⟩

/-! ## Claims C1 and C2 -/

/-- C1 (as amended): for every token set and seed map and all tokens A, B of the set
with A a substring of B, the mask of B contains the mask of A as a substring, provided
that B is not an integer literal, that in the state in which the iteration for A starts
either A is a substring of one of the fragments of B, or a run of consecutive masked or
empty fragments of B spells the mask of A, and that no token processed after A and
before B is a substring of the mask of A.  (For A = B and for the empty token A only
the last condition is asked, which then holds by itself.) -/
theorem C1_containment_single_level (tokens : List GoString) (seedmap : GoMap GoString)
    (A B : GoString) (hnd : tokens.Nodup) (hA : A ∈ tokens) (hB : B ∈ tokens)
    (hAB : A <:+: B) (hint : A ≠ B → A ≠ [] → isInt B = false)
    (hfrag : A ≠ B → A ≠ [] →
      (∃ f ∈ mapGet (stateBefore seedmap (tokenMap tokens) A).maskValuesInterim B,
        A <:+: f.value) ∨
      spellsMask (mapGet (stateBefore seedmap (tokenMap tokens) A).maskValuesInterim B)
        (mapGet (initMaskValues (tokenMap tokens) seedmap) A))
    (hmask : ∀ K ∈ tokens, processedBetween (tokenMap tokens) A K B →
      ¬ K <:+: mapGet (initMaskValues (tokenMap tokens) seedmap) A) :
    mapGet (initMaskValues (tokenMap tokens) seedmap) A <:+:
      mapGet (initMaskValues (tokenMap tokens) seedmap) B := by
  by_cases hne : A = B
  · subst hne
    exact List.infix_refl _
  by_cases hA0 : A = []
  · subst hA0
    rw [mask_of_empty_token tokens seedmap hnd hA]
    exact List.nil_infix
  have hint' := hint hne hA0
  have hfrag' := hfrag hne hA0
  have hlen : A.length < B.length := by
    have h1 := hAB.length_le
    have h2 : A.length ≠ B.length := fun h => hne (hAB.eq_of_length h)
    omega
  obtain ⟨pre, mid, post, hsplit, _⟩ := sortedKeys_split_two (tokenMap tokens) A B
    (by rw [mapKeys_tokenMap]; exact hA) (by rw [mapKeys_tokenMap]; exact hB) hlen
  have hperm := sortedKeys_tokenMap_perm tokens
  have hnd' : (pre ++ A :: (mid ++ B :: post)).Nodup := hsplit ▸ hperm.nodup_iff.mpr hnd
  have hsub : ∀ k, k ∈ pre ++ A :: (mid ++ B :: post) → k ∈ tokens := fun k hk =>
    hperm.mem_iff.mp (hsplit ▸ hk)
  have hnd1 : pre.Nodup ∧ (A :: (mid ++ B :: post)).Nodup ∧
      ∀ a ∈ pre, ∀ b ∈ A :: (mid ++ B :: post), a ≠ b := by
    have := List.nodup_append.mp hnd'
    exact ⟨this.1, this.2.1, fun a ha b hb e => this.2.2 ha (e ▸ hb)⟩
  have hApre : A ∉ pre := fun h => hnd1.2.2 A h A (List.mem_cons_self _ _) rfl
  have hnd2 : A ∉ mid ++ B :: post ∧ (mid ++ B :: post).Nodup := List.nodup_cons.mp hnd1.2.1
  have hnd3 : B ∉ mid ∧ B ∉ post := by
    have h := List.nodup_append.mp hnd2.2
    have h2 := List.nodup_cons.mp h.2.1
    exact ⟨fun hm => h.2.2 hm (List.mem_cons_self _ _), h2.1⟩
  -- the state in which the iteration for `A` starts
  let st0 : ResolveState := ⟨tokenMap tokens, [], 1000⟩
  let st1 := resolvePrefix seedmap pre (A :: (mid ++ B :: post)) st0
  let st2 := resolveStep seedmap A (mid ++ B :: post) st1
  let st3 := resolvePrefix seedmap mid (B :: post) st2
  have hst1 : stateBefore seedmap (tokenMap tokens) A = st1 :=
    stateBefore_of_split seedmap (tokenMap tokens) pre (mid ++ B :: post) A hsplit hApre
  have hfinalA : mapGet (initMaskValues (tokenMap tokens) seedmap) A = ownMask seedmap A st1 := by
    show mapGet (resolveLoop seedmap (sortedKeys (tokenMap tokens)) st0).maskValuesResolved A = _
    rw [hsplit]
    exact resolveLoop_resolved_at seedmap pre (mid ++ B :: post) A st0 hnd2.1
  have hfinalB : mapGet (initMaskValues (tokenMap tokens) seedmap) B = ownMask seedmap B st3 := by
    show mapGet (resolveLoop seedmap (sortedKeys (tokenMap tokens)) st0).maskValuesResolved B = _
    rw [hsplit, resolveLoop_append]
    show mapGet (resolveLoop seedmap (mid ++ B :: post) st2).maskValuesResolved B = _
    exact resolveLoop_resolved_at seedmap mid post B st2 hnd3.2
  rw [hst1, hfinalA] at hfrag'
  -- after the iteration for `A` the fragment list of `B` spells the mask of `A`
  have hB2 : spellsMask (mapGet st2.maskValuesInterim B) (ownMask seedmap A st1) := by
    show spellsMask (mapGet (resolveStep seedmap A (mid ++ B :: post) st1).maskValuesInterim B) _
    rw [resolveStep_interim_later seedmap A (mid ++ B :: post) st1 B (by simp) hnd2.1 hnd2.2]
    by_cases hin : ∃ f ∈ mapGet st1.maskValuesInterim B, A <:+: f.value
    · obtain ⟨X, Y, hXY⟩ := List.append_of_mem (mem_splitFragments_of_contained A
        (ownMask seedmap A st1) _ hin)
      refine ⟨X, [⟨ownMask seedmap A st1, true⟩], Y, by rw [hXY]; simp, ?_, ?_⟩
      · intro g hg
        exact Or.inl (by rw [List.mem_singleton.mp hg])
      · simp [Join]
    · rcases hfrag' with h | h
      · exact absurd h hin
      · have hsame := splitFragments_of_not_infix A (ownMask seedmap A st1) _
          (fun f hf hinf => hin ⟨f, hf, hinf⟩)
        rw [hsame]
        exact h
  -- the keys between `A` and `B` leave that run alone
  have hB3 : spellsMask (mapGet st3.maskValuesInterim B) (ownMask seedmap A st1) := by
    apply resolvePrefix_interim_invariant seedmap
      (fun frags => spellsMask frags (ownMask seedmap A st1))
      mid (B :: post) st2 B (List.mem_cons_self _ _) hnd2.2
    · intro k hk mask frags hfr
      have hkmem : k ∈ tokens :=
        hsub k (List.mem_append_right _ (List.mem_cons_of_mem _ (List.mem_append_left _ hk)))
      have := hmask k hkmem
        (processedBetween_of_split (tokenMap tokens) pre mid post A B k hsplit hnd' hk)
      rw [hfinalA] at this
      exact spellsMask_splitFragments k mask _ frags hfr this
    · exact hB2
  rw [hfinalB, hfinalA]
  exact ownMask_contains_run seedmap B _ st3 hint' hB3

/-- C2: the mapping returned by `initMaskValues` has exactly the keys of the token
map it is given, each of them once. -/
theorem C2_mapping_totality (maskValuesInterim : GoMap (List maskstring))
    (seedmap : GoMap GoString) :
    (∀ k, k ∈ mapKeys (initMaskValues maskValuesInterim seedmap) ↔
        k ∈ mapKeys maskValuesInterim) ∧
      (mapKeys (initMaskValues maskValuesInterim seedmap)).Nodup := by
  have hrun : initMaskValues maskValuesInterim seedmap =
      (resolvePrefix seedmap (sortedKeys maskValuesInterim) []
        ⟨maskValuesInterim, [], 1000⟩).maskValuesResolved := by
    show (resolveLoop seedmap _ _).maskValuesResolved = _
    rw [resolveLoop_eq_resolvePrefix]
  constructor
  · intro k
    rw [hrun, mem_mapKeys_resolvePrefix]
    have := (sortedKeys_perm maskValuesInterim).mem_iff (a := k)
    simp [mapKeys] at this ⊢
    simpa [mapKeys] using this
  · rw [hrun]
    apply nodup_mapKeys_resolvePrefix
    simp [mapKeys]

/-- C1 fails as stated: with the tokens "b", "abc", "abcd" the mask of "abcd" does not
contain the mask of "abc" (the shorter token "b" has split both); with the tokens
"1", "12" the integer literal "12" is masked as one piece; with the tokens "a", "M",
"xay" the mask "_MT_" of "a" inside "xay" is split again by the token "M". -/
theorem C1_counterexample :
    (str "abc" <:+: str "abcd" ∧
      ¬ mapGet (initMaskValues (tokenMap [str "b", str "abc", str "abcd"]) []) (str "abc") <:+:
        mapGet (initMaskValues (tokenMap [str "b", str "abc", str "abcd"]) []) (str "abcd")) ∧
    (str "1" <:+: str "12" ∧
      ¬ mapGet (initMaskValues (tokenMap [str "1", str "12"]) []) (str "1") <:+:
        mapGet (initMaskValues (tokenMap [str "1", str "12"]) []) (str "12")) ∧
    (str "a" <:+: str "xay" ∧
      ¬ mapGet (initMaskValues (tokenMap [str "a", str "M", str "xay"]) []) (str "a") <:+:
        mapGet (initMaskValues (tokenMap [str "a", str "M", str "xay"]) []) (str "xay")) := by
  decide

set_option maxRecDepth 100000 in
/-- C1 (as amended) with the seed "S" for "A", twice.  At the tokens "AliceSmith",
"Smith", "", "M", "Alice", "Bobby7" for A = "Alice" and B = "AliceSmith": the empty
token, "M" and "Smith" are processed before "Alice", and "Smith" has split "AliceSmith"
without touching "Alice"; "Bobby7" is processed between the two.  At the tokens
"AliceSmithJr", "Alice", "AliceSmith", "Smith" for A = "AliceSmith" and
B = "AliceSmithJr": both are split by "Alice" and "Smith", and the masked fragments of
"AliceSmithJr" spell the mask "S1000M1002M" of "AliceSmith". -/
theorem C1_containment_single_level_witness :
    ((isInt (str "AliceSmith") = false ∧
        (∃ f ∈ mapGet (stateBefore [(str "A", str "S")]
              (tokenMap [str "AliceSmith", str "Smith", str "", str "M", str "Alice", str "Bobby7"])
              (str "Alice")).maskValuesInterim (str "AliceSmith"),
            str "Alice" <:+: f.value) ∧
        ∀ K ∈ [str "AliceSmith", str "Smith", str "", str "M", str "Alice", str "Bobby7"],
          processedBetween
              (tokenMap [str "AliceSmith", str "Smith", str "", str "M", str "Alice", str "Bobby7"])
              (str "Alice") K (str "AliceSmith") →
            ¬ K <:+: mapGet (initMaskValues
              (tokenMap [str "AliceSmith", str "Smith", str "", str "M", str "Alice", str "Bobby7"])
              [(str "A", str "S")]) (str "Alice")) ∧
      mapGet (initMaskValues
          (tokenMap [str "AliceSmith", str "Smith", str "", str "M", str "Alice", str "Bobby7"])
          [(str "A", str "S")]) (str "Alice") <:+:
        mapGet (initMaskValues
          (tokenMap [str "AliceSmith", str "Smith", str "", str "M", str "Alice", str "Bobby7"])
          [(str "A", str "S")]) (str "AliceSmith")) ∧
    (mapGet (stateBefore [(str "A", str "S")] (tokenMap [str "AliceSmithJr", str "Alice", str "AliceSmith", str "Smith"])
          (str "AliceSmith")).maskValuesInterim (str "AliceSmithJr") =
        [⟨[], false⟩, ⟨str "S1000M", true⟩, ⟨[], false⟩, ⟨str "1002M", true⟩,
          ⟨str "Jr", false⟩] ∧
      mapGet (initMaskValues (tokenMap [str "AliceSmithJr", str "Alice", str "AliceSmith", str "Smith"]) [(str "A", str "S")]) (str "AliceSmith") =
        str "S1000M1002M" ∧
      mapGet (initMaskValues (tokenMap [str "AliceSmithJr", str "Alice", str "AliceSmith", str "Smith"]) [(str "A", str "S")]) (str "AliceSmith") <:+:
        mapGet (initMaskValues (tokenMap [str "AliceSmithJr", str "Alice", str "AliceSmith", str "Smith"]) [(str "A", str "S")]) (str "AliceSmithJr")) :=
  ⟨⟨⟨by decide, by decide, by decide⟩,
      C1_containment_single_level
        [str "AliceSmith", str "Smith", str "", str "M", str "Alice", str "Bobby7"]
        [(str "A", str "S")] (str "Alice") (str "AliceSmith") (by decide) (by decide) (by decide)
        (by decide) (fun _ _ => by decide) (fun _ _ => Or.inl (by decide)) (by decide)⟩,
    by decide, by decide,
    C1_containment_single_level [str "AliceSmithJr", str "Alice", str "AliceSmith", str "Smith"] [(str "A", str "S")] (str "AliceSmith") (str "AliceSmithJr")
      (by decide) (by decide) (by decide) (by decide) (fun _ _ => by decide)
      (fun _ _ => Or.inr ⟨[⟨[], false⟩],
        [⟨str "S1000M", true⟩, ⟨[], false⟩, ⟨str "1002M", true⟩], [⟨str "Jr", false⟩],
        by decide, by decide, by decide⟩)
      (by decide)⟩

/-! ## Lemmas: the replacer of `maskDataset` -/

/-- Zipping keys with their masks and pairing the arguments up again gives the list of
(key, mask) pairs. -/
theorem zip_bind_NewReplacer (l : List GoString) (f : GoString → GoString) :
    (zip l (l.map f)).bind NewReplacer = some (l.map (fun k => (k, f k))) := by
  induction l with
  | nil => rfl
  | cons a l ih =>
    cases hz : zip l (l.map f) with
    | none => simp [hz] at ih
    | some r =>
      rw [hz] at ih
      have ih' : NewReplacer r = some (l.map (fun k => (k, f k))) := by simpa using ih
      simp [zip, hz, NewReplacer, ih']

theorem datasetReplacer_eq (maskedValues : GoMap GoString) :
    datasetReplacer maskedValues =
      some ((SliceStable (fun a b => decide (a.length > b.length)) (mapKeys maskedValues)).map
        (fun k => (k, mapGet maskedValues k))) := by
  unfold datasetReplacer replacerArgs
  exact zip_bind_NewReplacer _ _

theorem replacerLookup_eq_none (keys : List GoString) (f : GoString → GoString)
    (s : GoString) (ignoreRoot : Bool)
    (h : ∀ k ∈ keys, k <+: s → ignoreRoot = true ∧ k = []) :
    replacerLookup (keys.map (fun k => (k, f k))) s ignoreRoot = none := by
  induction keys with
  | nil => rfl
  | cons a keys ih =>
    have ih' := ih (fun k hk => h k (List.mem_cons_of_mem _ hk))
    by_cases ha : a <+: s
    · obtain ⟨h1, h2⟩ := h a (List.mem_cons_self _ _) ha
      subst h1
      subst h2
      simpa [replacerLookup] using ih'
    · have ha' : a.isPrefixOf s = false := by
        cases hb : a.isPrefixOf s with
        | false => rfl
        | true => exact absurd (List.isPrefixOf_iff_prefix.mp hb) ha
      simpa [replacerLookup, ha'] using ih'

/-- On keys listed longest first, the lookup without `ignoreRoot` returns the
longest key that matches. -/
theorem replacerLookup_longest (keys : List GoString) (f : GoString → GoString)
    (s : GoString) (hsorted : keys.Pairwise (fun a b => b.length ≤ a.length))
    (k : GoString) (hk : k ∈ keys) (hpre : k <+: s)
    (hmax : ∀ k' ∈ keys, k' <+: s → k'.length ≤ k.length) :
    replacerLookup (keys.map (fun k => (k, f k))) s false = some (f k, k.length) := by
  induction keys with
  | nil => simp at hk
  | cons a keys ih =>
    have hs := List.pairwise_cons.mp hsorted
    by_cases ha : a <+: s
    · have hak : a = k := by
        rcases List.mem_cons.mp hk with h | h
        · exact h.symm
        · have h1 := hs.1 k h
          have h2 := hmax a (List.mem_cons_self _ _) ha
          exact List.prefix_of_prefix_length_le ha hpre h2 |>.eq_of_length (by omega)
      subst hak
      have ha' : a.isPrefixOf s = true := List.isPrefixOf_iff_prefix.mpr ha
      simp [replacerLookup, ha']
    · have ha' : a.isPrefixOf s = false := by
        cases hb : a.isPrefixOf s with
        | false => rfl
        | true => exact absurd (List.isPrefixOf_iff_prefix.mp hb) ha
      have hk' : k ∈ keys := by
        rcases List.mem_cons.mp hk with h | h
        · subst h
          exact absurd hpre ha
        · exact h
      have := ih hs.2 hk' (fun k' hk'' => hmax k' (List.mem_cons_of_mem _ hk''))
      simpa [replacerLookup, ha'] using this

theorem longestMatch_cases (m : GoMap GoString) (s : GoString) :
    (longestMatch m s = none ∧ ∀ k ∈ mapKeys m, ¬ k <+: s) ∨
      (∃ k v, longestMatch m s = some (k, v) ∧ (k, v) ∈ m ∧ k <+: s ∧
        ∀ k' ∈ mapKeys m, k' <+: s → k'.length ≤ k.length) := by
  induction m with
  | nil => exact Or.inl ⟨rfl, by simp [mapKeys]⟩
  | cons e rest ih =>
    obtain ⟨k0, v0⟩ := e
    have hkeys : ∀ k', k' ∈ mapKeys ((k0, v0) :: rest) ↔ k' = k0 ∨ k' ∈ mapKeys rest := by
      intro k'
      simp [mapKeys]
    by_cases h0 : k0 <+: s
    · have h0' : k0.isPrefixOf s = true := List.isPrefixOf_iff_prefix.mpr h0
      rcases ih with ⟨hn, hno⟩ | ⟨k1, v1, hs, hmem, hpre, hmax⟩
      · refine Or.inr ⟨k0, v0, by simp [longestMatch, hn, h0'], List.mem_cons_self _ _, h0, ?_⟩
        intro k' hk' hp
        rcases (hkeys k').mp hk' with h | h
        · rw [h]
        · exact absurd hp (hno k' h)
      · by_cases hlt : k1.length < k0.length
        · refine Or.inr ⟨k0, v0, by simp [longestMatch, hs, h0', hlt],
            List.mem_cons_self _ _, h0, ?_⟩
          intro k' hk' hp
          rcases (hkeys k').mp hk' with h | h
          · rw [h]
          · have := hmax k' h hp
            omega
        · refine Or.inr ⟨k1, v1, by simp [longestMatch, hs, h0', hlt],
            List.mem_cons_of_mem _ hmem, hpre, ?_⟩
          intro k' hk' hp
          rcases (hkeys k').mp hk' with h | h
          · rw [h]
            omega
          · exact hmax k' h hp
    · have h0' : k0.isPrefixOf s = false := by
        cases hb : k0.isPrefixOf s with
        | false => rfl
        | true => exact absurd (List.isPrefixOf_iff_prefix.mp hb) h0
      rcases ih with ⟨hn, hno⟩ | ⟨k1, v1, hs, hmem, hpre, hmax⟩
      · refine Or.inl ⟨by simp [longestMatch, hn, h0'], ?_⟩
        intro k' hk'
        rcases (hkeys k').mp hk' with h | h
        · rw [h]
          exact h0
        · exact hno k' h
      · refine Or.inr ⟨k1, v1, by simp [longestMatch, hs, h0'],
          List.mem_cons_of_mem _ hmem, hpre, ?_⟩
        intro k' hk' hp
        rcases (hkeys k').mp hk' with h | h
        · rw [h] at hp
          exact absurd hp h0
        · exact hmax k' h hp

theorem mapGet_of_mem {α : Type} (m : GoMap (List α)) (k : GoString) (v : List α)
    (hnd : (mapKeys m).Nodup) (h : (k, v) ∈ m) : mapGet m k = v := by
  induction m with
  | nil => simp at h
  | cons e rest ih =>
    obtain ⟨k0, v0⟩ := e
    have hnd' : k0 ∉ mapKeys rest ∧ (mapKeys rest).Nodup := by
      simpa [mapKeys] using hnd
    rcases List.mem_cons.mp h with h1 | h1
    · have hk : k = k0 := congrArg Prod.fst h1
      have hv : v = v0 := congrArg Prod.snd h1
      simp [mapGet, hk, hv]
    · have hk : k0 ≠ k := by
        intro e
        apply hnd'.1
        rw [e]
        exact List.mem_map.mpr ⟨(k, v), h1, rfl⟩
      simp only [mapGet, hk, if_false]
      exact ih hnd'.2 h1

theorem fromTokens_pairwise (keys : List GoString) :
    (SliceStable (fun a b => decide (a.length > b.length)) keys).Pairwise
      (fun a b => b.length ≤ a.length) := by
  apply SliceStable_pairwise
  · intro a b h
    have : a.length > b.length := by simpa using h
    omega
  · intro a b h
    have : ¬ a.length > b.length := by simpa using h
    omega
  · intro a b c h1 h2
    omega

/-- With distinct keys, the replacer of `maskDataset` looks up the longest key that
matches. -/
theorem datasetReplacer_lookup (maskedValues : GoMap GoString) (s : GoString)
    (hnd : (mapKeys maskedValues).Nodup) :
    replacerLookup ((SliceStable (fun a b => decide (a.length > b.length))
        (mapKeys maskedValues)).map (fun k => (k, mapGet maskedValues k))) s false =
      (longestMatch maskedValues s).map (fun e => (e.2, e.1.length)) := by
  have hperm := SliceStable_perm (fun a b : GoString => decide (a.length > b.length))
    (mapKeys maskedValues)
  rcases longestMatch_cases maskedValues s with ⟨hn, hno⟩ | ⟨k, v, hs, hmem, hpre, hmax⟩
  · rw [hn]
    apply replacerLookup_eq_none
    intro k hk hp
    exact absurd hp (hno k (hperm.mem_iff.mp hk))
  · rw [hs]
    have hk : k ∈ mapKeys maskedValues := List.mem_map.mpr ⟨(k, v), hmem, rfl⟩
    rw [replacerLookup_longest _ _ s (fromTokens_pairwise _) k (hperm.mem_iff.mpr hk) hpre
      (fun k' hk' => hmax k' (hperm.mem_iff.mp hk'))]
    rw [mapGet_of_mem maskedValues k v hnd hmem]
    rfl

/-- When every lookup of the replacer is the longest match of the mapping and no key
is empty, the replacer writes what the reference scan writes. -/
theorem renderPieces_eq_referenceScan (oldnew : List (GoString × GoString))
    (m : GoMap GoString)
    (hlookup : ∀ s, replacerLookup oldnew s false =
      (longestMatch m s).map (fun e => (e.2, e.1.length)))
    (hne : ∀ k ∈ mapKeys m, k ≠ []) (s : GoString) (pos skip : Nat) :
    renderPieces (replacePieces oldnew s pos skip false) = referenceScan m s skip := by
  induction s generalizing pos skip with
  | nil =>
    have h := hlookup []
    rcases longestMatch_cases m [] with ⟨hn, _⟩ | ⟨k, v, hs, hmem, hpre, _⟩
    · rw [hn] at h
      simp [replacePieces, h, renderPieces, referenceScan]
    · have hk : k ∈ mapKeys m := List.mem_map.mpr ⟨(k, v), hmem, rfl⟩
      exact absurd (List.prefix_nil.mp hpre) (hne k hk)
  | cons c cs ih =>
    cases skip with
    | succ n =>
      simp only [replacePieces, referenceScan]
      exact ih (pos + 1) n
    | zero =>
      have h := hlookup (c :: cs)
      rcases longestMatch_cases m (c :: cs) with ⟨hn, _⟩ | ⟨k, v, hs, hmem, _, _⟩
      · rw [hn] at h
        have := ih (pos + 1) 0
        simp only [replacePieces, h, referenceScan, hn, Option.map_none']
        simpa [renderPieces, Piece.bytes] using this
      · have hk : k ∈ mapKeys m := List.mem_map.mpr ⟨(k, v), hmem, rfl⟩
        rw [hs] at h
        obtain ⟨n, hn⟩ : ∃ n, k.length = n + 1 :=
          Nat.exists_eq_succ_of_ne_zero (fun e => hne k hk (List.length_eq_zero.mp e))
        have h' : replacerLookup oldnew (c :: cs) false = some (v, n + 1) := by
          rw [h, ← hn]
          rfl
        have := ih (pos + 1) n
        simp only [replacePieces, h', referenceScan, hs, hn, Nat.add_sub_cancel]
        simpa [renderPieces, Piece.bytes] using this

theorem replacerLookup_cons (a : GoString) (keys : List GoString)
    (f : GoString → GoString) (s : GoString) (ignoreRoot : Bool) :
    replacerLookup ((a :: keys).map (fun k => (k, f k))) s ignoreRoot =
      if (a.isPrefixOf s && !(ignoreRoot && decide (a = []))) = true then
        some (f a, a.length)
      else replacerLookup (keys.map (fun k => (k, f k))) s ignoreRoot := rfl

theorem replacerLookup_some (keys : List GoString) (f : GoString → GoString)
    (s : GoString) (ignoreRoot : Bool) (v : GoString) (n : Nat)
    (h : replacerLookup (keys.map (fun k => (k, f k))) s ignoreRoot = some (v, n)) :
    ∃ k ∈ keys, v = f k ∧ n = k.length ∧ k <+: s ∧ (ignoreRoot = true → k ≠ []) := by
  induction keys with
  | nil => simp [replacerLookup] at h
  | cons a keys ih =>
    rw [replacerLookup_cons] at h
    by_cases hc : (a.isPrefixOf s && !(ignoreRoot && decide (a = []))) = true
    · rw [if_pos hc] at h
      have hv : f a = v ∧ a.length = n := by
        simpa using h
      have hc' : a.isPrefixOf s = true ∧ (ignoreRoot = true → ¬ a = []) := by
        cases ignoreRoot <;> simpa using hc
      exact ⟨a, List.mem_cons_self _ _, hv.1.symm, hv.2.symm,
        List.isPrefixOf_iff_prefix.mp hc'.1, hc'.2⟩
    · rw [if_neg hc] at h
      obtain ⟨k, hk, hrest⟩ := ih h
      exact ⟨k, List.mem_cons_of_mem _ hk, hrest⟩

theorem replacerLookup_none (keys : List GoString) (f : GoString → GoString)
    (s : GoString) (ignoreRoot : Bool)
    (h : replacerLookup (keys.map (fun k => (k, f k))) s ignoreRoot = none) :
    ∀ k ∈ keys, k ≠ [] → ¬ k <+: s := by
  induction keys with
  | nil => simp
  | cons a keys ih =>
    rw [replacerLookup_cons] at h
    by_cases hc : (a.isPrefixOf s && !(ignoreRoot && decide (a = []))) = true
    · rw [if_pos hc] at h
      exact absurd h (by simp)
    · rw [if_neg hc] at h
      intro k hk hne hpre
      rcases List.mem_cons.mp hk with e | e
      · subst e
        apply hc
        have : k.isPrefixOf s = true := List.isPrefixOf_iff_prefix.mpr hpre
        simp [this, hne]
      · exact ih h k e hne hpre

/-- With non-empty keys, a byte is copied only from a position at which no key
matches. -/
theorem copied_of_replacePieces (keys : List GoString) (f : GoString → GoString)
    (hne : ∀ k ∈ keys, k ≠ []) (s : GoString) (pos skip : Nat) (prevMatchEmpty : Bool)
    (p : Nat) (b : UInt8)
    (h : Piece.copied p b ∈
      replacePieces (keys.map (fun k => (k, f k))) s pos skip prevMatchEmpty) :
    ∃ n, p = pos + n ∧ s.get? n = some b ∧ ∀ k ∈ keys, ¬ k <+: s.drop n := by
  induction s generalizing pos skip prevMatchEmpty with
  | nil =>
    cases hl : replacerLookup (keys.map (fun k => (k, f k))) [] prevMatchEmpty with
    | none => simp [replacePieces, hl] at h
    | some r => simp [replacePieces, hl] at h
  | cons c cs ih =>
    have tail : ∀ sk pm, Piece.copied p b ∈
        replacePieces (keys.map (fun k => (k, f k))) cs (pos + 1) sk pm →
        ∃ n, p = pos + n ∧ (c :: cs).get? n = some b ∧
          ∀ k ∈ keys, ¬ k <+: (c :: cs).drop n := by
      intro sk pm hm
      obtain ⟨n, h1, h2, h3⟩ := ih (pos + 1) sk pm hm
      exact ⟨n + 1, by omega, by simpa using h2, by simpa using h3⟩
    cases skip with
    | succ n =>
      simp only [replacePieces] at h
      exact tail _ _ h
    | zero =>
      cases hl : replacerLookup (keys.map (fun k => (k, f k))) (c :: cs) prevMatchEmpty with
      | none =>
        simp only [replacePieces, hl, List.mem_cons] at h
        rcases h with h | h
        · have hp : p = pos := by injection h
          have hb : b = c := by injection h
          refine ⟨0, by omega, by simp [hb], ?_⟩
          intro k hk
          exact replacerLookup_none keys f (c :: cs) prevMatchEmpty hl k hk (hne k hk)
        · exact tail _ _ h
      | some r =>
        obtain ⟨val, keylen⟩ := r
        obtain ⟨k, hk, _, hlen, _, _⟩ := replacerLookup_some keys f _ _ _ _ hl
        cases keylen with
        | zero => exact absurd (List.length_eq_zero.mp hlen.symm) (hne k hk)
        | succ m =>
          simp only [replacePieces, hl, List.mem_cons] at h
          rcases h with h | h
          · exact absurd h (by simp)
          · exact tail _ _ h

theorem descriptionReplaceFrom_of_no_match (s : GoString) (h : descriptionMatch s = false) :
    descriptionReplaceFrom s 0 = s := by
  induction s with
  | nil => rfl
  | cons c cs ih =>
    have h' : (openTag.isPrefixOf (c :: cs) &&
        (lastClose ((c :: cs).drop openTag.length)).isSome) = false ∧
        descriptionMatch cs = false := by
      simpa [descriptionMatch] using h
    have ih' := ih h'.2
    by_cases ho : openTag.isPrefixOf (c :: cs) = true
    · have hn : lastClose ((c :: cs).drop openTag.length) = none := by
        have := h'.1
        rw [ho] at this
        simpa using this
      simp only [descriptionReplaceFrom, ho, if_true, hn]
      rw [ih']
    · simp only [descriptionReplaceFrom, ho]
      rw [ih']
      rfl

/-! ## Claims C3 and C5 -/

/-- C3: for a final mapping with distinct non-empty keys, the replacer built in
`maskDataset` (keys sorted longest first, zipped with their masks) writes for every
line what the reference scan writes, which substitutes the mask of the longest key
matching at each position; and the mapping {"Alice": "X1", "AliceSmith": "Y2"}, in
either enumeration order, turns "AliceSmith works with Alice" into
"Y2 works with X1". -/
theorem C3_longest_match_first (maskedValues : GoMap GoString)
    (hnd : (mapKeys maskedValues).Nodup) (hne : ∀ k ∈ mapKeys maskedValues, k ≠ []) :
    (∃ replacer, datasetReplacer maskedValues = some replacer ∧
      ∀ line, Replace replacer line = referenceScan maskedValues line 0) ∧
    maskLine [(str "Alice", str "X1"), (str "AliceSmith", str "Y2")]
      (str "AliceSmith works with Alice") = some (str "Y2 works with X1") ∧
    maskLine [(str "AliceSmith", str "Y2"), (str "Alice", str "X1")]
      (str "AliceSmith works with Alice") = some (str "Y2 works with X1") := by
  refine ⟨⟨_, datasetReplacer_eq maskedValues, ?_⟩, by decide, by decide⟩
  intro line
  exact renderPieces_eq_referenceScan _ maskedValues
    (fun s => datasetReplacer_lookup maskedValues s hnd) hne line 0 0

/-- C3 at the mapping {"Alice": "X1", "AliceSmith": "Y2"} of the specification. -/
theorem C3_longest_match_first_witness :
    ((mapKeys [(str "Alice", str "X1"), (str "AliceSmith", str "Y2")]).Nodup ∧
      ∀ k ∈ mapKeys [(str "Alice", str "X1"), (str "AliceSmith", str "Y2")], k ≠ []) ∧
    ((∃ replacer,
        datasetReplacer [(str "Alice", str "X1"), (str "AliceSmith", str "Y2")] =
          some replacer ∧
        ∀ line, Replace replacer line =
          referenceScan [(str "Alice", str "X1"), (str "AliceSmith", str "Y2")] line 0) ∧
      maskLine [(str "Alice", str "X1"), (str "AliceSmith", str "Y2")]
        (str "AliceSmith works with Alice") = some (str "Y2 works with X1") ∧
      maskLine [(str "AliceSmith", str "Y2"), (str "Alice", str "X1")]
        (str "AliceSmith works with Alice") = some (str "Y2 works with X1")) :=
  ⟨⟨by decide, by decide⟩,
    C3_longest_match_first [(str "Alice", str "X1"), (str "AliceSmith", str "Y2")]
      (by decide) (by decide)⟩

/-- The text of a line without Description field, passed to the replacer of a mapping
with non-empty keys: every byte the replacer copies comes from a position of the text
where no key matches. -/
theorem linePieces_copied (maskedValues : GoMap GoString)
    (hne : ∀ k ∈ mapKeys maskedValues, k ≠ []) (line : GoString)
    (hdesc : descriptionMatch line = false) :
    ∃ pieces, linePieces maskedValues line = some pieces ∧
      maskLine maskedValues line = some (renderPieces pieces) ∧
      ∀ p b, Piece.copied p b ∈ pieces →
        line.get? p = some b ∧ ∀ k ∈ mapKeys maskedValues, ¬ k <+: line.drop p := by
  have hperm := SliceStable_perm (fun a b : GoString => decide (a.length > b.length))
    (mapKeys maskedValues)
  have hline : descriptionReplace line = line := descriptionReplaceFrom_of_no_match line hdesc
  refine ⟨_, by rw [linePieces, datasetReplacer_eq]; rfl, ?_, ?_⟩
  · rw [maskLine, datasetReplacer_eq]
    rfl
  · intro p b hp
    rw [hline] at hp
    obtain ⟨n, h1, h2, h3⟩ := copied_of_replacePieces _ _
      (fun k hk => hne k (hperm.mem_iff.mp hk)) line 0 0 false p b hp
    have hpn : p = n := by omega
    subst hpn
    exact ⟨h2, fun k hk => h3 k (hperm.mem_iff.mpr hk)⟩


/-! ## Lemmas: the Description field -/

theorem lastClose_cons (c : UInt8) (cs : GoString) :
    lastClose (c :: cs) =
      match (if c = 10 then none else lastClose cs) with
      | some q => some (q + 1)
      | none => if closeTag.isPrefixOf (c :: cs) then some 0 else none := rfl

theorem lastClose_append (X : GoString) (hX : (10 : UInt8) ∉ X) :
    lastClose (X ++ closeTag) = some X.length := by
  induction X with
  | nil => decide
  | cons x X ih =>
    have hx : x ≠ 10 := fun e => hX (e ▸ List.mem_cons_self _ _)
    have ih' := ih (fun h => hX (List.mem_cons_of_mem _ h))
    rw [List.cons_append, lastClose_cons, if_neg hx, ih']
    rfl

theorem descriptionReplaceFrom_cons_zero (c : UInt8) (cs : GoString) :
    descriptionReplaceFrom (c :: cs) 0 =
      if openTag.isPrefixOf (c :: cs) then
        match lastClose ((c :: cs).drop openTag.length) with
        | some q =>
          maskedDescription ++
            descriptionReplaceFrom cs (openTag.length + q + closeTag.length - 1)
        | none => c :: descriptionReplaceFrom cs 0
      else c :: descriptionReplaceFrom cs 0 := rfl

theorem descriptionReplaceFrom_skip (s : GoString) (skip : Nat) (h : s.length ≤ skip) :
    descriptionReplaceFrom s skip = [] := by
  induction s generalizing skip with
  | nil => rfl
  | cons c cs ih =>
    cases skip with
    | zero => simp at h
    | succ n =>
      simp only [descriptionReplaceFrom]
      exact ih n (by simpa using h)

/-- The line that holds one Description field and nothing else is blanked to the
sentinel line. -/
theorem descriptionReplace_field (X : GoString) (hX : (10 : UInt8) ∉ X) :
    descriptionReplace (openTag ++ X ++ closeTag) = maskedDescription := by
  obtain ⟨c, t, hopen⟩ : ∃ c t, openTag = c :: t := ⟨60, str "Description>", by decide⟩
  have hcons : openTag ++ X ++ closeTag = c :: (t ++ X ++ closeTag) := by
    rw [hopen]
    rfl
  have hpre : openTag.isPrefixOf (c :: (t ++ X ++ closeTag)) = true := by
    rw [← hcons, List.isPrefixOf_iff_prefix, List.append_assoc]
    exact List.prefix_append _ _
  have hdrop : (c :: (t ++ X ++ closeTag)).drop openTag.length = X ++ closeTag := by
    rw [← hcons, List.append_assoc]
    exact List.drop_left _ _
  have hrest : (t ++ X ++ closeTag).length ≤
      openTag.length + X.length + closeTag.length - 1 := by
    simp only [List.length_append, hopen, List.length_cons]
    omega
  unfold descriptionReplace
  rw [hcons, descriptionReplaceFrom_cons_zero, if_pos hpre, hdrop, lastClose_append X hX]
  show maskedDescription ++ descriptionReplaceFrom _ _ = _
  rw [descriptionReplaceFrom_skip _ _ hrest, List.append_nil]

/-- A replacer none of whose non-empty old strings occurs in `s`, and whose empty
old string has the empty new string, writes `s` itself. -/
theorem renderPieces_of_no_key (keys : List GoString) (f : GoString → GoString)
    (hf : f [] = []) (s : GoString) (hs : ∀ k ∈ keys, k ≠ [] → ¬ k <:+: s)
    (pos : Nat) (prevMatchEmpty : Bool) :
    renderPieces (replacePieces (keys.map (fun k => (k, f k))) s pos 0 prevMatchEmpty) = s := by
  induction s generalizing pos prevMatchEmpty with
  | nil =>
    cases hl : replacerLookup (keys.map (fun k => (k, f k))) [] prevMatchEmpty with
    | none => simp [replacePieces, hl, renderPieces]
    | some r =>
      obtain ⟨val, keylen⟩ := r
      obtain ⟨k, _, hv, _, hpre, _⟩ := replacerLookup_some keys f _ _ _ _ hl
      have hk : k = [] := List.prefix_nil.mp hpre
      rw [hk, hf] at hv
      simp [replacePieces, hl, renderPieces, Piece.bytes, hv]
  | cons c cs ih =>
    have hs' : ∀ k ∈ keys, k ≠ [] → ¬ k <:+: cs := fun k hk hne hin =>
      hs k hk hne (hin.trans (List.suffix_cons c cs).isInfix)
    have hno : ∀ pm v n, replacerLookup (keys.map (fun k => (k, f k))) (c :: cs) pm =
        some (v, n) → n = 0 ∧ v = [] := by
      intro pm v n hl
      obtain ⟨k, hk, hv, hn, hpre, _⟩ := replacerLookup_some keys f _ _ _ _ hl
      have hk0 : k = [] := by
        by_contra hne
        exact hs k hk hne hpre.isInfix
      rw [hk0] at hv hn
      exact ⟨by simpa using hn, by rw [hv, hf]⟩
    have ihc := ih hs' (pos + 1) false
    have hcopy : renderPieces (Piece.copied pos c ::
        replacePieces (keys.map (fun k => (k, f k))) cs (pos + 1) 0 false) = c :: cs := by
      simpa [renderPieces, Piece.bytes] using ihc
    cases hl : replacerLookup (keys.map (fun k => (k, f k))) (c :: cs) prevMatchEmpty with
    | none =>
      simp only [replacePieces, hl]
      exact hcopy
    | some r =>
      obtain ⟨val, keylen⟩ := r
      obtain ⟨hn, hv⟩ := hno _ _ _ hl
      subst hn
      subst hv
      cases hl2 : replacerLookup (keys.map (fun k => (k, f k))) (c :: cs) true with
      | none =>
        simp only [replacePieces, hl, hl2]
        have : renderPieces (Piece.replaced pos 0 [] :: Piece.copied pos c ::
            replacePieces (keys.map (fun k => (k, f k))) cs (pos + 1) 0 false) =
            renderPieces (Piece.copied pos c ::
              replacePieces (keys.map (fun k => (k, f k))) cs (pos + 1) 0 false) := by
          simp [renderPieces, Piece.bytes]
        rw [this]
        exact hcopy
      | some r2 =>
        obtain ⟨val2, keylen2⟩ := r2
        obtain ⟨hn2, hv2⟩ := hno _ _ _ hl2
        subst hn2
        subst hv2
        simp only [replacePieces, hl, hl2]
        have : renderPieces (Piece.replaced pos 0 [] :: Piece.copied pos c ::
            replacePieces (keys.map (fun k => (k, f k))) cs (pos + 1) 0 false) =
            renderPieces (Piece.copied pos c ::
              replacePieces (keys.map (fun k => (k, f k))) cs (pos + 1) 0 false) := by
          simp [renderPieces, Piece.bytes]
        rw [this]
        exact hcopy

/-! ## Claim C4 -/

/-- C4 (as amended): for every final mapping none of whose non-empty keys occurs in
the sentinel line and whose entry for the empty token, if there is one, is the
empty mask, and for every inner text X without a line feed, the per-line processing
turns the line that holds the Description field with text X into exactly the
sentinel line. -/
theorem C4_field_blanking (maskedValues : GoMap GoString) (X : GoString)
    (hX : (10 : UInt8) ∉ X)
    (hkeys : ∀ k ∈ mapKeys maskedValues, k ≠ [] → ¬ k <:+: maskedDescription)
    (hempty : mapGet maskedValues [] = []) :
    maskLine maskedValues (openTag ++ X ++ closeTag) = some maskedDescription := by
  have hperm := SliceStable_perm (fun a b : GoString => decide (a.length > b.length))
    (mapKeys maskedValues)
  rw [maskLine, datasetReplacer_eq, descriptionReplace_field X hX]
  show some (Replace _ maskedDescription) = _
  unfold Replace
  rw [renderPieces_of_no_key _ (fun k => mapGet maskedValues k) hempty maskedDescription
    (fun k hk => hkeys k (hperm.mem_iff.mp hk)) 0 false]

/-- C4 fails as stated: with the final mapping for the single token "Description"
the line with the field is turned into a line that is not the sentinel line,
because the replacer also rewrites the tags. -/
theorem C4_counterexample :
    (10 : UInt8) ∉ str "x" ∧
    maskLine (initMaskValues (tokenMap [str "Description"]) [])
        (openTag ++ str "x" ++ closeTag) =
      some (str "<1000M>MASKED_DESCRIPTION</1000M>") ∧
    str "<1000M>MASKED_DESCRIPTION</1000M>" ≠ maskedDescription := by
  decide

/-- C4 (as amended) at the case of the specification: the text "Alice lives here" and
the mapping {"Alice": "X1", "AliceSmith": "Y2"}. -/
theorem C4_field_blanking_witness :
    ((10 : UInt8) ∉ str "Alice lives here" ∧
      (∀ k ∈ mapKeys [(str "Alice", str "X1"), (str "AliceSmith", str "Y2")],
        k ≠ [] → ¬ k <:+: maskedDescription) ∧
      mapGet [(str "Alice", str "X1"), (str "AliceSmith", str "Y2")] [] = []) ∧
    maskLine [(str "Alice", str "X1"), (str "AliceSmith", str "Y2")]
        (openTag ++ str "Alice lives here" ++ closeTag) = some maskedDescription :=
  ⟨⟨by decide, by decide, by decide⟩,
    C4_field_blanking [(str "Alice", str "X1"), (str "AliceSmith", str "Y2")]
      (str "Alice lives here") (by decide) (by decide) (by decide)⟩

/-! ## Lemmas: stability of the sort and independence of the enumeration order -/

theorem filter_insertStable (x : GoString) (l : List GoString) (n : Nat) :
    (insertStable (fun a b => decide (a.length < b.length)) x l).filter
        (fun k => decide (k.length = n)) =
      (x :: l).filter (fun k => decide (k.length = n)) := by
  induction l with
  | nil => rfl
  | cons y ys ih =>
    by_cases h : y.length < x.length
    · have hstep : insertStable (fun a b => decide (a.length < b.length)) x (y :: ys) =
          y :: insertStable (fun a b => decide (a.length < b.length)) x ys := by
        simp [insertStable, h]
      rw [hstep, List.filter_cons, ih]
      by_cases hy : y.length = n
      · have hx : ¬ x.length = n := by omega
        simp [List.filter_cons, hy, hx]
      · simp [List.filter_cons, hy]
    · have hstep : insertStable (fun a b => decide (a.length < b.length)) x (y :: ys) =
          x :: y :: ys := by
        simp [insertStable, h]
      rw [hstep]

theorem filter_SliceStable (l : List GoString) (n : Nat) :
    (SliceStable (fun a b => decide (a.length < b.length)) l).filter
        (fun k => decide (k.length = n)) =
      l.filter (fun k => decide (k.length = n)) := by
  induction l with
  | nil => rfl
  | cons x xs ih =>
    have h : SliceStable (fun a b => decide (a.length < b.length)) (x :: xs) =
        insertStable (fun a b => decide (a.length < b.length)) x
          (SliceStable (fun a b => decide (a.length < b.length)) xs) := rfl
    rw [h, filter_insertStable, List.filter_cons, List.filter_cons, ih]

/-- Two lists in ascending order of length that list the strings of each length in the
same order are equal. -/
theorem eq_of_sorted_of_filter_eq (l1 l2 : List GoString)
    (h1 : l1.Pairwise (fun a b => a.length ≤ b.length))
    (h2 : l2.Pairwise (fun a b => a.length ≤ b.length))
    (hf : ∀ n, l1.filter (fun k => decide (k.length = n)) =
      l2.filter (fun k => decide (k.length = n))) : l1 = l2 := by
  induction l1 generalizing l2 with
  | nil =>
    cases l2 with
    | nil => rfl
    | cons b t2 =>
      have := hf b.length
      simp [List.filter_cons] at this
  | cons a t1 ih =>
    cases l2 with
    | nil =>
      have := hf a.length
      simp [List.filter_cons] at this
    | cons b t2 =>
      have ha := List.pairwise_cons.mp h1
      have hb := List.pairwise_cons.mp h2
      have hnil : ∀ (c : GoString) (t : List GoString) (n : Nat),
          (∀ k ∈ t, c.length ≤ k.length) → n < c.length →
          (c :: t).filter (fun k => decide (k.length = n)) = [] := by
        intro c t n hc hn
        apply List.filter_eq_nil_iff.mpr
        intro k hk
        rcases List.mem_cons.mp hk with e | e
        · subst e
          simp
          omega
        · have := hc k e
          simp
          omega
      have hlen : a.length = b.length := by
        rcases Nat.lt_trichotomy a.length b.length with h | h | h
        · have e1 := hf a.length
          rw [hnil b t2 a.length hb.1 h] at e1
          simp [List.filter_cons] at e1
        · exact h
        · have e1 := hf b.length
          rw [hnil a t1 b.length ha.1 h] at e1
          simp [List.filter_cons] at e1
      have e0 := hf a.length
      have hab : a = b ∧ t1.filter (fun k => decide (k.length = a.length)) =
          t2.filter (fun k => decide (k.length = a.length)) := by
        simpa [List.filter_cons, hlen] using e0
      obtain ⟨hab1, hab2⟩ := hab
      subst hab1
      have ht : t1 = t2 := by
        apply ih t2 ha.2 hb.2
        intro n
        by_cases hn : a.length = n
        · rw [← hn]
          exact hab2
        · have := hf n
          simpa [List.filter_cons, hn] using this
      rw [ht]

theorem mapGet_perm {α : Type} (m1 m2 : GoMap (List α)) (hp : m1.Perm m2)
    (hnd : (mapKeys m1).Nodup) (k : GoString) : mapGet m1 k = mapGet m2 k := by
  induction hp with
  | nil => rfl
  | cons e _ ih =>
    obtain ⟨k0, v0⟩ := e
    have hnd' : (mapKeys _).Nodup := (List.nodup_cons.mp (by simpa [mapKeys] using hnd)).2
    simp only [mapGet]
    rw [ih (by simpa [mapKeys] using hnd')]
  | swap e1 e2 l =>
    obtain ⟨k1, v1⟩ := e1
    obtain ⟨k2, v2⟩ := e2
    have hne : k2 ≠ k1 := by
      have : (k2 :: k1 :: mapKeys l).Nodup := by simpa [mapKeys] using hnd
      intro e
      have h := (List.nodup_cons.mp this).1
      exact h (e ▸ List.mem_cons_self _ _)
    simp only [mapGet]
    by_cases h1 : k1 = k
    · have h2 : ¬ k2 = k := fun e => hne (e.trans h1.symm)
      simp [h1, h2]
    · simp [h1]
  | trans p1 _ ih1 ih2 =>
    rw [ih1 hnd]
    apply ih2
    exact ((p1.map Prod.fst).nodup_iff).mp hnd

theorem mapGet_cascade_congr (keyVal : GoString) (resolved : GoMap GoString)
    (later : List GoString) (im1 im2 : GoMap (List maskstring))
    (h : ∀ u, mapGet im1 u = mapGet im2 u) (u : GoString) :
    mapGet (cascade keyVal resolved later im1) u =
      mapGet (cascade keyVal resolved later im2) u := by
  induction later generalizing im1 im2 with
  | nil => exact h u
  | cons a rest ih =>
    simp only [cascade]
    apply ih
    intro w
    by_cases hw : w = a
    · subst hw
      rw [mapGet_mapSet_same, mapGet_mapSet_same, h]
    · rw [mapGet_mapSet_ne _ _ _ _ hw, mapGet_mapSet_ne _ _ _ _ hw, h]

/-- The loop only reads the token map through lookups: on two maps with the same
lookups it computes the same masks. -/
theorem resolveLoop_congr (seedmap : GoMap GoString) (ks : List GoString)
    (st1 st2 : ResolveState)
    (hi : ∀ u, mapGet st1.maskValuesInterim u = mapGet st2.maskValuesInterim u)
    (hr : st1.maskValuesResolved = st2.maskValuesResolved)
    (hc : st1.counter = st2.counter) :
    (resolveLoop seedmap ks st1).maskValuesResolved =
      (resolveLoop seedmap ks st2).maskValuesResolved := by
  induction ks generalizing st1 st2 with
  | nil => exact hr
  | cons k later ih =>
    have hown : ownFragments seedmap k st1 = ownFragments seedmap k st2 := by
      unfold ownFragments
      rw [hi, hc]
    have hmask : ownMask seedmap k st1 = ownMask seedmap k st2 := by
      unfold ownMask
      rw [hown]
    apply ih
    · intro u
      show mapGet (cascade k _ later _) u = mapGet (cascade k _ later _) u
      rw [hr, hmask, hown]
      apply mapGet_cascade_congr
      intro w
      by_cases hw : w = k
      · subst hw
        rw [mapGet_mapSet_same, mapGet_mapSet_same]
      · rw [mapGet_mapSet_ne _ _ _ _ hw, mapGet_mapSet_ne _ _ _ _ hw, hi]
    · show mapSet _ k _ = mapSet _ k _
      rw [hr, hmask]
    · show (ownFragments seedmap k st1).2 + 1 = (ownFragments seedmap k st2).2 + 1
      rw [hown]

/-! ## Claim C7 -/

/-- C7 (as amended): for a fixed token map and seed map, `initMaskValues` returns the
same mapping for any two enumeration orders of the keys that list the tokens of each
length in the same relative order (in particular when no two tokens have the same
length). -/
theorem C7_order_independence (m1 m2 : GoMap (List maskstring)) (seedmap : GoMap GoString)
    (hperm : m1.Perm m2) (hnd : (mapKeys m1).Nodup)
    (hties : ∀ a ∈ mapKeys m1,
      (mapKeys m1).filter (fun k => decide (k.length = a.length)) =
        (mapKeys m2).filter (fun k => decide (k.length = a.length))) :
    initMaskValues m1 seedmap = initMaskValues m2 seedmap := by
  have hkeys : (mapKeys m1).Perm (mapKeys m2) := hperm.map Prod.fst
  have hall : ∀ n, (mapKeys m1).filter (fun k => decide (k.length = n)) =
      (mapKeys m2).filter (fun k => decide (k.length = n)) := by
    intro n
    by_cases hn : ∃ a ∈ mapKeys m1, a.length = n
    · obtain ⟨a, ha, hlen⟩ := hn
      rw [← hlen]
      exact hties a ha
    · have e1 : (mapKeys m1).filter (fun k => decide (k.length = n)) = [] := by
        apply List.filter_eq_nil_iff.mpr
        intro k hk
        simp only [decide_eq_true_eq]
        exact fun e => hn ⟨k, hk, e⟩
      have e2 : (mapKeys m2).filter (fun k => decide (k.length = n)) = [] := by
        apply List.filter_eq_nil_iff.mpr
        intro k hk
        simp only [decide_eq_true_eq]
        exact fun e => hn ⟨k, hkeys.mem_iff.mpr hk, e⟩
      rw [e1, e2]
  have hsorted : sortedKeys m1 = sortedKeys m2 := by
    apply eq_of_sorted_of_filter_eq _ _ (sortedKeys_pairwise m1) (sortedKeys_pairwise m2)
    intro n
    unfold sortedKeys
    rw [filter_SliceStable, filter_SliceStable]
    exact hall n
  show (resolveLoop seedmap (sortedKeys m1) ⟨m1, [], 1000⟩).maskValuesResolved =
    (resolveLoop seedmap (sortedKeys m2) ⟨m2, [], 1000⟩).maskValuesResolved
  rw [hsorted]
  exact resolveLoop_congr seedmap _ _ _ (fun u => mapGet_perm m1 m2 hperm hnd u) rfl rfl

/-- C7 fails as stated: the tokens "ab" and "cd" have the same length, and the mask of
"ab" is "_MT_" when the map is enumerated as "ab", "cd" and "_OT_" when it is
enumerated as "cd", "ab". -/
theorem C7_counterexample :
    (tokenMap [str "ab", str "cd"]).Perm (tokenMap [str "cd", str "ab"]) ∧
    mapGet (initMaskValues (tokenMap [str "ab", str "cd"]) []) (str "ab") = str "_MT_" ∧
    mapGet (initMaskValues (tokenMap [str "cd", str "ab"]) []) (str "ab") = str "_OT_" ∧
    initMaskValues (tokenMap [str "ab", str "cd"]) [] ≠
      initMaskValues (tokenMap [str "cd", str "ab"]) [] :=
  ⟨List.Perm.swap _ _ _, by decide, by decide, by decide⟩

/-- C7 (as amended) at the tokens "ab", "xyz", "cd", enumerated in two orders that keep
"ab" before "cd". -/
theorem C7_order_independence_witness :
    ((tokenMap [str "ab", str "xyz", str "cd"]).Perm
        (tokenMap [str "xyz", str "ab", str "cd"]) ∧
      (mapKeys (tokenMap [str "ab", str "xyz", str "cd"])).Nodup ∧
      ∀ a ∈ mapKeys (tokenMap [str "ab", str "xyz", str "cd"]),
        (mapKeys (tokenMap [str "ab", str "xyz", str "cd"])).filter
            (fun k => decide (k.length = a.length)) =
          (mapKeys (tokenMap [str "xyz", str "ab", str "cd"])).filter
            (fun k => decide (k.length = a.length))) ∧
    initMaskValues (tokenMap [str "ab", str "xyz", str "cd"]) [(str "x", str "S")] =
      initMaskValues (tokenMap [str "xyz", str "ab", str "cd"]) [(str "x", str "S")] :=
  ⟨⟨List.Perm.swap _ _ _, by decide, by decide⟩,
    C7_order_independence (tokenMap [str "ab", str "xyz", str "cd"])
      (tokenMap [str "xyz", str "ab", str "cd"]) [(str "x", str "S")]
      (List.Perm.swap _ _ _) (by decide) (by decide)⟩

/-! ## Lemmas: decimal representations -/

theorem digitByte_toNat (d : Nat) (h : d < 10) : (digitByte d).toNat = 48 + d := by
  interval_cases d <;> rfl

theorem isDigit_digitByte (d : Nat) (h : d < 10) : isDigit (digitByte d) = true := by
  interval_cases d <;> rfl

theorem decimalDigits_all_digits (fuel n : Nat) (acc : GoString)
    (hacc : ∀ b ∈ acc, isDigit b = true) :
    ∀ b ∈ decimalDigits fuel n acc, isDigit b = true := by
  induction fuel generalizing n acc with
  | zero => exact hacc
  | succ fuel ih =>
    by_cases hn : n < 10
    · simp only [decimalDigits, hn, if_true]
      intro b hb
      rcases List.mem_cons.mp hb with e | e
      · rw [e]
        exact isDigit_digitByte n hn
      · exact hacc b e
    · simp only [decimalDigits, hn, if_false]
      apply ih
      intro b hb
      rcases List.mem_cons.mp hb with e | e
      · rw [e]
        exact isDigit_digitByte _ (Nat.mod_lt _ (by decide))
      · exact hacc b e

theorem foldl_decimalDigits (fuel n : Nat) (acc : GoString) (h : n < fuel) :
    (decimalDigits fuel n acc).foldl (fun v ch => v * 10 + (ch.toNat - 48)) 0 =
      acc.foldl (fun v ch => v * 10 + (ch.toNat - 48)) n := by
  induction fuel generalizing n acc with
  | zero => omega
  | succ fuel ih =>
    by_cases hn : n < 10
    · simp only [decimalDigits, hn, if_true, List.foldl_cons, digitByte_toNat n hn]
      congr 1
      omega
    · simp only [decimalDigits, hn, if_false]
      rw [ih (n / 10) _ (by omega), List.foldl_cons,
        digitByte_toNat _ (Nat.mod_lt _ (by decide))]
      congr 1
      omega

theorem decimalValue_natToDecimal (n : Nat) : decimalValue (natToDecimal n) = n := by
  unfold decimalValue natToDecimal
  rw [foldl_decimalDigits _ _ _ (Nat.lt_succ_self n)]
  rfl

theorem Itoa_of_nonneg (i : Int) (h : 0 ≤ i) : Itoa i = natToDecimal i.toNat := by
  unfold Itoa
  rw [if_neg (by omega)]

theorem Itoa_injective (a b : Int) (ha : 0 ≤ a) (hb : 0 ≤ b) (h : Itoa a = Itoa b) : a = b := by
  rw [Itoa_of_nonneg a ha, Itoa_of_nonneg b hb] at h
  have := congrArg decimalValue h
  rw [decimalValue_natToDecimal, decimalValue_natToDecimal] at this
  omega

theorem Itoa_all_digits (i : Int) (h : 0 ≤ i) : ∀ b ∈ Itoa i, isDigit b = true := by
  rw [Itoa_of_nonneg i h]
  exact decimalDigits_all_digits _ _ [] (by simp)

/-! ## Lemmas: the counter at the iterations of two keys -/

theorem exists_split_of_mem_nodup (ks : List GoString) (T : GoString) (hT : T ∈ ks)
    (hnd : ks.Nodup) : ∃ pre post, ks = pre ++ T :: post ∧ T ∉ post := by
  obtain ⟨pre, post, h⟩ := List.append_of_mem hT
  refine ⟨pre, post, h, ?_⟩
  rw [h] at hnd
  exact (List.nodup_cons.mp (List.nodup_append.mp hnd).2.1).1

/-- Of two different keys of a list one stands before the other. -/
theorem exists_split_two (ks : List GoString) (T1 T2 : GoString) (h1 : T1 ∈ ks)
    (h2 : T2 ∈ ks) (hne : T1 ≠ T2) :
    (∃ pre mid post, ks = pre ++ T1 :: (mid ++ T2 :: post)) ∨
      (∃ pre mid post, ks = pre ++ T2 :: (mid ++ T1 :: post)) := by
  obtain ⟨pre, rest, h⟩ := List.append_of_mem h1
  rw [h] at h2
  rcases List.mem_append.mp h2 with hm | hm
  · obtain ⟨a, b, hab⟩ := List.append_of_mem hm
    right
    refine ⟨a, b, rest, ?_⟩
    rw [h, hab]
    simp
  · rcases List.mem_cons.mp hm with e | e
    · exact absurd e.symm hne
    · obtain ⟨a, b, hab⟩ := List.append_of_mem e
      left
      exact ⟨pre, a, b, by rw [h, hab]⟩

/-- The counter grows between the iterations of two keys. -/
theorem counter_lt_of_before (seedmap : GoMap GoString) (pre mid post : List GoString)
    (X Y : GoString) (st : ResolveState) :
    (resolvePrefix seedmap pre (X :: (mid ++ Y :: post)) st).counter <
      (resolvePrefix seedmap (pre ++ X :: mid) (Y :: post) st).counter := by
  rw [resolvePrefix_append]
  simp only [List.cons_append]
  show _ < (resolvePrefix seedmap mid (Y :: post)
    (resolveStep seedmap X (mid ++ Y :: post) _)).counter
  have h1 := resolveStep_counter_lt seedmap X (mid ++ Y :: post)
    (resolvePrefix seedmap pre (X :: (mid ++ Y :: post)) st)
  have h2 := resolvePrefix_counter_le seedmap mid (Y :: post)
    (resolveStep seedmap X (mid ++ Y :: post)
      (resolvePrefix seedmap pre (X :: (mid ++ Y :: post)) st))
  omega

/-- The mask of an integer literal, in terms of the counter at its iteration. -/
theorem mask_of_int (seedmap : GoMap GoString) (pre post : List GoString) (T : GoString)
    (st : ResolveState) (hT : T ∉ post) (hint : isInt T = true) :
    mapGet (resolveLoop seedmap (pre ++ T :: post) st).maskValuesResolved T =
      str "77" ++ Itoa (resolvePrefix seedmap pre (T :: post) st).counter ++ str "77" := by
  rw [resolveLoop_resolved_at _ _ _ _ _ hT, ownMask_of_isInt _ _ _ hint]
  rfl

/-! ## Claim C8 -/

/-- C8: every token that `isInt` accepts is mapped to "77", the decimal digits of a
counter value c ≥ 1000, and "77" again, so its mask consists of decimal digits only
(counter 1003 gives "77100377"), and two distinct integer tokens never receive the
same mask. -/
theorem C8_integer_masks (maskValuesInterim : GoMap (List maskstring))
    (seedmap : GoMap GoString) (hnd : (mapKeys maskValuesInterim).Nodup) :
    (∀ T ∈ mapKeys maskValuesInterim, isInt T = true →
      (∃ c : Int, 1000 ≤ c ∧
        mapGet (initMaskValues maskValuesInterim seedmap) T =
          str "77" ++ Itoa c ++ str "77") ∧
      ∀ b ∈ mapGet (initMaskValues maskValuesInterim seedmap) T, isDigit b = true) ∧
    (∀ T1 ∈ mapKeys maskValuesInterim, ∀ T2 ∈ mapKeys maskValuesInterim,
      isInt T1 = true → isInt T2 = true → T1 ≠ T2 →
      mapGet (initMaskValues maskValuesInterim seedmap) T1 ≠
        mapGet (initMaskValues maskValuesInterim seedmap) T2) ∧
    Itoa maskIntDelimiter ++ Itoa 1003 ++ Itoa maskIntDelimiter = str "77100377" := by
  have hperm := sortedKeys_perm maskValuesInterim
  have hnd' : (sortedKeys maskValuesInterim).Nodup := hperm.nodup_iff.mpr hnd
  -- the mask of an integer token, with the counter of its iteration
  have hmask : ∀ pre post T, sortedKeys maskValuesInterim = pre ++ T :: post →
      isInt T = true →
      mapGet (initMaskValues maskValuesInterim seedmap) T =
        str "77" ++ Itoa (resolvePrefix seedmap pre (T :: post)
          ⟨maskValuesInterim, [], 1000⟩).counter ++ str "77" := by
    intro pre post T hsplit hint
    have hT : T ∉ post := by
      rw [hsplit] at hnd'
      exact (List.nodup_cons.mp (List.nodup_append.mp hnd').2.1).1
    show mapGet (resolveLoop seedmap (sortedKeys maskValuesInterim) _).maskValuesResolved T = _
    rw [hsplit]
    exact mask_of_int seedmap pre post T _ hT hint
  have hcount : ∀ pre suffix, (1000 : Int) ≤ (resolvePrefix seedmap pre suffix
      ⟨maskValuesInterim, [], 1000⟩).counter := fun pre suffix =>
    resolvePrefix_counter_le seedmap pre suffix ⟨maskValuesInterim, [], 1000⟩
  have hdiff : ∀ pre mid post X Y,
      sortedKeys maskValuesInterim = pre ++ X :: (mid ++ Y :: post) →
      isInt X = true → isInt Y = true →
      mapGet (initMaskValues maskValuesInterim seedmap) X ≠
        mapGet (initMaskValues maskValuesInterim seedmap) Y := by
    intro pre mid post X Y hsplit hX hY heq
    have hsplit' : sortedKeys maskValuesInterim = (pre ++ X :: mid) ++ Y :: post := by
      rw [hsplit]
      simp
    rw [hmask pre (mid ++ Y :: post) X hsplit hX, hmask (pre ++ X :: mid) post Y hsplit' hY]
      at heq
    have h1 := List.append_cancel_right heq
    have h2 := List.append_cancel_left h1
    have hlt := counter_lt_of_before seedmap pre mid post X Y ⟨maskValuesInterim, [], 1000⟩
    have hx := hcount pre (X :: (mid ++ Y :: post))
    have hy := hcount (pre ++ X :: mid) (Y :: post)
    have := Itoa_injective _ _ (by omega) (by omega) h2
    omega
  have h77 : ∀ b ∈ str "77", isDigit b = true := by decide
  refine ⟨?_, ?_, by decide⟩
  · intro T hT hint
    obtain ⟨pre, post, hsplit, _⟩ :=
      exists_split_of_mem_nodup _ T (hperm.mem_iff.mpr hT) hnd'
    have hm := hmask pre post T hsplit hint
    have hc := hcount pre (T :: post)
    refine ⟨⟨_, hc, hm⟩, ?_⟩
    rw [hm]
    intro b hb
    rcases List.mem_append.mp hb with hb | hb
    · rcases List.mem_append.mp hb with hb | hb
      · exact h77 b hb
      · exact Itoa_all_digits _ (by omega) b hb
    · exact h77 b hb
  · intro T1 hT1 T2 hT2 hi1 hi2 hne
    rcases exists_split_two _ T1 T2 (hperm.mem_iff.mpr hT1) (hperm.mem_iff.mpr hT2) hne with
      ⟨pre, mid, post, hsplit⟩ | ⟨pre, mid, post, hsplit⟩
    · exact hdiff pre mid post T1 T2 hsplit hi1 hi2
    · exact fun e => hdiff pre mid post T2 T1 hsplit hi2 hi1 e.symm

/-- C8 at the tokens "12", "ab", "-7", "12ab" (the last one contains "12" and "ab"). -/
theorem C8_integer_masks_witness :
    (mapKeys (tokenMap [str "12", str "ab", str "-7", str "12ab"])).Nodup ∧
    ((∀ T ∈ mapKeys (tokenMap [str "12", str "ab", str "-7", str "12ab"]), isInt T = true →
      (∃ c : Int, 1000 ≤ c ∧
        mapGet (initMaskValues (tokenMap [str "12", str "ab", str "-7", str "12ab"]) []) T =
          str "77" ++ Itoa c ++ str "77") ∧
      ∀ b ∈ mapGet (initMaskValues (tokenMap [str "12", str "ab", str "-7", str "12ab"]) []) T,
        isDigit b = true) ∧
    (∀ T1 ∈ mapKeys (tokenMap [str "12", str "ab", str "-7", str "12ab"]),
      ∀ T2 ∈ mapKeys (tokenMap [str "12", str "ab", str "-7", str "12ab"]),
      isInt T1 = true → isInt T2 = true → T1 ≠ T2 →
      mapGet (initMaskValues (tokenMap [str "12", str "ab", str "-7", str "12ab"]) []) T1 ≠
        mapGet (initMaskValues (tokenMap [str "12", str "ab", str "-7", str "12ab"]) []) T2) ∧
    Itoa maskIntDelimiter ++ Itoa 1003 ++ Itoa maskIntDelimiter = str "77100377") :=
  ⟨by decide,
    C8_integer_masks (tokenMap [str "12", str "ab", str "-7", str "12ab"]) [] (by decide)⟩

/-! ## Lemmas: the generic mask of a token that contains no other token -/

/-- The mask of a token that is no integer literal, is longer than the threshold, and
into which no earlier key was cascaded: the seed of its first byte, the counter at
its iteration, and "M". -/
theorem mask_of_single (seedmap : GoMap GoString) (pre post : List GoString)
    (b : UInt8) (rest : GoString) (st : ResolveState)
    (hnd : (pre ++ (b :: rest) :: post).Nodup)
    (hint : isInt (b :: rest) = false) (hlen : 2 < (b :: rest).length)
    (h0 : mapGet st.maskValuesInterim (b :: rest) = [⟨b :: rest, false⟩])
    (hpre : ∀ k ∈ pre, ¬ k <:+: b :: rest) :
    mapGet (resolveLoop seedmap (pre ++ (b :: rest) :: post) st).maskValuesResolved
        (b :: rest) =
      mapGet seedmap (runeToString (b.toNat : Int)) ++
        Itoa (resolvePrefix seedmap pre ((b :: rest) :: post) st).counter ++ str "M" := by
  have hT : (b :: rest) ∉ post :=
    (List.nodup_cons.mp (List.nodup_append.mp hnd).2.1).1
  rw [resolveLoop_resolved_at _ _ _ _ _ hT]
  apply ownMask_of_single _ _ _ _ hint hlen
  apply resolvePrefix_interim_invariant seedmap (fun frags => frags = [⟨b :: rest, false⟩])
    pre ((b :: rest) :: post) st (b :: rest) (List.mem_cons_self _ _) hnd
  · intro k hk mask frags hfr
    subst hfr
    apply splitFragments_of_not_infix
    intro f hf
    rw [List.mem_singleton.mp hf]
    exact hpre k hk
  · exact h0

theorem digits_suffix_unique (s1 s2 d1 d2 : GoString)
    (hd1 : ∀ b ∈ d1, isDigit b = true) (hd2 : ∀ b ∈ d2, isDigit b = true)
    (hs1 : ∀ b, s1.getLast? = some b → isDigit b = false)
    (hs2 : ∀ b, s2.getLast? = some b → isDigit b = false)
    (h : s1 ++ d1 = s2 ++ d2) : d1 = d2 := by
  have key : ∀ (s a d : GoString), (∀ b ∈ a ++ d, isDigit b = true) →
      (∀ b, (s ++ a).getLast? = some b → isDigit b = false) → a = [] := by
    intro s a d hd hs
    by_contra hne
    have h1 : (s ++ a).getLast? = some (a.getLast hne) := by
      rw [List.getLast?_append_of_ne_nil _ hne]
      exact List.getLast?_eq_getLast _ hne
    have h2 := hs _ h1
    have h3 := hd _ (List.mem_append_left _ (List.getLast_mem hne))
    rw [h2] at h3
    exact absurd h3 (by simp)
  rcases List.append_eq_append_iff.mp h with ⟨a, h1, h2⟩ | ⟨c, h1, h2⟩
  · have ha : a = [] := key s1 a d2 (h2 ▸ hd1) (h1 ▸ hs2)
    rw [h2, ha]
    rfl
  · have hc : c = [] := key s2 c d1 (h2 ▸ hd2) (h1 ▸ hs1)
    rw [h2, hc]
    rfl

theorem mapGet_getLast_of_forall (m : GoMap GoString) (k : GoString) (P : UInt8 → Prop)
    (h : ∀ e ∈ m, ∀ b, e.2.getLast? = some b → P b) :
    ∀ b, (mapGet m k).getLast? = some b → P b := by
  induction m with
  | nil =>
    intro b hb
    simp [mapGet] at hb
  | cons e rest ih =>
    obtain ⟨k0, v0⟩ := e
    by_cases hk : k0 = k
    · simp only [mapGet, hk, if_true]
      exact h (k0, v0) (List.mem_cons_self _ _)
    · simp only [mapGet, hk, if_false]
      exact ih (fun e he => h e (List.mem_cons_of_mem _ he))

/-! ## Masks of tokens that contain no other token -/

/-- What the generic path does guarantee: when no seed ends in a decimal digit, two
distinct tokens that are not integer literals, are longer than 2 and contain no other
token of the set as a substring receive different masks. -/
theorem isolated_masks_differ (tokens : List GoString) (seedmap : GoMap GoString)
    (T1 T2 : GoString) (hnd : tokens.Nodup) (h1 : T1 ∈ tokens) (h2 : T2 ∈ tokens)
    (hne : T1 ≠ T2) (hint1 : isInt T1 = false) (hint2 : isInt T2 = false)
    (hlen1 : 2 < T1.length) (hlen2 : 2 < T2.length)
    (hiso1 : ∀ K ∈ tokens, K ≠ T1 → ¬ K <:+: T1)
    (hiso2 : ∀ K ∈ tokens, K ≠ T2 → ¬ K <:+: T2)
    (hseed : ∀ e ∈ seedmap, ∀ b, e.2.getLast? = some b → isDigit b = false) :
    mapGet (initMaskValues (tokenMap tokens) seedmap) T1 ≠
      mapGet (initMaskValues (tokenMap tokens) seedmap) T2 := by
  have hperm := sortedKeys_tokenMap_perm tokens
  have hnd' : (sortedKeys (tokenMap tokens)).Nodup := hperm.nodup_iff.mpr hnd
  -- the mask of such a token, with the counter of its iteration
  have hmask : ∀ pre post T, sortedKeys (tokenMap tokens) = pre ++ T :: post →
      isInt T = false → 2 < T.length → (∀ K ∈ tokens, K ≠ T → ¬ K <:+: T) →
      ∃ seed : GoString, (∀ b, seed.getLast? = some b → isDigit b = false) ∧
        mapGet (initMaskValues (tokenMap tokens) seedmap) T =
          seed ++ Itoa (resolvePrefix seedmap pre (T :: post)
            ⟨tokenMap tokens, [], 1000⟩).counter ++ str "M" := by
    intro pre post T hsplit hint hlen hiso
    cases T with
    | nil => simp at hlen
    | cons b rest =>
      have hnd2 : (pre ++ (b :: rest) :: post).Nodup := hsplit ▸ hnd'
      have hTmem : (b :: rest) ∈ tokens := hperm.mem_iff.mp (by rw [hsplit]; simp)
      refine ⟨mapGet seedmap (runeToString (b.toNat : Int)),
        mapGet_getLast_of_forall seedmap _ _ hseed, ?_⟩
      show mapGet (resolveLoop seedmap (sortedKeys (tokenMap tokens)) _).maskValuesResolved _ = _
      rw [hsplit]
      apply mask_of_single seedmap pre post b rest _ hnd2 hint hlen
        (mapGet_tokenMap tokens _ hTmem)
      intro k hk
      have hkT : k ≠ b :: rest := by
        intro e
        exact (List.nodup_append.mp hnd2).2.2 hk (e ▸ List.mem_cons_self _ _)
      exact hiso k (hperm.mem_iff.mp (by rw [hsplit]; exact List.mem_append_left _ hk)) hkT
  have hcount : ∀ pre suffix, (1000 : Int) ≤ (resolvePrefix seedmap pre suffix
      ⟨tokenMap tokens, [], 1000⟩).counter := fun pre suffix =>
    resolvePrefix_counter_le seedmap pre suffix ⟨tokenMap tokens, [], 1000⟩
  have hdiff : ∀ pre mid post X Y,
      sortedKeys (tokenMap tokens) = pre ++ X :: (mid ++ Y :: post) →
      isInt X = false → isInt Y = false → 2 < X.length → 2 < Y.length →
      (∀ K ∈ tokens, K ≠ X → ¬ K <:+: X) → (∀ K ∈ tokens, K ≠ Y → ¬ K <:+: Y) →
      mapGet (initMaskValues (tokenMap tokens) seedmap) X ≠
        mapGet (initMaskValues (tokenMap tokens) seedmap) Y := by
    intro pre mid post X Y hsplit hX hY hlX hlY hiX hiY heq
    have hsplit' : sortedKeys (tokenMap tokens) = (pre ++ X :: mid) ++ Y :: post := by
      rw [hsplit]
      simp
    obtain ⟨sx, hsx, hmx⟩ := hmask pre (mid ++ Y :: post) X hsplit hX hlX hiX
    obtain ⟨sy, hsy, hmy⟩ := hmask (pre ++ X :: mid) post Y hsplit' hY hlY hiY
    rw [hmx, hmy] at heq
    have hlt := counter_lt_of_before seedmap pre mid post X Y ⟨tokenMap tokens, [], 1000⟩
    have hx := hcount pre (X :: (mid ++ Y :: post))
    have hy := hcount (pre ++ X :: mid) (Y :: post)
    have e1 := List.append_cancel_right heq
    have e2 := digits_suffix_unique _ _ _ _ (Itoa_all_digits _ (by omega))
      (Itoa_all_digits _ (by omega)) hsx hsy e1
    have := Itoa_injective _ _ (by omega) (by omega) e2
    omega
  rcases exists_split_two _ T1 T2 (hperm.mem_iff.mpr h1) (hperm.mem_iff.mpr h2) hne with
    ⟨pre, mid, post, hsplit⟩ | ⟨pre, mid, post, hsplit⟩
  · exact hdiff pre mid post T1 T2 hsplit hint1 hint2 hlen1 hlen2 hiso1 hiso2
  · exact fun e => hdiff pre mid post T2 T1 hsplit hint2 hint1 hlen2 hlen1 hiso2 hiso1 e.symm

/-! ## Lemmas: a run over tokens of one length -/

theorem length_decimalDigits (k fuel n : Nat) (acc : GoString) (hf : n < fuel)
    (hlo : k = 0 ∨ 10 ^ k ≤ n) (hhi : n < 10 ^ (k + 1)) :
    (decimalDigits fuel n acc).length = k + 1 + acc.length := by
  induction k generalizing fuel n acc with
  | zero =>
    cases fuel with
    | zero => omega
    | succ f =>
      have hn : n < 10 := by simpa using hhi
      simp only [decimalDigits, hn, if_true, List.length_cons]
      omega
  | succ k ih =>
    cases fuel with
    | zero => omega
    | succ f =>
      have h10 : 10 ^ (k + 1) ≤ n := by
        rcases hlo with h | h
        · omega
        · exact h
      have hk : 1 ≤ 10 ^ k := Nat.one_le_pow _ _ (by decide)
      have hn : ¬ n < 10 := by
        rw [pow_succ] at h10
        omega
      simp only [decimalDigits, hn, if_false]
      rw [ih f (n / 10) _ (by omega)
        (Or.inr ((Nat.le_div_iff_mul_le (by decide)).mpr (by rw [← pow_succ]; exact h10)))
        ((Nat.div_lt_iff_lt_mul (by decide)).mpr (by rw [← pow_succ]; exact hhi))]
      simp only [List.length_cons]
      omega

theorem isInt_of_first_byte (c : UInt8) (cs : GoString) (h1 : c ≠ 45) (h2 : c ≠ 43)
    (h3 : isDigit c = false) : isInt (c :: cs) = false := by
  simp [isInt, Atoi, h1, h2, h3]

theorem SliceStable_of_not_less {α : Type} (less : α → α → Bool) (l : List α)
    (h : ∀ a ∈ l, ∀ b ∈ l, less a b = false) : SliceStable less l = l := by
  induction l with
  | nil => rfl
  | cons x xs ih =>
    have hstep : SliceStable less (x :: xs) = insertStable less x (SliceStable less xs) := rfl
    rw [hstep, ih (fun a ha b hb => h a (List.mem_cons_of_mem _ ha) b (List.mem_cons_of_mem _ hb))]
    cases xs with
    | nil => rfl
    | cons y ys =>
      have := h y (List.mem_cons_of_mem _ (List.mem_cons_self _ _)) x (List.mem_cons_self _ _)
      simp [insertStable, this]

/-- While the keys are no integer literals, still have their own text as only
fragment and do not contain one another, every iteration takes two counter values. -/
theorem resolvePrefix_counter_uniform (seedmap : GoMap GoString)
    (pre suffix : List GoString) (st : ResolveState) (hnd : (pre ++ suffix).Nodup)
    (hint : ∀ k ∈ pre, isInt k = false) (hne : ∀ k ∈ pre, k ≠ [])
    (h0 : ∀ k ∈ pre, mapGet st.maskValuesInterim k = [⟨k, false⟩])
    (hsub : ∀ k ∈ pre, ∀ u ∈ pre, k ≠ u → ¬ k <:+: u) :
    (resolvePrefix seedmap pre suffix st).counter = st.counter + 2 * (pre.length : Int) := by
  induction pre generalizing st with
  | nil => simp [resolvePrefix]
  | cons k pre ih =>
    have hnd' : k ∉ pre ++ suffix ∧ (pre ++ suffix).Nodup := by
      simpa using List.nodup_cons.mp hnd
    have hk := h0 k (List.mem_cons_self _ _)
    have hstep : (resolveStep seedmap k (pre ++ suffix) st).counter = st.counter + 2 := by
      rw [resolveStep_counter]
      unfold ownFragments
      rw [hint k (List.mem_cons_self _ _), hk]
      cases k with
      | nil => exact absurd rfl (hne [] (List.mem_cons_self _ _))
      | cons b rest =>
        simp only [maskFragments, Bool.false_eq_true, if_false]
        omega
    show (resolvePrefix seedmap pre suffix (resolveStep seedmap k (pre ++ suffix) st)).counter = _
    rw [ih _ hnd'.2 (fun u hu => hint u (List.mem_cons_of_mem _ hu))
      (fun u hu => hne u (List.mem_cons_of_mem _ hu)) ?_
      (fun a ha u hu => hsub a (List.mem_cons_of_mem _ ha) u (List.mem_cons_of_mem _ hu)),
      hstep]
    · simp only [List.length_cons]
      push_cast
      omega
    · intro u hu
      have hku : k ≠ u := fun e => hnd'.1 (e ▸ List.mem_append_left _ hu)
      rw [resolveStep_interim_later seedmap k (pre ++ suffix) st u
        (List.mem_append_left _ hu) hnd'.1 hnd'.2, h0 u (List.mem_cons_of_mem _ hu)]
      apply splitFragments_of_not_infix
      intro f hf
      rw [List.mem_singleton.mp hf]
      exact hsub k (List.mem_cons_self _ _) u (List.mem_cons_of_mem _ hu) hku

theorem length_manyTokens (k : GoString) (hk : k ∈ manyTokens) : k.length = 6 := by
  unfold manyTokens at hk
  have hlen : ∀ n, 10000 ≤ n → n < 100000 → (natToDecimal n).length = 5 := fun n h1 h2 =>
    length_decimalDigits 4 (n + 1) n [] (Nat.lt_succ_self n) (Or.inr h1) h2
  rcases List.mem_append.mp hk with h | h
  · obtain ⟨i, hi, e⟩ := List.mem_map.mp h
    have hi' : i < 5000 := List.mem_range.mp hi
    rw [← e, List.length_cons, hlen _ (by omega) (by omega)]
  · rw [List.mem_singleton.mp h, List.length_cons, hlen _ (by omega) (by omega)]

theorem nodup_manyTokens : manyTokens.Nodup := by
  unfold manyTokens
  refine List.nodup_append.mpr ⟨?_, List.nodup_singleton _, ?_⟩
  · refine (List.nodup_range 5000).map_on ?_
    intro i _ j _ e
    have e' := congrArg decimalValue (List.cons.inj e).2
    rw [decimalValue_natToDecimal, decimalValue_natToDecimal] at e'
    omega
  · intro k hk hk'
    obtain ⟨i, _, e⟩ := List.mem_map.mp hk
    rw [List.mem_singleton.mp hk'] at e
    have := (List.cons.inj e).1
    exact absurd this (by decide)

theorem isInt_manyTokens (k : GoString) (hk : k ∈ manyTokens) : isInt k = false := by
  unfold manyTokens at hk
  rcases List.mem_append.mp hk with h | h
  · obtain ⟨i, _, e⟩ := List.mem_map.mp h
    rw [← e]
    exact isInt_of_first_byte _ _ (by decide) (by decide) (by decide)
  · rw [List.mem_singleton.mp h]
    exact isInt_of_first_byte _ _ (by decide) (by decide) (by decide)

theorem sortedKeys_manyTokens : sortedKeys (tokenMap manyTokens) = manyTokens := by
  unfold sortedKeys
  rw [mapKeys_tokenMap]
  apply SliceStable_of_not_less
  intro a ha b hb
  rw [length_manyTokens a ha, length_manyTokens b hb]
  rfl

theorem not_infix_manyTokens (k u : GoString) (hk : k ∈ manyTokens) (hu : u ∈ manyTokens)
    (hne : k ≠ u) : ¬ k <:+: u := fun h =>
  hne (h.eq_of_length (by rw [length_manyTokens k hk, length_manyTokens u hu]))

/-- In a run over tokens that are no integer literals, are longer than the threshold,
do not contain one another and are already in the order of `sortedKeys`, the token
after the tokens `pre` gets the generic mask for the counter 1000 + 2 * |pre|. -/
theorem mask_of_uniform_run (seedmap : GoMap GoString) (tokens pre post : List GoString)
    (b : UInt8) (rest : GoString)
    (hsorted : sortedKeys (tokenMap tokens) = tokens)
    (hsplit : tokens = pre ++ (b :: rest) :: post) (hnd : tokens.Nodup)
    (hint : ∀ k ∈ tokens, isInt k = false) (hlen : ∀ k ∈ tokens, 2 < k.length)
    (hsub : ∀ k ∈ tokens, ∀ u ∈ tokens, k ≠ u → ¬ k <:+: u) :
    mapGet (initMaskValues (tokenMap tokens) seedmap) (b :: rest) =
      mapGet seedmap (runeToString (b.toNat : Int)) ++
        Itoa (1000 + 2 * (pre.length : Int)) ++ str "M" := by
  have hpre : ∀ k ∈ pre, k ∈ tokens := fun k hk => by
    rw [hsplit]
    exact List.mem_append_left _ hk
  have hT : (b :: rest) ∈ tokens := by
    rw [hsplit]
    simp
  have hnd' : (pre ++ (b :: rest) :: post).Nodup := hsplit ▸ hnd
  have hcount := resolvePrefix_counter_uniform seedmap pre ((b :: rest) :: post)
    ⟨tokenMap tokens, [], 1000⟩ hnd' (fun k hk => hint k (hpre k hk))
    (fun k hk e => by
      have := hlen k (hpre k hk)
      rw [e] at this
      simp at this)
    (fun k hk => mapGet_tokenMap tokens k (hpre k hk))
    (fun k hk u hu => hsub k (hpre k hk) u (hpre u hu))
  have hm := mask_of_single seedmap pre post b rest ⟨tokenMap tokens, [], 1000⟩ hnd'
    (hint _ hT) (hlen _ hT) (mapGet_tokenMap tokens _ hT)
    (fun k hk => hsub k (hpre k hk) _ hT (fun e =>
      (List.nodup_append.mp hnd').2.2 hk (e ▸ List.mem_cons_self _ _)))
  rw [hcount] at hm
  show mapGet (resolveLoop seedmap (sortedKeys (tokenMap tokens)) _).maskValuesResolved _ = _
  rw [hsorted]
  have hm' : mapGet (resolveLoop seedmap (pre ++ (b :: rest) :: post)
      ⟨tokenMap tokens, [], 1000⟩).maskValuesResolved (b :: rest) =
      mapGet seedmap (runeToString (b.toNat : Int)) ++
        Itoa (1000 + 2 * (pre.length : Int)) ++ str "M" := hm
  rw [← hsplit] at hm'
  exact hm'

/-- In the run over `manyTokens` with the seed "1" for "a", the first token is masked
at counter 1000 and the last one at counter 11000, and both masks are "11000M". -/
theorem masks_manyTokens :
    mapGet (initMaskValues (tokenMap manyTokens) [(str "a", str "1")]) (str "a10000") =
        str "11000M" ∧
      mapGet (initMaskValues (tokenMap manyTokens) [(str "a", str "1")]) (str "b15000") =
        str "11000M" := by
  have hA : str "a10000" = 97 :: natToDecimal (10000 + 0) := by decide
  have hB : str "b15000" = 98 :: natToDecimal 15000 := by decide
  have hlen : ∀ k ∈ manyTokens, 2 < k.length := fun k hk => by
    rw [length_manyTokens k hk]
    decide
  constructor
  · -- the first token
    obtain ⟨post, hpost⟩ : ∃ post, manyTokens = [] ++ (97 :: natToDecimal (10000 + 0)) :: post :=
      ⟨(List.range 4999).map (fun i => 97 :: natToDecimal (10000 + (i + 1))) ++
        [98 :: natToDecimal 15000], by
        unfold manyTokens
        rw [List.range_succ_eq_map, List.map_cons, List.map_map]
        rfl⟩
    rw [hA, mask_of_uniform_run [(str "a", str "1")] manyTokens [] post 97
      (natToDecimal (10000 + 0)) sortedKeys_manyTokens hpost nodup_manyTokens
      isInt_manyTokens hlen (fun k hk u hu => not_infix_manyTokens k u hk hu)]
    decide
  · -- the last token
    have hsplit : manyTokens =
        (List.range 5000).map (fun i => 97 :: natToDecimal (10000 + i)) ++
          (98 :: natToDecimal 15000) :: [] := by
      unfold manyTokens
      rfl
    rw [hB, mask_of_uniform_run [(str "a", str "1")] manyTokens
      ((List.range 5000).map (fun i => 97 :: natToDecimal (10000 + i))) [] 98
      (natToDecimal 15000) sortedKeys_manyTokens hsplit nodup_manyTokens
      isInt_manyTokens hlen (fun k hk u hu => not_infix_manyTokens k u hk hu)]
    rw [List.length_map, List.length_range]
    decide

/-- C6, the code against its own comment "still unique, just shorter" (source line 84):
two distinct tokens of the generic path receive the same mask.  With the tokens "abc",
"xyz", "1000M", "abcxyz", "1000Mxyz" and no seeds, the token "1000M" equals the mask of
"abc" and the cascade, which does not test `masked`, splits the masked fragment of
"abcxyz" again: "abcxyz" and "1000Mxyz" both get the mask "1004M1002M".
`generateNewValue` itself returns "11000M" for the seed "1" at the counter 1000 and for
no seed at the counter 11000.  So with a seed that ends in a digit two tokens that
contain no other token collide once the counter has one more digit: in `manyTokens`
with the seed "1" for "a", the first token "a10000" (counter 1000) and the last token
"b15000" (counter 11000) both get the mask "11000M". -/
theorem C6_generic_mask_collision :
    (str "abcxyz" ≠ str "1000Mxyz" ∧
      isInt (str "abcxyz") = false ∧ isInt (str "1000Mxyz") = false ∧
      2 < (str "abcxyz").length ∧ 2 < (str "1000Mxyz").length ∧
      mapGet (initMaskValues (tokenMap
          [str "abc", str "xyz", str "1000M", str "abcxyz", str "1000Mxyz"]) [])
          (str "abcxyz") = str "1004M1002M" ∧
      mapGet (initMaskValues (tokenMap
          [str "abc", str "xyz", str "1000M", str "abcxyz", str "1000Mxyz"]) [])
          (str "1000Mxyz") = str "1004M1002M") ∧
    (generateNewValue (str "1") 1000 6 = str "11000M" ∧
      generateNewValue [] 11000 6 = str "11000M") ∧
    (str "a10000" ∈ manyTokens ∧ str "b15000" ∈ manyTokens ∧
      str "a10000" ≠ str "b15000" ∧
      isInt (str "a10000") = false ∧ isInt (str "b15000") = false ∧
      2 < (str "a10000").length ∧ 2 < (str "b15000").length ∧
      (∀ K ∈ manyTokens, K ≠ str "a10000" → ¬ K <:+: str "a10000") ∧
      (∀ K ∈ manyTokens, K ≠ str "b15000" → ¬ K <:+: str "b15000") ∧
      mapGet (initMaskValues (tokenMap manyTokens) [(str "a", str "1")]) (str "a10000") =
        mapGet (initMaskValues (tokenMap manyTokens) [(str "a", str "1")])
          (str "b15000")) := by
  have hA : str "a10000" ∈ manyTokens := by
    have e : str "a10000" = (fun i => (97 : UInt8) :: natToDecimal (10000 + i)) 0 := by decide
    rw [e]
    unfold manyTokens
    exact List.mem_append_left _ (List.mem_map.mpr ⟨0, List.mem_range.mpr (by decide), rfl⟩)
  have hB : str "b15000" ∈ manyTokens := by
    have e : str "b15000" = 98 :: natToDecimal 15000 := by decide
    rw [e]
    unfold manyTokens
    exact List.mem_append_right _ (List.mem_singleton.mpr rfl)
  refine ⟨by decide, by decide, hA, hB, by decide, by decide, by decide, by decide, by decide,
    fun K hK hne => not_infix_manyTokens K _ hK hA hne,
    fun K hK hne => not_infix_manyTokens K _ hK hB hne, ?_⟩
  rw [masks_manyTokens.1, masks_manyTokens.2]

/-! ## Claims C9 and C10 -/

/-- C9, the code at the failing input: the token "éab" is no integer literal, is longer
than 2 and is the only token; its first character is "é", for which the seed map has
the seed "S"; `initMaskValues` looks up the seed of the first byte converted to a
string instead and maps the token to "1000M", not to "S1000M". -/
theorem C9_seed_of_first_byte :
    isInt (str "éab") = false ∧ 2 < (str "éab").length ∧
    str "éab" = str "é" ++ str "ab" ∧
    mapGet [(str "é", str "S")] (str "é") = str "S" ∧
    initMaskValues (tokenMap [str "éab"]) [(str "é", str "S")] =
      [(str "éab", str "1000M")] ∧
    str "1000M" ≠ str "S" ++ Itoa 1000 ++ str "M" := by
  decide

/-- C10, the code at the failing input: the counter values 1000 and 3704 = 1000 + 52 * 52
give the same 4-character string "_MT_", hence the same short mask. -/
theorem C10_short_mask_collision :
    generateUnique4CharString 1000 = str "_MT_" ∧
    generateUnique4CharString 3704 = str "_MT_" ∧
    generateNewValue (str "S") 1000 1 = generateNewValue (str "S") 3704 1 := by
  decide

/-! ## Lemmas: the short mask -/

theorem runeToString_ascii (r : Int) (h0 : 0 ≤ r) (h1 : r < 128) :
    runeToString r = [UInt8.ofNat r.toNat] := by
  unfold runeToString
  rw [if_neg (by omega), if_pos (by omega)]

/-- For a counter that is not negative the short mask is a delimiter, two bytes with
codes from 65 to 116, and the delimiter again; the delimiter is "_" or "~". -/
theorem generateUnique4CharString_shape (c : Int) (hc : 0 ≤ c) :
    ∃ (d : UInt8) (x y : Nat), (d = 95 ∨ d = 126) ∧ 65 ≤ x ∧ x ≤ 116 ∧ 65 ≤ y ∧ y ≤ 116 ∧
      generateUnique4CharString c = [d, UInt8.ofNat x, UInt8.ofNat y, d] := by
  have h1 : c.tmod 52 = c % 52 := Int.tmod_eq_emod hc (by decide)
  have h2 : c.tdiv 52 = c / 52 := Int.tdiv_eq_ediv hc (by decide)
  have h3 : (c / 52).tmod 52 = c / 52 % 52 := Int.tmod_eq_emod (by omega) (by decide)
  have h4 : (c / 52 % 52 + 65).tdiv 52 = (c / 52 % 52 + 65) / 52 :=
    Int.tdiv_eq_ediv (by omega) (by decide)
  have hx : runeToString (c % 52 + 65) = [UInt8.ofNat (c % 52 + 65).toNat] :=
    runeToString_ascii _ (by omega) (by omega)
  have hy : runeToString (c / 52 % 52 + 65) = [UInt8.ofNat (c / 52 % 52 + 65).toNat] :=
    runeToString_ascii _ (by omega) (by omega)
  have hu : str "_" = [95] := by decide
  have ht : str "~" = [126] := by decide
  have hl : (c / 52 % 52 + 65) / 52 = 1 ∨ (c / 52 % 52 + 65) / 52 = 2 := by omega
  unfold generateUnique4CharString
  simp only [h1, h2, h3, h4, hx, hy]
  rcases hl with h | h
  · refine ⟨95, (c % 52 + 65).toNat, (c / 52 % 52 + 65).toNat, Or.inl rfl,
      by omega, by omega, by omega, by omega, ?_⟩
    rw [h]
    simp [hu]
  · refine ⟨126, (c % 52 + 65).toNat, (c / 52 % 52 + 65).toNat, Or.inr rfl,
      by omega, by omega, by omega, by omega, ?_⟩
    rw [h]
    simp [ht]

theorem toNat_ofNat_letter (x : Nat) (h : x ≤ 116) : (UInt8.ofNat x).toNat = x :=
  UInt8.toNat_ofNat_of_lt (by
    have : UInt8.size = 256 := rfl
    omega)

/-! ## Claims C11 and C19 -/

/-- C11: for every counter value c ≥ 0 (in particular 0 ≤ c < 10000), every desired
length n ≤ 2 and every seed, `generateNewValue(seed, c, n)` is
`generateUnique4CharString(c)`, it is exactly 4 bytes long, all of them ASCII (so 4
characters), and its first and last bytes are the same delimiter, "_" or "~". -/
theorem C11_short_mask_length (seed : GoString) (c n : Int) (h0 : 0 ≤ c) (hn : n ≤ 2) :
    generateNewValue seed c n = generateUnique4CharString c ∧
      (generateNewValue seed c n).length = 4 ∧
      (∀ b ∈ generateNewValue seed c n, b.toNat < 128) ∧
      ∃ d : UInt8, (d = 95 ∨ d = 126) ∧ (generateNewValue seed c n).head? = some d ∧
        (generateNewValue seed c n).getLast? = some d := by
  have hgen : generateNewValue seed c n = generateUnique4CharString c := by
    unfold generateNewValue smallestMaskingAmount
    rw [if_neg (by omega)]
  obtain ⟨d, x, y, hd, hx1, hx2, hy1, hy2, hs⟩ := generateUnique4CharString_shape c h0
  rw [hgen, hs]
  refine ⟨rfl, rfl, ?_, d, hd, rfl, rfl⟩
  intro b hb
  simp only [List.mem_cons, List.mem_singleton, List.not_mem_nil, or_false] at hb
  rcases hb with e | e | e | e
  · rcases hd with h | h <;> rw [e, h] <;> decide
  · rw [e, toNat_ofNat_letter x hx2]
    omega
  · rw [e, toNat_ofNat_letter y hy2]
    omega
  · rcases hd with h | h <;> rw [e, h] <;> decide

/-- C11 at the seed "S", the counter 1003 and the desired length 1. -/
theorem C11_short_mask_length_witness :
    generateNewValue (str "S") 1003 1 = generateUnique4CharString 1003 ∧
      (generateNewValue (str "S") 1003 1).length = 4 ∧
      (∀ b ∈ generateNewValue (str "S") 1003 1, b.toNat < 128) ∧
      ∃ d : UInt8, (d = 95 ∨ d = 126) ∧ (generateNewValue (str "S") 1003 1).head? = some d ∧
        (generateNewValue (str "S") 1003 1).getLast? = some d :=
  C11_short_mask_length (str "S") 1003 1 (by decide) (by decide)

/-- C19: for every counter value c ≥ 0 the string returned by
`generateUnique4CharString(c)` contains none of the bytes that
`specialCharactersRegex` matches. -/
theorem C19_short_mask_markup_safe (c : Int) (hc : 0 ≤ c) :
    ∀ b ∈ generateUnique4CharString c, isSpecial b = false := by
  obtain ⟨d, x, y, hd, hx1, hx2, hy1, hy2, hs⟩ := generateUnique4CharString_shape c hc
  have hletter : ∀ z : Nat, 65 ≤ z → z ≤ 116 → isSpecial (UInt8.ofNat z) = false := by
    intro z h1 h2
    interval_cases z <;> rfl
  rw [hs]
  intro b hb
  simp only [List.mem_cons, List.mem_singleton, List.not_mem_nil, or_false] at hb
  rcases hb with e | e | e | e
  · rcases hd with h | h <;> rw [e, h] <;> rfl
  · rw [e]
    exact hletter x hx1 hx2
  · rw [e]
    exact hletter y hy1 hy2
  · rcases hd with h | h <;> rw [e, h] <;> rfl

/-- C19 at the counter 1000. -/
theorem C19_short_mask_markup_safe_witness :
    (0 : Int) ≤ 1000 ∧ ∀ b ∈ generateUnique4CharString 1000, isSpecial b = false :=
  ⟨by decide, C19_short_mask_markup_safe 1000 (by decide)⟩

/-! ## Lemmas: the fragment table after the loop -/

theorem resolveStep_interim_self (seedmap : GoMap GoString) (keyVal : GoString)
    (later : List GoString) (st : ResolveState) (hk : keyVal ∉ later) :
    mapGet (resolveStep seedmap keyVal later st).maskValuesInterim keyVal =
      (ownFragments seedmap keyVal st).1 := by
  show mapGet (cascade keyVal _ later _) keyVal = _
  rw [mapGet_cascade_of_not_mem _ _ _ _ _ hk, mapGet_mapSet_same]

theorem resolveStep_interim_other (seedmap : GoMap GoString) (keyVal : GoString)
    (later : List GoString) (st : ResolveState) (u : GoString) (hu : u ∉ later)
    (hne : u ≠ keyVal) :
    mapGet (resolveStep seedmap keyVal later st).maskValuesInterim u =
      mapGet st.maskValuesInterim u := by
  show mapGet (cascade keyVal _ later _) u = _
  rw [mapGet_cascade_of_not_mem _ _ _ _ _ hu, mapGet_mapSet_ne _ _ _ _ hne]

theorem resolveLoop_interim_of_not_mem (seedmap : GoMap GoString) (ks : List GoString)
    (st : ResolveState) (u : GoString) (hu : u ∉ ks) :
    mapGet (resolveLoop seedmap ks st).maskValuesInterim u = mapGet st.maskValuesInterim u := by
  induction ks generalizing st with
  | nil => rfl
  | cons k later ih =>
    have h1 : u ≠ k := fun h => hu (h ▸ List.mem_cons_self _ _)
    have h2 : u ∉ later := fun h => hu (List.mem_cons_of_mem _ h)
    show mapGet (resolveLoop seedmap later _).maskValuesInterim u = _
    rw [ih _ h2, resolveStep_interim_other _ _ _ _ _ h2 h1]

theorem maskFragments_no_pending (seedmap : GoMap GoString) (frags : List maskstring)
    (c : Int) : ∀ f ∈ (maskFragments seedmap frags c).1, f.masked = true ∨ f.value = [] := by
  induction frags generalizing c with
  | nil => simp [maskFragments]
  | cons g rest ih =>
    obtain ⟨v, m⟩ := g
    cases m with
    | true =>
      simp only [maskFragments]
      intro f hf
      rcases List.mem_cons.mp hf with e | e
      · exact Or.inl (by rw [e])
      · exact ih c f e
    | false =>
      cases v with
      | nil =>
        simp only [maskFragments]
        intro f hf
        rcases List.mem_cons.mp hf with e | e
        · exact Or.inr (by rw [e])
        · exact ih c f e
      | cons b bs =>
        simp only [maskFragments]
        intro f hf
        rcases List.mem_cons.mp hf with e | e
        · exact Or.inl (by rw [e])
        · exact ih (c + 1) f e

theorem ownFragments_no_pending (seedmap : GoMap GoString) (keyVal : GoString)
    (st : ResolveState) :
    ∀ f ∈ (ownFragments seedmap keyVal st).1, f.masked = true ∨ f.value = [] := by
  unfold ownFragments
  split
  · intro f hf
    exact Or.inl (by rw [List.mem_singleton.mp hf])
  · exact maskFragments_no_pending _ _ _

/-! ## Claim C15 -/

/-- C15: for every token map with distinct keys (in particular one in extractor form)
and every seed map, when `initMaskValues` returns, every fragment in the list of
every token is marked masked or has the empty string as value. -/
theorem C15_no_pending_at_termination (maskValuesInterim : GoMap (List maskstring))
    (seedmap : GoMap GoString) (hnd : (mapKeys maskValuesInterim).Nodup) :
    ∀ k ∈ mapKeys maskValuesInterim,
      ∀ f ∈ mapGet (initMaskValuesState maskValuesInterim seedmap).maskValuesInterim k,
        f.masked = true ∨ f.value = [] := by
  intro k hk
  have hperm := sortedKeys_perm maskValuesInterim
  have hnd' : (sortedKeys maskValuesInterim).Nodup := hperm.nodup_iff.mpr hnd
  obtain ⟨pre, post, hsplit, hpost⟩ :=
    exists_split_of_mem_nodup _ k (hperm.mem_iff.mpr hk) hnd'
  unfold initMaskValuesState
  rw [hsplit, resolveLoop_append]
  show ∀ f ∈ mapGet (resolveLoop seedmap post _).maskValuesInterim k, _
  rw [resolveLoop_interim_of_not_mem _ _ _ _ hpost, resolveStep_interim_self _ _ _ _ hpost]
  exact ownFragments_no_pending _ _ _

/-- C15 at the tokens "ab", "12", "abXab", "" with the seed "S" for "a". -/
theorem C15_no_pending_at_termination_witness :
    (mapKeys (tokenMap [str "ab", str "12", str "abXab", str ""])).Nodup ∧
    ∀ k ∈ mapKeys (tokenMap [str "ab", str "12", str "abXab", str ""]),
      ∀ f ∈ mapGet (initMaskValuesState (tokenMap [str "ab", str "12", str "abXab", str ""])
          [(str "a", str "S")]).maskValuesInterim k,
        f.masked = true ∨ f.value = [] :=
  ⟨by decide,
    C15_no_pending_at_termination (tokenMap [str "ab", str "12", str "abXab", str ""])
      [(str "a", str "S")] (by decide)⟩

/-! ## Lemmas: masks are not empty -/

theorem generateUnique4CharString_ne_nil (c : Int) : generateUnique4CharString c ≠ [] := by
  intro h
  have hlen := congrArg List.length h
  unfold generateUnique4CharString at hlen
  simp only [List.length_append, List.length_nil] at hlen
  split_ifs at hlen <;> simp [str, runeToString] at hlen

theorem generateNewValue_ne_nil (seed : GoString) (c n : Int) :
    generateNewValue seed c n ≠ [] := by
  unfold generateNewValue
  split
  · intro h
    have hlen := congrArg List.length h
    have hM : (str "M").length = 1 := by decide
    simp [Join, hM] at hlen
  · exact generateUnique4CharString_ne_nil c

theorem Index_nil (s : GoString) : Index s [] = 0 := by
  cases s with
  | nil => simp [Index]
  | cons c cs => simp [Index]

/-- Masking the pending fragments keeps a fragment list that holds some text such. -/
theorem maskFragments_hasText (seedmap : GoMap GoString) (frags : List maskstring) (c : Int)
    (h : ∃ f ∈ frags, f.value ≠ []) :
    ∃ f ∈ (maskFragments seedmap frags c).1, f.value ≠ [] := by
  induction frags generalizing c with
  | nil =>
    obtain ⟨f, hf, _⟩ := h
    simp at hf
  | cons g rest ih =>
    obtain ⟨v, m⟩ := g
    have tail : ∀ c', (∃ f ∈ rest, f.value ≠ []) →
        ∀ g' : maskstring, ∃ f ∈ g' :: (maskFragments seedmap rest c').1, f.value ≠ [] := by
      intro c' hr g'
      obtain ⟨f, hf, hv⟩ := ih c' hr
      exact ⟨f, List.mem_cons_of_mem _ hf, hv⟩
    obtain ⟨f, hf, hv⟩ := h
    cases m with
    | true =>
      simp only [maskFragments]
      rcases List.mem_cons.mp hf with e | e
      · exact ⟨⟨v, true⟩, List.mem_cons_self _ _, by rw [e] at hv; exact hv⟩
      · exact tail c ⟨f, e, hv⟩ _
    | false =>
      cases v with
      | nil =>
        simp only [maskFragments]
        rcases List.mem_cons.mp hf with e | e
        · rw [e] at hv
          exact absurd rfl hv
        · exact tail c ⟨f, e, hv⟩ _
      | cons b bs =>
        simp only [maskFragments]
        exact ⟨_, List.mem_cons_self _ _, generateNewValue_ne_nil _ _ _⟩

theorem ownMask_ne_nil (seedmap : GoMap GoString) (keyVal : GoString) (st : ResolveState)
    (h : ∃ f ∈ mapGet st.maskValuesInterim keyVal, f.value ≠ []) :
    ownMask seedmap keyVal st ≠ [] := by
  have key : ∃ f ∈ (ownFragments seedmap keyVal st).1, f.value ≠ [] := by
    unfold ownFragments
    split
    · refine ⟨_, List.mem_singleton.mpr rfl, ?_⟩
      intro e
      have hlen := congrArg List.length e
      have h77 : (Itoa maskIntDelimiter).length = 2 := by decide
      simp [h77] at hlen
    · exact maskFragments_hasText _ _ _ h
  obtain ⟨f, hf, hv⟩ := key
  unfold ownMask Join
  intro e
  have := List.flatten_eq_nil_iff.mp e f.value (List.mem_map.mpr ⟨f, hf, rfl⟩)
  exact hv this

/-- A split keeps a fragment list that holds some text such, when the key is empty or
its mask is not. -/
theorem splitFragments_hasText (keyVal mask : GoString) (frags : List maskstring)
    (hk : keyVal = [] ∨ mask ≠ []) (h : ∃ f ∈ frags, f.value ≠ []) :
    ∃ f ∈ splitFragments keyVal mask frags, f.value ≠ [] := by
  induction frags with
  | nil =>
    obtain ⟨f, hf, _⟩ := h
    simp at hf
  | cons g rest ih =>
    obtain ⟨f, hf, hv⟩ := h
    by_cases hc : Contains g.value keyVal = true
    · simp only [splitFragments, hc, if_true]
      rcases List.mem_cons.mp hf with e | e
      · rcases hk with hk | hk
        · refine ⟨⟨g.value.drop (Index g.value keyVal + (keyVal.length : Int)).toNat, false⟩,
            by simp, ?_⟩
          rw [hk, Index_nil]
          simp only [List.length_nil]
          rw [← e]
          exact hv
        · exact ⟨⟨mask, true⟩, by simp, hk⟩
      · obtain ⟨f', hf', hv'⟩ := ih ⟨f, e, hv⟩
        exact ⟨f', by simp [hf'], hv'⟩
    · simp only [splitFragments, hc]
      rcases List.mem_cons.mp hf with e | e
      · exact ⟨g, List.mem_cons_self _ _, by rw [← e]; exact hv⟩
      · obtain ⟨f', hf', hv'⟩ := ih ⟨f, e, hv⟩
        exact ⟨f', List.mem_cons_of_mem _ hf', hv'⟩

/-- Every pending key that is not empty keeps some text in its fragment list through
the iterations for the keys before it. -/
theorem resolvePrefix_hasText (seedmap : GoMap GoString) (pre suffix : List GoString)
    (st : ResolveState) (hnd : (pre ++ suffix).Nodup)
    (h : ∀ u ∈ pre ++ suffix, u ≠ [] → ∃ f ∈ mapGet st.maskValuesInterim u, f.value ≠ []) :
    ∀ u ∈ suffix, u ≠ [] →
      ∃ f ∈ mapGet (resolvePrefix seedmap pre suffix st).maskValuesInterim u, f.value ≠ [] := by
  induction pre generalizing st with
  | nil => exact h
  | cons k pre ih =>
    have hnd' : k ∉ pre ++ suffix ∧ (pre ++ suffix).Nodup := by
      simpa using List.nodup_cons.mp hnd
    apply ih _ hnd'.2
    intro u hu hne
    rw [resolveStep_interim_later seedmap k (pre ++ suffix) st u hu hnd'.1 hnd'.2]
    apply splitFragments_hasText
    · by_cases hk : k = []
      · exact Or.inl hk
      · exact Or.inr (ownMask_ne_nil seedmap k st (h k (List.mem_cons_self _ _) hk))
    · exact h u (List.mem_cons_of_mem _ hu) hne

/-! ## Claim C18 -/

/-- C18: for every token map in extractor form and every seed map, `initMaskValues` maps
every token that is not empty to a mask that is not empty. -/
theorem C18_nonempty_masks (tokens : List GoString) (seedmap : GoMap GoString)
    (hnd : tokens.Nodup) :
    ∀ T ∈ tokens, T ≠ [] → mapGet (initMaskValues (tokenMap tokens) seedmap) T ≠ [] := by
  intro T hT hne
  have hperm := sortedKeys_tokenMap_perm tokens
  have hnd' : (sortedKeys (tokenMap tokens)).Nodup := hperm.nodup_iff.mpr hnd
  obtain ⟨pre, post, hsplit, hpost⟩ :=
    exists_split_of_mem_nodup _ T (hperm.mem_iff.mpr hT) hnd'
  show mapGet (resolveLoop seedmap (sortedKeys (tokenMap tokens)) _).maskValuesResolved T ≠ []
  rw [hsplit, resolveLoop_resolved_at _ _ _ _ _ hpost]
  apply ownMask_ne_nil
  apply resolvePrefix_hasText seedmap pre (T :: post) _ (hsplit ▸ hnd') _ T
    (List.mem_cons_self _ _) hne
  intro u hu hune
  have hmem : u ∈ tokens := hperm.mem_iff.mp (hsplit ▸ hu)
  refine ⟨⟨u, false⟩, ?_, hune⟩
  show _ ∈ mapGet (tokenMap tokens) u
  rw [mapGet_tokenMap tokens u hmem]
  exact List.mem_singleton.mpr rfl

/-- C18 at the tokens "", "M", "ab", "abM" with no seeds. -/
theorem C18_nonempty_masks_witness :
    [str "", str "M", str "ab", str "abM"].Nodup ∧
    ∀ T ∈ [str "", str "M", str "ab", str "abM"], T ≠ [] →
      mapGet (initMaskValues (tokenMap [str "", str "M", str "ab", str "abM"]) []) T ≠ [] :=
  ⟨by decide, C18_nonempty_masks [str "", str "M", str "ab", str "abM"] [] (by decide)⟩

/-! ## Lemmas: the first occurrence -/

theorem Index_take_not_infix (s T : GoString) (hT : T ≠ []) :
    ¬ T <:+: s.take (Index s T).toNat := by
  induction s with
  | nil =>
    intro h
    simp only [List.take_nil] at h
    exact hT (List.infix_nil.mp h)
  | cons c cs ih =>
    by_cases hp : T.isPrefixOf (c :: cs) = true
    · intro h
      simp only [Index, hp, if_true, Int.toNat_zero, List.take_zero] at h
      exact hT (List.infix_nil.mp h)
    · have hp' : ¬ T <+: c :: cs := fun h => hp (List.isPrefixOf_iff_prefix.mpr h)
      by_cases hr : Index cs T < 0
      · intro h
        have e : Index (c :: cs) T = -1 := by simp [Index, hp, hr]
        rw [e] at h
        exact hT (List.infix_nil.mp (by simpa using h))
      · have e : Index (c :: cs) T = Index cs T + 1 := by simp [Index, hp, hr]
        have e2 : (Index cs T + 1).toNat = (Index cs T).toNat + 1 := by omega
        rw [e, e2, List.take_succ_cons, List.infix_cons_iff]
        rintro (h | h)
        · exact hp' (h.trans ((List.prefix_cons_inj c).mpr (List.take_prefix _ cs)))
        · exact ih h

/-- A split leaves no pending fragment that contains the key, when no fragment
contained the key again after its first occurrence. -/
theorem splitFragments_pending (keyVal mask : GoString) (frags : List maskstring)
    (hT : keyVal ≠ [])
    (honce : ∀ f ∈ frags, Contains f.value keyVal = true →
      Contains (f.value.drop (Index f.value keyVal + (keyVal.length : Int)).toNat) keyVal =
        false) :
    ∀ g ∈ splitFragments keyVal mask frags, g.masked = false → ¬ keyVal <:+: g.value := by
  induction frags with
  | nil => simp [splitFragments]
  | cons f rest ih =>
    have ih' := ih (fun g hg => honce g (List.mem_cons_of_mem _ hg))
    intro g hg hm
    by_cases hc : Contains f.value keyVal = true
    · have h2 := honce f (List.mem_cons_self _ _) hc
      have hs : splitFragments keyVal mask (f :: rest) =
          ⟨f.value.take (Index f.value keyVal).toNat, false⟩ :: ⟨mask, true⟩ ::
            ⟨f.value.drop (Index f.value keyVal + (keyVal.length : Int)).toNat, false⟩ ::
            splitFragments keyVal mask rest := by
        simp [splitFragments, hc]
      rw [hs] at hg
      simp only [List.mem_cons] at hg
      rcases hg with e | e | e | e
      · rw [e]
        exact Index_take_not_infix _ _ hT
      · rw [e] at hm
        exact absurd hm (by simp)
      · rw [e]
        intro h
        have := (Contains_iff _ _).mpr h
        rw [h2] at this
        exact absurd this (by simp)
      · exact ih' g e hm
    · have hs : splitFragments keyVal mask (f :: rest) =
          f :: splitFragments keyVal mask rest := by
        simp [splitFragments, hc]
      rw [hs] at hg
      rcases List.mem_cons.mp hg with e | e
      · rw [e]
        exact fun h => hc ((Contains_iff _ _).mpr h)
      · exact ih' g e hm

/-! ## Claim C14 -/

/-- C14 (as amended): immediately after a token T that is not empty has been resolved and
its cascade has run, no pending (unmasked) fragment of a not-yet-processed token U
contains the text of T, provided that before the cascade no fragment of U contained T
again after its first occurrence: the split removes the first occurrence in each
fragment only. -/
theorem C14_first_occurrence_resolved (seedmap : GoMap GoString) (T : GoString)
    (later : List GoString) (st : ResolveState) (U : GoString) (hT : T ≠ [])
    (hk : T ∉ later) (hnd : later.Nodup) (hU : U ∈ later)
    (honce : ∀ f ∈ mapGet st.maskValuesInterim U, Contains f.value T = true →
      Contains (f.value.drop (Index f.value T + (T.length : Int)).toNat) T = false) :
    ∀ g ∈ mapGet (resolveStep seedmap T later st).maskValuesInterim U,
      g.masked = false → ¬ T <:+: g.value := by
  rw [resolveStep_interim_later seedmap T later st U hU hk hnd]
  exact splitFragments_pending T _ _ hT honce

/-- C14 fails as stated: in the first iteration for the tokens "ab", "abXab" the cascade
of "ab" turns the fragment "abXab" into "", the mask "_MT_" and "Xab", and the pending
fragment "Xab" still contains "ab"; and in the first iteration for the tokens "M",
"xMy" the fragment that holds the mask "_MT_" of "M" contains "M". -/
theorem C14_counterexample :
    (mapGet (resolveStep [] (str "ab") [str "abXab"]
        ⟨tokenMap [str "ab", str "abXab"], [], 1000⟩).maskValuesInterim (str "abXab") =
        [⟨str "", false⟩, ⟨str "_MT_", true⟩, ⟨str "Xab", false⟩] ∧
      str "ab" <:+: str "Xab") ∧
    (mapGet (resolveStep [] (str "M") [str "xMy"]
        ⟨tokenMap [str "M", str "xMy"], [], 1000⟩).maskValuesInterim (str "xMy") =
        [⟨str "x", false⟩, ⟨str "_MT_", true⟩, ⟨str "y", false⟩] ∧
      str "M" <:+: str "_MT_") := by
  decide

/-- C14 (as amended) at the first iteration for the tokens "ab", "xaby", "12". -/
theorem C14_first_occurrence_resolved_witness :
    (str "ab" ≠ [] ∧ str "ab" ∉ [str "12", str "xaby"] ∧ [str "12", str "xaby"].Nodup ∧
      str "xaby" ∈ [str "12", str "xaby"]) ∧
    ∀ g ∈ mapGet (resolveStep [] (str "ab") [str "12", str "xaby"]
        ⟨tokenMap [str "ab", str "xaby", str "12"], [], 1000⟩).maskValuesInterim (str "xaby"),
      g.masked = false → ¬ str "ab" <:+: g.value :=
  ⟨⟨by decide, by decide, by decide, by decide⟩,
    C14_first_occurrence_resolved [] (str "ab") [str "12", str "xaby"]
      ⟨tokenMap [str "ab", str "xaby", str "12"], [], 1000⟩ (str "xaby")
      (by decide) (by decide) (by decide) (by decide) (by decide)⟩

/-! ## Lemmas: the run over two tokens -/

theorem Index_eq_of_first (s A : GoString) (n : Nat) (hn : A <+: s.drop n)
    (hle : n ≤ s.length) (hmin : ∀ m < n, ¬ A <+: s.drop m) : Index s A = (n : Int) := by
  induction s generalizing n with
  | nil =>
    have h0 : n = 0 := by simpa using hle
    subst h0
    have hA : A = [] := List.prefix_nil.mp (by simpa using hn)
    simp [Index, hA]
  | cons c cs ih =>
    cases n with
    | zero =>
      have hp : A.isPrefixOf (c :: cs) = true := List.isPrefixOf_iff_prefix.mpr (by simpa using hn)
      simp [Index, hp]
    | succ k =>
      have hp : ¬ A.isPrefixOf (c :: cs) = true := fun h =>
        hmin 0 (Nat.succ_pos k) (by simpa using List.isPrefixOf_iff_prefix.mp h)
      have hk := ih k (by simpa using hn) (by simpa using hle)
        (fun m hm => by simpa using hmin (m + 1) (by omega))
      have hr : ¬ Index cs A < 0 := by omega
      simp only [Index, hp, hr, if_false, hk]
      push_cast
      rfl

theorem sortedKeys_two (A B : GoString) (tokens : List GoString)
    (htok : tokens = [A, B] ∨ tokens = [B, A]) (hlen : A.length < B.length) :
    sortedKeys (tokenMap tokens) = [A, B] := by
  have h1 : ¬ B.length < A.length := by omega
  rcases htok with h | h
  · rw [h]
    simp [sortedKeys, mapKeys, tokenMap, SliceStable, insertStable, h1]
  · rw [h]
    simp [sortedKeys, mapKeys, tokenMap, SliceStable, insertStable, hlen]

theorem ownFragments_first (seedmap : GoMap GoString) (A : GoString) (st : ResolveState)
    (hA : A ≠ []) (h0 : mapGet st.maskValuesInterim A = [⟨A, false⟩]) :
    (ownFragments seedmap A st).2 = st.counter + 1 ∧
      ownMask seedmap A st =
        if isInt A = true then
          Itoa maskIntDelimiter ++ Itoa st.counter ++ Itoa maskIntDelimiter
        else pieceMask seedmap A st.counter := by
  cases A with
  | nil => exact absurd rfl hA
  | cons b rest =>
    by_cases hint : isInt (b :: rest) = true
    · simp [ownMask, ownFragments, hint, Join]
    · simp [ownMask, ownFragments, hint, h0, maskFragments, Join, pieceMask]

/-- The masks of a token set of two tokens, A a proper substring of B whose first
occurrence splits B as P ++ A ++ S: A is masked at counter 1000 and B is the mask of
the piece P at counter 1002, the mask of A, and the mask of the piece S at the next
counter value not yet used. -/
theorem masks_of_two_tokens (seedmap : GoMap GoString) (A B P S : GoString)
    (tokens : List GoString) (htok : tokens = [A, B] ∨ tokens = [B, A])
    (hA : A ≠ []) (hint : isInt B = false) (hB : B = P ++ A ++ S) (hPS : P ≠ [] ∨ S ≠ [])
    (hfirst : ∀ n < P.length, ¬ A <+: B.drop n) :
    mapGet (initMaskValues (tokenMap tokens) seedmap) A =
        (if isInt A = true then Itoa maskIntDelimiter ++ Itoa 1000 ++ Itoa maskIntDelimiter
          else pieceMask seedmap A 1000) ∧
      mapGet (initMaskValues (tokenMap tokens) seedmap) B =
        pieceMask seedmap P 1002 ++ mapGet (initMaskValues (tokenMap tokens) seedmap) A ++
          pieceMask seedmap S (if P = [] then 1002 else 1003) := by
  have hlen : A.length < B.length := by
    have hp : 0 < P.length ∨ 0 < S.length := by
      rcases hPS with h | h
      · exact Or.inl (List.length_pos.mpr h)
      · exact Or.inr (List.length_pos.mpr h)
    rw [hB]
    simp only [List.length_append]
    omega
  have hne : A ≠ B := fun e => by
    rw [← e] at hlen
    omega
  have hAmem : A ∈ tokens := by rcases htok with h | h <;> rw [h] <;> simp
  have hBmem : B ∈ tokens := by rcases htok with h | h <;> rw [h] <;> simp
  have hsorted := sortedKeys_two A B tokens htok hlen
  have hIndex : Index B A = (P.length : Int) := by
    apply Index_eq_of_first
    · rw [hB, List.append_assoc, List.drop_left]
      exact List.prefix_append _ _
    · rw [hB]
      simp only [List.length_append]
      omega
    · exact hfirst
  -- the first iteration
  have h0 := ownFragments_first seedmap A ⟨tokenMap tokens, [], 1000⟩ hA
    (mapGet_tokenMap tokens A hAmem)
  have hmaskA : mapGet (initMaskValues (tokenMap tokens) seedmap) A =
      ownMask seedmap A ⟨tokenMap tokens, [], 1000⟩ := by
    show mapGet (resolveLoop seedmap (sortedKeys (tokenMap tokens)) _).maskValuesResolved A = _
    rw [hsorted]
    exact resolveLoop_resolved_at seedmap [] [B] A _ (by simpa using hne)
  have hmaskB : mapGet (initMaskValues (tokenMap tokens) seedmap) B =
      ownMask seedmap B (resolveStep seedmap A [B] ⟨tokenMap tokens, [], 1000⟩) := by
    show mapGet (resolveLoop seedmap (sortedKeys (tokenMap tokens)) _).maskValuesResolved B = _
    rw [hsorted]
    exact resolveLoop_resolved_at seedmap [A] [] B _ (by simp)
  have hcounter : (resolveStep seedmap A [B] ⟨tokenMap tokens, [], 1000⟩).counter = 1002 := by
    rw [resolveStep_counter, h0.1]
    rfl
  have hfrags : mapGet (resolveStep seedmap A [B]
      ⟨tokenMap tokens, [], 1000⟩).maskValuesInterim B =
      [⟨P, false⟩, ⟨ownMask seedmap A ⟨tokenMap tokens, [], 1000⟩, true⟩, ⟨S, false⟩] := by
    rw [resolveStep_interim_later seedmap A [B] _ B (by simp) (by simpa using hne) (by simp)]
    have hget : mapGet (tokenMap tokens) B = [⟨B, false⟩] := mapGet_tokenMap tokens B hBmem
    have hc : Contains B A = true := by
      rw [Contains_iff, hB]
      exact ⟨P, S, rfl⟩
    have hP : B.take P.length = P := by
      rw [hB, List.append_assoc, List.take_left]
    have hS : B.drop (P.length + A.length) = S := by
      rw [hB, ← List.length_append, List.drop_left]
    show splitFragments A _ (mapGet (tokenMap tokens) B) = _
    rw [hget]
    simp only [splitFragments, hc, if_true, hIndex]
    have e1 : ((P.length : Int)).toNat = P.length := by omega
    have e2 : ((P.length : Int) + (A.length : Int)).toNat = P.length + A.length := by omega
    rw [e1, e2, hP, hS]
  refine ⟨?_, ?_⟩
  · rw [hmaskA, h0.2]
  · rw [hmaskB, hmaskA]
    generalize ownMask seedmap A ⟨tokenMap tokens, [], 1000⟩ = M at hfrags ⊢
    have hown : ownMask seedmap B (resolveStep seedmap A [B] ⟨tokenMap tokens, [], 1000⟩) =
        Join ((maskFragments seedmap [⟨P, false⟩, ⟨M, true⟩, ⟨S, false⟩] 1002).1.map
          maskstring.value) := by
      unfold ownMask ownFragments
      rw [hint, hfrags, hcounter]
      rfl
    rw [hown]
    cases P with
    | nil =>
      cases S with
      | nil => simp at hPS
      | cons s S' => simp [maskFragments, Join, pieceMask]
    | cons p P' =>
      cases S with
      | nil => simp [maskFragments, Join, pieceMask]
      | cons s S' => simp [maskFragments, Join, pieceMask]

/-! ## Claim C16 -/

/-- C16, the code at the failing input: with the seed "S" for "é" and the tokens "ab" and
"éxab", the first occurrence of "ab" splits "éxab" as "éx", "ab", ""; the mask of "ab" is
"_MT_" and the piece "éx", whose first character is "é", should get
`generateNewValue("S", 1002, 3)`, which is "S1002M"; the code looks up the seed of the
first byte and maps "éxab" to "1002M_MT_". -/
theorem C16_piece_seed_of_first_byte :
    str "éxab" = str "éx" ++ str "ab" ++ str "" ∧ isInt (str "éxab") = false ∧
    mapGet [(str "é", str "S")] (str "é") = str "S" ∧
    mapGet (initMaskValues (tokenMap [str "ab", str "éxab"]) [(str "é", str "S")]) (str "ab") =
      str "_MT_" ∧
    mapGet (initMaskValues (tokenMap [str "ab", str "éxab"]) [(str "é", str "S")])
      (str "éxab") = str "1002M_MT_" ∧
    generateNewValue (str "S") 1002 ((str "éx").length : Int) ++ str "_MT_" ++ str "" =
      str "S1002M_MT_" := by
  decide

/-! ## Lemmas: the value extractor -/

theorem Split_ne_nil (s : GoString) : Split s ≠ [] := by
  cases s with
  | nil => simp [Split]
  | cons c cs =>
    by_cases hc : isSpecial c = true
    · simp [Split, hc]
    · cases h : Split cs with
      | nil => simp [Split, hc, h]
      | cons p ps => simp [Split, hc, h]

/-- Splitting yields exactly one piece, the value itself, when the value has no
special byte, and at least two pieces otherwise. -/
theorem Split_of_no_special (s : GoString) :
    ((∀ b ∈ s, isSpecial b = false) → Split s = [s]) ∧
      ((∃ b ∈ s, isSpecial b = true) → (Split s).length ≠ 1) := by
  induction s with
  | nil => simp [Split]
  | cons c cs ih =>
    by_cases hc : isSpecial c = true
    · constructor
      · intro h
        have := h c (List.mem_cons_self _ _)
        rw [hc] at this
        exact absurd this (by simp)
      · intro _
        have hne := Split_ne_nil cs
        have : 0 < (Split cs).length := List.length_pos.mpr hne
        simp only [Split, hc, if_true, List.length_cons]
        omega
    · constructor
      · intro h
        have := ih.1 (fun b hb => h b (List.mem_cons_of_mem _ hb))
        simp [Split, hc, this]
      · rintro ⟨b, hb, hs⟩
        have hb' : b ∈ cs := by
          rcases List.mem_cons.mp hb with e | e
          · rw [e] at hs
            exact absurd hs hc
          · exact e
        have := ih.2 ⟨b, hb', hs⟩
        cases h : Split cs with
        | nil => exact absurd h (Split_ne_nil cs)
        | cons p ps =>
          rw [h] at this
          simpa [Split, hc, h] using this

theorem mem_Split_length_le (s k : GoString) (h : k ∈ Split s) : k.length ≤ s.length := by
  induction s generalizing k with
  | nil =>
    have : k = [] := by simpa [Split] using h
    rw [this]
  | cons c cs ih =>
    by_cases hc : isSpecial c = true
    · simp only [Split, hc, if_true, List.mem_cons] at h
      rcases h with e | e
      · rw [e]
        simp
      · have := ih k e
        simp only [List.length_cons]
        omega
    · cases hs : Split cs with
      | nil => exact absurd hs (Split_ne_nil cs)
      | cons p ps =>
        have hp : p.length ≤ cs.length := ih p (by rw [hs]; exact List.mem_cons_self _ _)
        have hstep : Split (c :: cs) = (c :: p) :: ps := by simp [Split, hc, hs]
        rw [hstep] at h
        rcases List.mem_cons.mp h with e | e
        · rw [e]
          simp only [List.length_cons]
          omega
        · have := ih k (by rw [hs]; exact List.mem_cons_of_mem _ e)
          simp only [List.length_cons]
          omega

theorem mapGet_of_not_mem {α : Type} (m : GoMap (List α)) (k : GoString)
    (h : k ∉ mapKeys m) : mapGet m k = [] := by
  induction m with
  | nil => rfl
  | cons e rest ih =>
    obtain ⟨k0, v0⟩ := e
    have h1 : k0 ≠ k := fun e => h (by simp [mapKeys, e])
    have h2 : k ∉ mapKeys rest := fun hm => h (by
      simp only [mapKeys, List.map_cons, List.mem_cons]
      exact Or.inr hm)
    simp only [mapGet, h1, if_false]
    exact ih h2

theorem ExtractorForm_mapSet (m : GoMap (List maskstring)) (k : GoString)
    (h : ExtractorForm m) : ExtractorForm (mapSet m k [⟨k, false⟩]) := by
  refine ⟨nodup_mapKeys_mapSet _ _ _ h.1, ?_⟩
  intro k' hk'
  by_cases e : k' = k
  · rw [e, mapGet_mapSet_same]
  · rw [mapGet_mapSet_ne _ _ _ _ e]
    rcases (mem_mapKeys_mapSet _ _ _ _).mp hk' with h1 | h1
    · exact h.2 k' h1
    · exact absurd h1 e

theorem foldl_pieces (pieces : List GoString) (m : GoMap (List maskstring))
    (h : ExtractorForm m) :
    ExtractorForm (pieces.foldl
        (fun m val =>
          if (val.length : Int) > smallestMaskingAmount then mapSet m val [⟨val, false⟩] else m)
        m) ∧
      ∀ k, k ∈ mapKeys (pieces.foldl
          (fun m val =>
            if (val.length : Int) > smallestMaskingAmount then mapSet m val [⟨val, false⟩]
            else m) m) ↔
        k ∈ mapKeys m ∨ (k ∈ pieces ∧ 2 < k.length) := by
  induction pieces generalizing m with
  | nil => exact ⟨h, by simp⟩
  | cons p ps ih =>
    by_cases hp : (p.length : Int) > smallestMaskingAmount
    · have hp' : 2 < p.length := by
        have : (2 : Int) < (p.length : Int) := by simpa [smallestMaskingAmount] using hp
        omega
      obtain ⟨h1, h2⟩ := ih (mapSet m p [⟨p, false⟩]) (ExtractorForm_mapSet m p h)
      simp only [List.foldl_cons, hp, if_true]
      refine ⟨h1, fun k => ?_⟩
      rw [h2 k, mem_mapKeys_mapSet, List.mem_cons]
      constructor
      · rintro ((h | h) | h)
        · exact Or.inl h
        · exact Or.inr ⟨Or.inl h, by rw [h]; exact hp'⟩
        · exact Or.inr ⟨Or.inr h.1, h.2⟩
      · rintro (h | ⟨h | h, hl⟩)
        · exact Or.inl (Or.inl h)
        · exact Or.inl (Or.inr h)
        · exact Or.inr ⟨h, hl⟩
    · have hp' : ¬ 2 < p.length := by
        intro hlt
        apply hp
        have : (2 : Int) < (p.length : Int) := by exact_mod_cast hlt
        simpa [smallestMaskingAmount] using this
      obtain ⟨h1, h2⟩ := ih m h
      simp only [List.foldl_cons, hp, if_false]
      refine ⟨h1, fun k => ?_⟩
      rw [h2 k, List.mem_cons]
      constructor
      · rintro (h | h)
        · exact Or.inl h
        · exact Or.inr ⟨Or.inr h.1, h.2⟩
      · rintro (h | ⟨h | h, hl⟩)
        · exact Or.inl h
        · rw [h] at hl
          exact absurd hl hp'
        · exact Or.inr ⟨h, hl⟩

theorem importCell_keys (m : GoMap (List maskstring)) (old : GoString)
    (h : ExtractorForm m) :
    ExtractorForm (importCell m old) ∧
      ∀ k, k ∈ mapKeys (importCell m old) ↔ k ∈ mapKeys m ∨ cellTokens old k := by
  have hsp := Split_of_no_special old
  by_cases hno : ∀ b ∈ old, isSpecial b = false
  · -- the value is kept whole
    have hcell : ∀ k, cellTokens old k ↔ k = old := by
      intro k
      constructor
      · rintro (⟨_, e⟩ | ⟨⟨b, hb, hs⟩, _⟩)
        · exact e
        · rw [hno b hb] at hs
          exact absurd hs (by simp)
      · exact fun e => Or.inl ⟨hno, e⟩
    by_cases hcond : (old.length : Int) ≥ smallestMaskingAmount ∨
        ¬ (mapGet m old).length > 0
    · have e : importCell m old = mapSet m old [⟨old, false⟩] := by
        unfold importCell
        rw [if_pos hcond]
        simp [hsp.1 hno]
      rw [e]
      refine ⟨ExtractorForm_mapSet m old h, fun k => ?_⟩
      rw [mem_mapKeys_mapSet, hcell]
    · have e : importCell m old = m := by
        unfold importCell
        rw [if_neg hcond]
      have hmem : old ∈ mapKeys m := by
        by_contra hn
        apply hcond
        right
        rw [mapGet_of_not_mem m old hn]
        simp
      rw [e]
      refine ⟨h, fun k => ?_⟩
      rw [hcell]
      constructor
      · exact Or.inl
      · rintro (h1 | h1)
        · exact h1
        · rw [h1]
          exact hmem
  · -- the value is split
    have hex : ∃ b ∈ old, isSpecial b = true := by
      by_contra hn
      apply hno
      intro b hb
      cases hs : isSpecial b with
      | false => rfl
      | true => exact absurd ⟨b, hb, hs⟩ hn
    have hcell : ∀ k, cellTokens old k ↔ (k ∈ Split old ∧ 2 < k.length) := by
      intro k
      constructor
      · rintro (⟨h1, _⟩ | ⟨_, h2⟩)
        · exact absurd h1 hno
        · exact h2
      · exact fun h2 => Or.inr ⟨hex, h2⟩
    by_cases hcond : (old.length : Int) ≥ smallestMaskingAmount ∨
        ¬ (mapGet m old).length > 0
    · have e : importCell m old = (Split old).foldl
          (fun m val =>
            if (val.length : Int) > smallestMaskingAmount then mapSet m val [⟨val, false⟩]
            else m) m := by
        unfold importCell
        rw [if_pos hcond]
        simp [hsp.2 hex]
      rw [e]
      obtain ⟨h1, h2⟩ := foldl_pieces (Split old) m h
      refine ⟨h1, fun k => ?_⟩
      rw [h2 k, hcell]
    · -- a value shorter than 2 has no piece longer than 2
      have e : importCell m old = m := by
        unfold importCell
        rw [if_neg hcond]
      have hshort : old.length < 2 := by
        have h1 : ¬ (old.length : Int) ≥ smallestMaskingAmount := fun h1 => hcond (Or.inl h1)
        have h2 : (old.length : Int) < 2 := by simpa [smallestMaskingAmount] using h1
        omega
      rw [e]
      refine ⟨h, fun k => ?_⟩
      rw [hcell]
      constructor
      · exact Or.inl
      · rintro (h1 | ⟨h1, h2⟩)
        · exact h1
        · have := mem_Split_length_le old k h1
          omega

theorem foldl_importCell (cells : List GoString) (m : GoMap (List maskstring))
    (h : ExtractorForm m) :
    ExtractorForm (cells.foldl importCell m) ∧
      ∀ k, k ∈ mapKeys (cells.foldl importCell m) ↔
        k ∈ mapKeys m ∨ ∃ old ∈ cells, cellTokens old k := by
  induction cells generalizing m with
  | nil => exact ⟨h, by simp⟩
  | cons old rest ih =>
    obtain ⟨h1, h2⟩ := importCell_keys m old h
    obtain ⟨h3, h4⟩ := ih (importCell m old) h1
    refine ⟨h3, fun k => ?_⟩
    rw [List.foldl_cons, h4 k, h2 k]
    constructor
    · rintro ((h | h) | ⟨o, ho, hc⟩)
      · exact Or.inl h
      · exact Or.inr ⟨old, List.mem_cons_self _ _, h⟩
      · exact Or.inr ⟨o, List.mem_cons_of_mem _ ho, hc⟩
    · rintro (h | ⟨o, ho, hc⟩)
      · exact Or.inl (Or.inl h)
      · rcases List.mem_cons.mp ho with e | e
        · exact Or.inl (Or.inr (e ▸ hc))
        · exact Or.inr ⟨o, e, hc⟩

theorem foldl_rows (rows : List (List GoString)) (m : GoMap (List maskstring))
    (h : ExtractorForm m) :
    ExtractorForm (rows.foldl (fun m row => row.foldl importCell m) m) ∧
      ∀ k, k ∈ mapKeys (rows.foldl (fun m row => row.foldl importCell m) m) ↔
        k ∈ mapKeys m ∨ ∃ row ∈ rows, ∃ old ∈ row, cellTokens old k := by
  induction rows generalizing m with
  | nil => exact ⟨h, by simp⟩
  | cons row rest ih =>
    obtain ⟨h1, h2⟩ := foldl_importCell row m h
    obtain ⟨h3, h4⟩ := ih (row.foldl importCell m) h1
    refine ⟨h3, fun k => ?_⟩
    rw [List.foldl_cons, h4 k, h2 k]
    constructor
    · rintro ((h | h) | ⟨r, hr, hc⟩)
      · exact Or.inl h
      · exact Or.inr ⟨row, List.mem_cons_self _ _, h⟩
      · exact Or.inr ⟨r, List.mem_cons_of_mem _ hr, hc⟩
    · rintro (h | ⟨r, hr, hc⟩)
      · exact Or.inl (Or.inl h)
      · rcases List.mem_cons.mp hr with e | e
        · exact Or.inl (Or.inr (e ▸ hc))
        · exact Or.inr ⟨r, e, hc⟩

theorem eq_tokenMap_of_ExtractorForm (m : GoMap (List maskstring)) (h : ExtractorForm m) :
    m = tokenMap (mapKeys m) := by
  induction m with
  | nil => rfl
  | cons e rest ih =>
    obtain ⟨k0, v0⟩ := e
    have hnd : k0 ∉ mapKeys rest ∧ (mapKeys rest).Nodup := by
      simpa [mapKeys] using h.1
    have hv : v0 = [⟨k0, false⟩] := by
      have := h.2 k0 (by simp [mapKeys])
      simpa [mapGet] using this
    have hrest : ExtractorForm rest := by
      refine ⟨hnd.2, fun k hk => ?_⟩
      have hne : k0 ≠ k := fun e => hnd.1 (e ▸ hk)
      have := h.2 k (by
        simp only [mapKeys, List.map_cons, List.mem_cons]
        exact Or.inr hk)
      simpa [mapGet, hne] using this
    have ih' := ih hrest
    have e1 : mapKeys ((k0, v0) :: rest) = k0 :: mapKeys rest := rfl
    have e2 : tokenMap (k0 :: mapKeys rest) =
        (k0, [⟨k0, false⟩]) :: tokenMap (mapKeys rest) := rfl
    rw [e1, e2, ← ih', hv]

/-! ## Claim C12 -/

/-- C12: the token map built by the extraction loop of `importMappedValuesFromFile` has as
keys exactly the raw values that contain no special byte (kept whole, whatever their
length) and the pieces longer than 2 bytes obtained by splitting the other raw values
on the special bytes; its keys are distinct and every key is mapped to the single
pending fragment equal to itself, so the map is the token map of its keys. -/
theorem C12_extraction_rule (valuesRows : List (List GoString)) :
    (∀ k, k ∈ mapKeys (importMappedValues valuesRows) ↔
      ∃ row ∈ valuesRows, ∃ old ∈ row,
        ((∀ b ∈ old, isSpecial b = false) ∧ k = old) ∨
          ((∃ b ∈ old, isSpecial b = true) ∧ k ∈ Split old ∧ 2 < k.length)) ∧
      (mapKeys (importMappedValues valuesRows)).Nodup ∧
      (∀ k ∈ mapKeys (importMappedValues valuesRows),
        mapGet (importMappedValues valuesRows) k = [⟨k, false⟩]) ∧
      importMappedValues valuesRows = tokenMap (mapKeys (importMappedValues valuesRows)) := by
  have h0 : ExtractorForm [] := ⟨by simp [mapKeys], by simp [mapKeys]⟩
  obtain ⟨h1, h2⟩ := foldl_rows valuesRows [] h0
  refine ⟨fun k => ?_, h1.1, h1.2, eq_tokenMap_of_ExtractorForm _ h1⟩
  have := h2 k
  simp only [mapKeys, List.map_nil, List.not_mem_nil, false_or] at this
  exact this

/-! ## Lemmas: the read/write loop -/

theorem takeWhile_take_line (l rest : GoString) (n : Nat) (h10 : (10 : UInt8) ∉ l)
    (hlen : l.length < n) :
    ((l ++ 10 :: rest).take n).takeWhile (fun b => b != 10) = l ∧
      l.length < ((l ++ 10 :: rest).take n).length := by
  induction l generalizing n with
  | nil =>
    cases n with
    | zero => omega
    | succ k => simp
  | cons a l ih =>
    cases n with
    | zero => omega
    | succ k =>
      have ha : a ≠ 10 := fun e => h10 (e ▸ List.mem_cons_self _ _)
      obtain ⟨h1, h2⟩ := ih k (fun h => h10 (List.mem_cons_of_mem _ h)) (by simpa using hlen)
      have e : ((a :: l) ++ 10 :: rest).take (k + 1) = a :: (l ++ 10 :: rest).take k := rfl
      rw [e]
      constructor
      · simp [List.takeWhile_cons, ha, h1]
      · simpa using h2

/-- A line shorter than the buffer that ends in a line feed, and has no carriage
return before it, is read whole. -/
theorem ReadLine_line (l rest : GoString) (h10 : (10 : UInt8) ∉ l)
    (hlen : l.length < defaultBufSize) (hcr : l.getLast? ≠ some 13) :
    ReadLine (l ++ 10 :: rest) = ⟨l, false, false, rest⟩ := by
  obtain ⟨h1, h2⟩ := takeWhile_take_line l rest defaultBufSize h10 hlen
  have hdrop : (l ++ 10 :: rest).drop (l.length + 1) = rest := by
    have : l ++ 10 :: rest = (l ++ [10]) ++ rest := by simp
    rw [this]
    exact List.drop_left' (by simp)
  unfold ReadLine
  simp only [h1, h2, if_true, hcr, if_false, hdrop]

theorem ReadLine_nil : ReadLine [] = ⟨[], false, true, []⟩ := by decide

/-- A line that fills the buffer before its line feed is returned in pieces: the first
`defaultBufSize` bytes come back as a prefix, the rest of the line stays unread. -/
theorem ReadLine_prefix (unread : GoString) (hlen : defaultBufSize ≤ unread.length)
    (h10 : (10 : UInt8) ∉ unread.take defaultBufSize)
    (hcr : (unread.take defaultBufSize).getLast? ≠ some 13) :
    ReadLine unread =
      ⟨unread.take defaultBufSize, true, false, unread.drop defaultBufSize⟩ := by
  have hw : (unread.take defaultBufSize).length = defaultBufSize := by
    rw [List.length_take]
    omega
  have hhead : (unread.take defaultBufSize).takeWhile (fun b => b != 10) =
      unread.take defaultBufSize := by
    apply List.takeWhile_eq_self_iff.mpr
    intro b hb
    have : b ≠ 10 := fun e => h10 (e ▸ hb)
    simpa using this
  unfold ReadLine
  simp only [hhead, lt_irrefl, if_false, hw, if_true, hcr]

/-- What the loop does for a dataset of lines that end in a line feed, are shorter than
the buffer and have no carriage return at the end, when `onePercent` is not zero:
every line is written blanked and replaced, then one more line is written for the
empty line that `ReadLine` returns with `io.EOF`, and the number of lines is
returned. -/
theorem readWriteLoop_lines (replacer : List (GoString × GoString)) (onePercent : Int)
    (hp : onePercent ≠ 0) (lines : List GoString)
    (hlines : ∀ l ∈ lines, (10 : UInt8) ∉ l ∧ l.length < defaultBufSize ∧
      l.getLast? ≠ some 13)
    (fuel : Nat) (hfuel : lines.length < fuel) (written : GoString) (counter : Int) :
    readWriteLoop replacer onePercent fuel (lines.flatMap (fun l => l ++ [10])) written
        counter =
      LoopOutcome.returned
        (written ++ lines.flatMap (fun l => Replace replacer (descriptionReplace l) ++ [10]) ++
          (Replace replacer (descriptionReplace []) ++ [10]))
        (counter + (lines.length : Int)) := by
  induction lines generalizing fuel written counter with
  | nil =>
    cases fuel with
    | zero => omega
    | succ f =>
      have hn : str "\n" = [10] := by decide
      simp [readWriteLoop, ReadLine_nil, hn]
  | cons l ls ih =>
    cases fuel with
    | zero => omega
    | succ f =>
      obtain ⟨h10, hlen, hcr⟩ := hlines l (List.mem_cons_self _ _)
      have hn : str "\n" = [10] := by decide
      have hread : ReadLine ((l :: ls).flatMap (fun l => l ++ [10])) =
          ⟨l, false, false, ls.flatMap (fun l => l ++ [10])⟩ := by
        have e : (l :: ls).flatMap (fun l => l ++ [10]) =
            l ++ 10 :: ls.flatMap (fun l => l ++ [10]) := by simp
        rw [e]
        exact ReadLine_line l _ h10 hlen hcr
      have hrec := ih (fun x hx => hlines x (List.mem_cons_of_mem _ hx)) f
        (by simpa using hfuel)
        (written ++ (Replace replacer (descriptionReplace l) ++ [10])) (counter + 1)
      simp only [readWriteLoop, hread, hn, Bool.false_eq_true, if_false, hp]
      rw [hrec]
      simp only [List.flatMap_cons, List.length_cons, List.append_assoc]
      congr 1
      push_cast
      omega

theorem ReadLine_eof_of_ne_nil (unread : GoString) (h : unread ≠ []) :
    (ReadLine unread).eof = false := by
  have hw : unread.take defaultBufSize ≠ [] := by
    cases unread with
    | nil => exact absurd rfl h
    | cons c cs => simp [defaultBufSize]
  unfold ReadLine
  simp only []
  split_ifs <;> rfl

/-- Every dataset that is not empty and has fewer than 100 line feeds ends the loop in
the division by zero. -/
theorem maskDataset_divideByZero (content : GoString) (maskedValues : GoMap GoString)
    (hne : content ≠ []) (hsmall : getFileLength content < 100) :
    maskDataset content maskedValues = some LoopOutcome.divideByZero := by
  have h0 : 0 ≤ getFileLength content := by
    unfold getFileLength
    omega
  have hp : (getFileLength content).tdiv 100 = 0 := by
    rw [Int.tdiv_eq_ediv h0 (by decide)]
    omega
  unfold maskDataset
  rw [datasetReplacer_eq]
  simp only [Option.map_some', hp, readWriteLoop, ReadLine_eof_of_ne_nil content hne]
  rfl

theorem count_lines (lines : List GoString) (hlines : ∀ l ∈ lines, (10 : UInt8) ∉ l) :
    (lines.flatMap (fun l => l ++ [10])).count 10 = lines.length ∧
      lines.length ≤ (lines.flatMap (fun l => l ++ [10])).length := by
  induction lines with
  | nil => simp
  | cons l ls ih =>
    obtain ⟨h1, h2⟩ := ih (fun x hx => hlines x (List.mem_cons_of_mem _ hx))
    have h0 : l.count 10 = 0 := List.count_eq_zero.mpr (hlines l (List.mem_cons_self _ _))
    constructor
    · simp only [List.flatMap_cons, List.count_append, h0, h1, List.length_cons]
      simp
      omega
    · simp only [List.flatMap_cons, List.length_append, List.length_cons]
      simp only [List.length_singleton, List.length_nil]
      omega

/-- For a dataset of at least 100 lines, each ended by a line feed, shorter than the
buffer and without a carriage return at its end, `maskDataset` returns the number of
lines and writes one line more than it read: the masked lines and then the masked
empty line. -/
theorem maskDataset_lines (maskedValues : GoMap GoString) (lines : List GoString)
    (hlines : ∀ l ∈ lines, (10 : UInt8) ∉ l ∧ l.length < defaultBufSize ∧
      l.getLast? ≠ some 13)
    (h100 : 100 ≤ lines.length) :
    maskDataset (lines.flatMap (fun l => l ++ [10])) maskedValues =
      (datasetReplacer maskedValues).map (fun replacer =>
        LoopOutcome.returned
          (lines.flatMap (fun l => Replace replacer (descriptionReplace l) ++ [10]) ++
            (Replace replacer (descriptionReplace []) ++ [10]))
          (lines.length : Int)) := by
  obtain ⟨hcount, hlen⟩ := count_lines lines (fun l hl => (hlines l hl).1)
  have hp : ((((lines.flatMap (fun l => l ++ [10])).count 10 : Nat) : Int)).tdiv 100 ≠ 0 := by
    rw [hcount, Int.tdiv_eq_ediv (by omega) (by decide)]
    omega
  unfold maskDataset getFileLength
  rw [datasetReplacer_eq]
  simp only [Option.map_some']
  rw [readWriteLoop_lines _ _ hp lines hlines _ (by omega)]
  simp

/-! ## Claims C13 and C17 -/

set_option maxRecDepth 100000 in
/-- C13, the code at the failing inputs: for the empty dataset (0 lines) the loop writes
one line and returns 0; for the dataset of 100 lines "x" it returns 100 and writes 101
lines, the 100 lines followed by an empty one; for a dataset of one line it ends in a
division by zero and writes nothing. -/
theorem C13_extra_line_written :
    maskDataset (str "") [] = some (LoopOutcome.returned (str "\n") 0) ∧
    maskDataset ((List.replicate 100 (str "x\n")).flatten) [] =
      some (LoopOutcome.returned ((List.replicate 100 (str "x\n")).flatten ++ str "\n") 100) ∧
    maskDataset (str "x\n") [] = some LoopOutcome.divideByZero := by
  decide

set_option maxRecDepth 100000 in
/-- C17, the code at the failing inputs: for a dataset of one line, and for one of 99
lines, `fileLength / 100` is 0 and the loop ends in the division by zero of
`counter % onePercent` after the first line is read. -/
theorem C17_progress_division_by_zero :
    getFileLength (str "x\n") = 1 ∧ (getFileLength (str "x\n")).tdiv 100 = 0 ∧
    maskDataset (str "x\n") [] = some LoopOutcome.divideByZero ∧
    getFileLength ((List.replicate 99 (str "x\n")).flatten) = 99 ∧
    maskDataset ((List.replicate 99 (str "x\n")).flatten)
        [(str "Alice", str "X1"), (str "AliceSmith", str "Y2")] =
      some LoopOutcome.divideByZero := by
  decide

/-! ## Claim C5: whole lines in the read/write loop -/

/-- A line shorter than the buffer that ends in "\r\n" is read whole, without the
line end. -/
theorem ReadLine_crlf (l rest : GoString) (h10 : (10 : UInt8) ∉ l)
    (hlen : l.length + 2 ≤ defaultBufSize) :
    ReadLine (l ++ str "\r\n" ++ rest) = ⟨l, false, false, rest⟩ := by
  have e : l ++ str "\r\n" ++ rest = (l ++ [13]) ++ 10 :: rest := by
    have : str "\r\n" = [13, 10] := by decide
    rw [this]
    simp
  have h10' : (10 : UInt8) ∉ l ++ [13] := by
    intro h
    rcases List.mem_append.mp h with h | h
    · exact h10 h
    · simp at h
  obtain ⟨h1, h2⟩ := takeWhile_take_line (l ++ [13]) rest defaultBufSize h10'
    (by simp only [List.length_append, List.length_singleton]; omega)
  have hdrop : ((l ++ [13]) ++ 10 :: rest).drop ((l ++ [13]).length + 1) = rest := by
    have : (l ++ [13]) ++ 10 :: rest = ((l ++ [13]) ++ [10]) ++ rest := by simp
    rw [this]
    exact List.drop_left' (by simp)
  have hlast : (l ++ [13]).getLast? = some 13 := by simp
  rw [e]
  unfold ReadLine
  simp only [h1, h2, if_true, hlast, hdrop, List.dropLast_concat]

/-- What is left of an input that does not end in a line feed, when it is shorter than
the buffer, is read as a line. -/
theorem ReadLine_last (l : GoString) (h10 : (10 : UInt8) ∉ l) (hne : l ≠ [])
    (hlen : l.length < defaultBufSize) :
    ReadLine l = ⟨l, false, false, []⟩ := by
  have hw : l.take defaultBufSize = l := List.take_of_length_le (by omega)
  have hhead : l.takeWhile (fun b => b != 10) = l := by
    apply List.takeWhile_eq_self_iff.mpr
    intro b hb
    have : b ≠ 10 := fun e => h10 (e ▸ hb)
    simpa using this
  unfold ReadLine
  simp only [hw, hhead, lt_irrefl, if_false, hne]
  rw [if_neg (by omega)]

/-- A whole line at the beginning of the unread input is what `ReadLine` returns. -/
theorem ReadLine_of_NextLine (unread line rest : GoString) (h : NextLine unread line rest) :
    ReadLine unread = ⟨line, false, false, rest⟩ := by
  obtain ⟨h10, h | h | h⟩ := h
  · obtain ⟨e, hcr, hlen⟩ := h
    have hn : str "\n" = [10] := by decide
    rw [e, hn, List.append_assoc]
    exact ReadLine_line line rest h10 (by omega) hcr
  · obtain ⟨e, hlen⟩ := h
    rw [e]
    exact ReadLine_crlf line rest h10 hlen
  · obtain ⟨e, hrest, hne, hlen⟩ := h
    rw [e, hrest]
    exact ReadLine_last line h10 hne hlen

/-- A line that fills the buffer before its line feed is cut: the loop, which discards
`isPrefix`, treats its first `defaultBufSize` bytes as a line of their own, writes a
line feed after them and goes on inside the line. -/
theorem readWriteLoop_cut_line (replacer : List (GoString × GoString)) (onePercent : Int)
    (hp : onePercent ≠ 0) (fuel : Nat) (unread written : GoString) (counter : Int)
    (hlen : defaultBufSize ≤ unread.length)
    (h10 : (10 : UInt8) ∉ unread.take defaultBufSize)
    (hcr : (unread.take defaultBufSize).getLast? ≠ some 13) :
    readWriteLoop replacer onePercent (fuel + 1) unread written counter =
      readWriteLoop replacer onePercent fuel (unread.drop defaultBufSize)
        (written ++
          (Replace replacer (descriptionReplace (unread.take defaultBufSize)) ++ str "\n"))
        (counter + 1) := by
  simp only [readWriteLoop, ReadLine_prefix unread hlen h10 hcr, Bool.false_eq_true,
    if_false, hp]

/-- C5 (as amended): for a final mapping with non-empty keys and an input line without
Description field that lies whole at the beginning of the unread input (`NextLine`: the
line with its line end fits into the 4096-byte buffer), `ReadLine` returns that line,
the loop writes for it the output of the replacer and a line feed and goes on with the
rest of the input, and no position of the line at which a key occurs is copied: every
byte the replacer copies comes from a position of the line where no key matches. -/
theorem C5_no_match_start_copied (maskedValues : GoMap GoString)
    (hne : ∀ k ∈ mapKeys maskedValues, k ≠ []) (unread line rest : GoString)
    (hnext : NextLine unread line rest) (hdesc : descriptionMatch line = false) :
    ∃ replacer pieces,
      datasetReplacer maskedValues = some replacer ∧
      ReadLine unread = ⟨line, false, false, rest⟩ ∧
      linePieces maskedValues line = some pieces ∧
      (∀ (onePercent : Int) (fuel : Nat) (written : GoString) (counter : Int),
        readWriteLoop replacer onePercent (fuel + 1) unread written counter =
          if onePercent = 0 then LoopOutcome.divideByZero
          else readWriteLoop replacer onePercent fuel rest
            (written ++ (renderPieces pieces ++ str "\n")) (counter + 1)) ∧
      ∀ p b, Piece.copied p b ∈ pieces →
        line.get? p = some b ∧ ∀ k ∈ mapKeys maskedValues, ¬ k <+: line.drop p := by
  obtain ⟨pieces, hp, _, hcopied⟩ := linePieces_copied maskedValues hne line hdesc
  have hread := ReadLine_of_NextLine unread line rest hnext
  have hrep := datasetReplacer_eq maskedValues
  refine ⟨_, pieces, hrep, hread, hp, ?_, hcopied⟩
  intro onePercent fuel written counter
  rw [linePieces, hrep] at hp
  have hpieces := Option.some.inj hp
  simp only [readWriteLoop, hread, Replace, hpieces, Bool.false_eq_true, if_false]

/-- C5 fails as stated: with the final mapping for the tokens "ab" and "bcd" the line
"abcd" becomes "_MT_cd"; the key "bcd" occurs at position 1, and positions 2 and 3,
which lie inside that occurrence, are copied. -/
theorem C5_counterexample :
    descriptionMatch (str "abcd") = false ∧
    str "bcd" ∈ mapKeys (initMaskValues (tokenMap [str "ab", str "bcd"]) []) ∧
    (∀ k ∈ mapKeys (initMaskValues (tokenMap [str "ab", str "bcd"]) []), k ≠ []) ∧
    str "bcd" <+: (str "abcd").drop 1 ∧
    linePieces (initMaskValues (tokenMap [str "ab", str "bcd"]) []) (str "abcd") =
      some [Piece.replaced 0 2 (str "_MT_"), Piece.copied 2 99, Piece.copied 3 100] ∧
    maskLine (initMaskValues (tokenMap [str "ab", str "bcd"]) []) (str "abcd") =
      some (str "_MT_cd") := by
  decide

/-- C5 (as amended) at the final mapping for the tokens "ab" and "bcd" and the line
"abcd", ended by "\r\n" and followed by the line "xy". -/
theorem C5_no_match_start_copied_witness :
    ((∀ k ∈ mapKeys (initMaskValues (tokenMap [str "ab", str "bcd"]) []), k ≠ []) ∧
      NextLine (str "abcd\r\nxy\n") (str "abcd") (str "xy\n") ∧
      descriptionMatch (str "abcd") = false) ∧
    ∃ replacer pieces,
      datasetReplacer (initMaskValues (tokenMap [str "ab", str "bcd"]) []) = some replacer ∧
      ReadLine (str "abcd\r\nxy\n") = ⟨str "abcd", false, false, str "xy\n"⟩ ∧
      linePieces (initMaskValues (tokenMap [str "ab", str "bcd"]) []) (str "abcd") =
        some pieces ∧
      (∀ (onePercent : Int) (fuel : Nat) (written : GoString) (counter : Int),
        readWriteLoop replacer onePercent (fuel + 1) (str "abcd\r\nxy\n") written counter =
          if onePercent = 0 then LoopOutcome.divideByZero
          else readWriteLoop replacer onePercent fuel (str "xy\n")
            (written ++ (renderPieces pieces ++ str "\n")) (counter + 1)) ∧
      ∀ p b, Piece.copied p b ∈ pieces →
        (str "abcd").get? p = some b ∧
          ∀ k ∈ mapKeys (initMaskValues (tokenMap [str "ab", str "bcd"]) []),
            ¬ k <+: (str "abcd").drop p :=
  ⟨⟨by decide, ⟨by decide, Or.inr (Or.inl ⟨by decide, by decide⟩)⟩, by decide⟩,
    C5_no_match_start_copied (initMaskValues (tokenMap [str "ab", str "bcd"]) [])
      (by decide) (str "abcd\r\nxy\n") (str "abcd") (str "xy\n")
      ⟨by decide, Or.inr (Or.inl ⟨by decide, by decide⟩)⟩ (by decide)⟩

end BigMask
